import Mathlib

/-!
# Incremental planar Delaunay triangulation (Bowyer–Watson) — verification development

Shallow embedding of `2D_delaunay/delaunay.h` and `2D_delaunay/numeric.h`, and of the point
generator and `giftWrapping` of `2D_convex/2D_convex.cpp`.

* The numeric type `T` of the templates is modelled twice.  The definitions that carry the
  names of the source work over the exact rationals `ℚ`, with the machine constants of
  `std::numeric_limits<float>` (the instantiation used by the driver program) kept as the
  rationals `2⁻²³` and `2⁻¹²⁶`.  Where rounding decides a statement, a second definition
  with the suffix `F` evaluates the same expression for `T = float`, every operation rounded
  to IEEE 754 binary32 by `roundTo` (round to nearest, ties to even, with subnormal numbers
  and overflow to infinity).  A `FloatVal` is a rational that the format can hold, an
  infinity or NaN; the sign of zero, which no comparison observes, is not kept.
* `std::vector` is modelled by `List`; the member state of the class `Delaunay`
  is the structure `Delaunay`, threaded explicitly through `triangulate`.
* The unchecked read `vertices[0]` is modelled by `Option`: `none` stands for the
  out-of-bounds read of an empty vector.
* The types of `vector2.h`, `edge.h` and `triangle.h` are modelled from the specification;
  the definitions that stand for them are marked `Modelled from the spec:`.
* The `double` coordinates of `2D_convex.cpp` are modelled by `ℚ` as well, and the
  definitions with the suffix `D` round every operation to binary64; the `do … while`
  loop of `giftWrapping` is a recursion on a bound of `n + 1` iterations, the most that its
  condition `hull.size() <= n` allows.
-/

namespace CGFinal

/-! ## numeric.h -/

/-- The value `std::numeric_limits<float>::epsilon()`. -/
def epsilon : ℚ := 1 / 2 ^ 23

/-- The value `std::numeric_limits<float>::min()`, the smallest positive normal number. -/
def smallestNormal : ℚ := 1 / 2 ^ 126

/-- The function `almost_equal(T x, T y, int ulp)` of `numeric.h`. -/
def almost_equal (x y : ℚ) (ulp : ℤ) : Bool :=
  decide (|x - y| ≤ epsilon * |x + y| * (ulp : ℚ)) || decide (|x - y| < smallestNormal)

/-- The default value of the parameter `ulp` of `almost_equal`. -/
def defaultUlp : ℤ := 2

/-- The function `half` of `numeric.h`. -/
def half (x : ℚ) : ℚ := (1 / 2) * x

/-! ## vector2.h, edge.h, triangle.h -/

/-- Modelled from the spec: the point type `Vector2<T>` of the missing `vector2.h`, a value
`(x, y)` with no identity beyond its coordinates. -/
structure Vector2 where
  x : ℚ
  y : ℚ
  deriving DecidableEq, Repr

/-- Modelled from the spec: squared distance between two points (missing `vector2.h`), used for
the squared radius of the circumcircle and for the containment test. -/
def Vector2.dist2 (a b : Vector2) : ℚ :=
  (a.x - b.x) * (a.x - b.x) + (a.y - b.y) * (a.y - b.y)

/-- Modelled from the spec: `coordsEqual` of §4.2 (missing `vector2.h`), the near-equality
comparator applied independently to each coordinate of a point pair. -/
def coordsEqual (a b : Vector2) : Bool :=
  almost_equal a.x b.x defaultUlp && almost_equal a.y b.y defaultUlp

/-- Modelled from the spec: the type `Edge<T>` of the missing `edge.h`, a pair of points with
the transient removal mark `isBad`. -/
structure Edge where
  p1 : Vector2
  p2 : Vector2
  isBad : Bool
  deriving DecidableEq, Repr

/-- Modelled from the spec: the constructor `Edge(p1, p2)` (missing `edge.h`); a new edge is
not marked. -/
def Edge.new (p1 p2 : Vector2) : Edge := { p1 := p1, p2 := p2, isBad := false }

/-- Modelled from the spec: `edgesEqual` of §4.2, the overload `almost_equal(Edge, Edge)` of the
missing `edge.h`. -/
def edgesEqual (e f : Edge) : Bool :=
  (coordsEqual e.p1 f.p1 && coordsEqual e.p2 f.p2) ||
  (coordsEqual e.p1 f.p2 && coordsEqual e.p2 f.p1)

/-- Modelled from the spec: the denominator determinant of the circumcentre formula (missing
`triangle.h`); it is twice the signed area of the triangle. -/
def circumDet (a b c : Vector2) : ℚ :=
  a.x * (b.y - c.y) + b.x * (c.y - a.y) + c.x * (a.y - b.y)

/-- Modelled from the spec: the circumcentre by the standard determinant formula (missing
`triangle.h`), the intersection of the perpendicular bisectors. -/
def circumCenter (a b c : Vector2) : Vector2 :=
  let na := a.x * a.x + a.y * a.y
  let nb := b.x * b.x + b.y * b.y
  let nc := c.x * c.x + c.y * c.y
  { x := half ((na * (b.y - c.y) + nb * (c.y - a.y) + nc * (a.y - b.y)) / circumDet a b c),
    y := half ((na * (c.x - b.x) + nb * (a.x - c.x) + nc * (b.x - a.x)) / circumDet a b c) }

/-- Modelled from the spec: the type `Triangle<T>` of the missing `triangle.h`: three points,
the three boundary edges and the circumcircle (centre and squared radius) derived at
construction, and the transient mark `isBad`. -/
structure Triangle where
  p1 : Vector2
  p2 : Vector2
  p3 : Vector2
  e1 : Edge
  e2 : Edge
  e3 : Edge
  circum : Vector2
  circumRadius2 : ℚ
  isBad : Bool
  deriving DecidableEq, Repr

/-- Modelled from the spec: the constructor `Triangle(p1, p2, p3)` (missing `triangle.h`), with
the boundary edges `(p1,p2), (p2,p3), (p3,p1)` and the precomputed circumcircle. -/
def Triangle.new (p1 p2 p3 : Vector2) : Triangle :=
  { p1 := p1, p2 := p2, p3 := p3,
    e1 := Edge.new p1 p2, e2 := Edge.new p2 p3, e3 := Edge.new p3 p1,
    circum := circumCenter p1 p2 p3,
    circumRadius2 := p1.dist2 (circumCenter p1 p2 p3),
    isBad := false }

/-- Modelled from the spec: `Triangle::containsVertex` (missing `triangle.h`), a membership test
by coordinate identity. -/
def Triangle.containsVertex (t : Triangle) (v : Vector2) : Bool :=
  decide (t.p1 = v) || decide (t.p2 = v) || decide (t.p3 = v)

/-- Modelled from the spec: `Triangle::circumCircleContains` of §4.3 (missing `triangle.h`).
A degenerate triangle (denominator determinant within tolerance of zero) never claims
containment; otherwise the point is contained when its squared distance to the circumcentre is
at most the squared radius, points within tolerance of the circle counting as inside. -/
def Triangle.circumCircleContains (t : Triangle) (v : Vector2) : Bool :=
  if almost_equal (circumDet t.p1 t.p2 t.p3) 0 defaultUlp then false
  else
    decide (v.dist2 t.circum ≤ t.circumRadius2) ||
      almost_equal (v.dist2 t.circum) t.circumRadius2 defaultUlp

/-! ## delaunay.h -/

/-- The member state of the class `Delaunay<T>`. -/
structure Delaunay where
  _triangles : List Triangle
  _edges : List Edge
  _vertices : List Vector2
  deriving DecidableEq, Repr

/-- A freshly constructed `Delaunay<T>` object: three empty vectors. -/
def Delaunay.fresh : Delaunay := { _triangles := [], _edges := [], _vertices := [] }

/-- The accessor `getTriangles`. -/
def Delaunay.getTriangles (d : Delaunay) : List Triangle := d._triangles

/-- The accessor `getEdges`. -/
def Delaunay.getEdges (d : Delaunay) : List Edge := d._edges

/-- The accessor `getVertices`. -/
def Delaunay.getVertices (d : Delaunay) : List Vector2 := d._vertices

/-- The running bounds `minX, minY, maxX, maxY` of the bounding-box loop. -/
structure Bounds where
  minX : ℚ
  minY : ℚ
  maxX : ℚ
  maxY : ℚ
  deriving DecidableEq, Repr

/-- One iteration of the bounding-box loop (lines 34–37). -/
def Bounds.update (b : Bounds) (v : Vector2) : Bounds :=
  let minX := if v.x < b.minX then v.x else b.minX
  let minY := if v.y < b.minY then v.y else b.minY
  let maxX := if v.x > b.maxX then v.x else b.maxX
  let maxY := if v.y > b.maxY then v.y else b.maxY
  { minX := minX, minY := minY, maxX := maxX, maxY := maxY }

/-- Lines 26–38: the bounds are initialised from `vertices[0]` (an out-of-bounds read when the
vector is empty) and then updated with every element, index 0 included. -/
def boundingBox (vertices : List Vector2) : Option Bounds :=
  match vertices.get? 0 with
  | none => none
  | some v0 =>
    some (vertices.foldl Bounds.update
      { minX := v0.x, minY := v0.y, maxX := v0.x, maxY := v0.y })

/-- Lines 40–49: the three vertices `p1, p2, p3` of the super-triangle. -/
def superVertices (b : Bounds) : Vector2 × Vector2 × Vector2 :=
  let dx := b.maxX - b.minX
  let dy := b.maxY - b.minY
  let deltaMax := max dx dy
  let midx := half (b.minX + b.maxX)
  let midy := half (b.minY + b.maxY)
  ({ x := midx - 20 * deltaMax, y := midy - deltaMax },
   { x := midx, y := midy + 20 * deltaMax },
   { x := midx + 20 * deltaMax, y := midy - deltaMax })

/-- The super-triangle `TriangleType(p1, p2, p3)` pushed at line 55. -/
def superTriangle (b : Bounds) : Triangle :=
  Triangle.new (superVertices b).1 (superVertices b).2.1 (superVertices b).2.2

/-- Lines 67–83: the scan of the working set for one point.  A triangle whose circumcircle
contains `p` is marked bad and its three edges are pushed onto `polygon`. -/
def scanTriangles (p : Vector2) : List Triangle → List Triangle × List Edge
  | [] => ([], [])
  | t :: ts =>
    let r := scanTriangles p ts
    if t.circumCircleContains p then
      ({ t with isBad := true } :: r.1, t.e1 :: t.e2 :: t.e3 :: r.2)
    else
      (t :: r.1, r.2)

/-- Lines 89–99 with the number of outer iterations still to run: the head `e` plays `*e1`,
the inner loop marks `e` and every later edge that is `almost_equal` to it. -/
def markDuplicatesAux : Nat → List Edge → List Edge
  | 0, l => l
  | _ + 1, [] => []
  | n + 1, e :: rest =>
    let e' := if rest.any (fun f => edgesEqual e f) then { e with isBad := true } else e
    let rest' := rest.map (fun f => if edgesEqual e f then { f with isBad := true } else f)
    e' :: markDuplicatesAux n rest'

/-- Lines 89–99: the double loop over `polygon`; the outer loop runs once per element, and for
every pair of positions `i < j` whose edges are `almost_equal`, both edges are marked bad. -/
def markDuplicates (polygon : List Edge) : List Edge :=
  markDuplicatesAux polygon.length polygon

/-- One iteration of the insertion loop (lines 58–109) on the working set `_triangles`. -/
def insertPoint (triangles : List Triangle) (p : Vector2) : List Triangle :=
  let scanned := scanTriangles p triangles
  let kept := scanned.1.filter (fun t => !t.isBad)
  let polygon := (markDuplicates scanned.2).filter (fun e => !e.isBad)
  kept ++ polygon.map (fun e => Triangle.new e.p1 e.p2 p)

/-- Lines 116–121: the three edges of every triangle, in triangle order. -/
def edgesOf (triangles : List Triangle) : List Edge :=
  triangles.flatMap (fun t => [t.e1, t.e2, t.e3])

/-- Lines 112–114: the final `remove_if`, which drops every triangle that contains one of the
super-triangle vertices `p1, p2, p3`. -/
def removeSuper (b : Bounds) (triangles : List Triangle) : List Triangle :=
  triangles.filter (fun t =>
    !(t.containsVertex (superVertices b).1 || t.containsVertex (superVertices b).2.1 ||
      t.containsVertex (superVertices b).2.2))

/-- The member function `Delaunay::triangulate`.  The first component of the result is the
object after the call (the returned reference is its `_triangles`), the second component is the
caller's vector `vertices` after the call.  Neither `_triangles` nor `_edges` is cleared on
entry: the super-triangle and the new edges are pushed behind what the object already holds. -/
def triangulate (d : Delaunay) (vertices : List Vector2) : Option (Delaunay × List Vector2) :=
  match boundingBox vertices with
  | none => none
  | some b =>
    let working := vertices.foldl insertPoint (d._triangles ++ [superTriangle b])
    let final := removeSuper b working
    some ({ _triangles := final, _edges := d._edges ++ edgesOf final, _vertices := vertices },
          vertices)

/-! ## Vocabulary of the statements -/

/-- The three vertices of a triangle, as a list. -/
def Triangle.vertices (t : Triangle) : List Vector2 := [t.p1, t.p2, t.p3]

/-- Two edges join the same two points (exact coordinates, either endpoint order). -/
def sameSegment (e f : Edge) : Bool :=
  (decide (e.p1 = f.p1) && decide (e.p2 = f.p2)) || (decide (e.p1 = f.p2) && decide (e.p2 = f.p1))

/-- The edges of `s` that are also edges of `t`. -/
def sharedEdges (s t : Triangle) : List Edge :=
  [s.e1, s.e2, s.e3].filter (fun e => [t.e1, t.e2, t.e3].any (fun f => sameSegment e f))

/-- Number of entries of an edge list that join `a` and `b`, counting either endpoint order. -/
def occurrences (a b : Vector2) (edges : List Edge) : Nat :=
  edges.countP (fun e => sameSegment e (Edge.new a b))

/-- Twice the signed area of the triangle `a b c`; zero exactly when the points are collinear. -/
def orient (a b c : Vector2) : ℚ :=
  (b.x - a.x) * (c.y - a.y) - (b.y - a.y) * (c.x - a.x)

/-- The in-circle determinant of four points; zero exactly when they are cocircular or
collinear. -/
def inCircleDet (a b c d : Vector2) : ℚ :=
  let ax := a.x - d.x
  let ay := a.y - d.y
  let bx := b.x - d.x
  let bY := b.y - d.y
  let cx := c.x - d.x
  let cy := c.y - d.y
  (ax * ax + ay * ay) * (bx * cy - cx * bY) - (bx * bx + bY * bY) * (ax * cy - cx * ay) +
    (cx * cx + cy * cy) * (ax * bY - bx * ay)

/-- General position: no three of the points are collinear and no four are cocircular. -/
def generalPosition (vs : List Vector2) : Bool :=
  (vs.sublistsLen 3).all (fun l =>
    match l with
    | [a, b, c] => decide (orient a b c ≠ 0)
    | _ => true) &&
  (vs.sublistsLen 4).all (fun l =>
    match l with
    | [a, b, c, d] => decide (inCircleDet a b c d ≠ 0)
    | _ => true)

/-- The segment `a b` lies on the boundary of the convex hull of `vs`: every point of `vs` is on
one side of the line through `a` and `b`. -/
def isHullEdge (vs : List Vector2) (a b : Vector2) : Bool :=
  vs.all (fun v => decide (0 ≤ orient a b v)) || vs.all (fun v => decide (orient a b v ≤ 0))

/-- The point `v` is a vertex of the convex hull of `vs` (for points in general position): it is
an endpoint of a hull-boundary segment. -/
def isHullVertex (vs : List Vector2) (v : Vector2) : Bool :=
  vs.any (fun w => decide (w ≠ v) && isHullEdge vs v w)

/-- The number `H` of input points that are vertices of the convex hull. -/
def hullCount (vs : List Vector2) : Nat := vs.countP (isHullVertex vs)

/-- Scenario A: the input `[(0,0), (1,0), (0,1)]`. -/
def scenarioA : List Vector2 := [⟨0, 0⟩, ⟨1, 0⟩, ⟨0, 1⟩]

/-- Scenario B: the unit square `[(0,0), (1,0), (1,1), (0,1)]`. -/
def scenarioB : List Vector2 := [⟨0, 0⟩, ⟨1, 0⟩, ⟨1, 1⟩, ⟨0, 1⟩]

/-- A flat triangle `[(0,0), (100,0), (50,-1)]`: three points in general position whose
circumcircle (centre `(50, 1249.5)`) reaches beyond the super-triangle vertex `(50, 1999.5)`. -/
def flatTriangle : List Vector2 := [⟨0, 0⟩, ⟨100, 0⟩, ⟨50, -1⟩]

/-- An input of two points. -/
def twoPoints : List Vector2 := [⟨0, 0⟩, ⟨3, 4⟩]

/-- The point `v` is one of the super-triangle vertices `p1, p2, p3` computed from the bounds
`b`. -/
def IsSuperVertex (b : Bounds) (v : Vector2) : Prop :=
  v = (superVertices b).1 ∨ v = (superVertices b).2.1 ∨ v = (superVertices b).2.2

/-- The triangle has a super-triangle vertex among its three vertices. -/
def TouchesSuper (b : Bounds) (t : Triangle) : Prop :=
  IsSuperVertex b t.p1 ∨ IsSuperVertex b t.p2 ∨ IsSuperVertex b t.p3

/-! ## Parts of one insertion step -/

/-- The value `deltaMax` of lines 40–42: the larger side of the bounding box. -/
def Bounds.deltaMax (b : Bounds) : ℚ := max (b.maxX - b.minX) (b.maxY - b.minY)

/-- The triangles left in `_triangles` by the `erase`/`remove_if` of lines 85–87 in the step
for the point `p`. -/
def keptTriangles (triangles : List Triangle) (p : Vector2) : List Triangle :=
  (scanTriangles p triangles).1.filter (fun t => !t.isBad)

/-- The vector `polygon` as the scan of lines 67–83 leaves it, before the duplicate marking. -/
def scannedPolygon (triangles : List Triangle) (p : Vector2) : List Edge :=
  (scanTriangles p triangles).2

/-- The vector `polygon` after lines 89–104: duplicates marked and marked edges erased. -/
def survivingPolygon (triangles : List Triangle) (p : Vector2) : List Edge :=
  (markDuplicates (scannedPolygon triangles p)).filter (fun e => !e.isBad)

/-- The wording of the de-duplication of §4.4 step 2c, to be compared with lines 89–104: of the
entries of a list, read from left to right with the entries already passed in `before`, keep
exactly those that are equal (per `edgesEqual`) to no entry at another position. -/
def survivorsBySpec (before : List Edge) : List Edge → List Edge
  | [] => []
  | e :: rest =>
    if before.any (fun f => edgesEqual e f) || rest.any (fun f => edgesEqual e f) then
      survivorsBySpec (before ++ [e]) rest
    else
      e :: survivorsBySpec (before ++ [e]) rest

/-- The triangle carries the edges that its constructor derives from its vertices, unmarked. -/
def Triangle.WellFormed (t : Triangle) : Prop :=
  t.e1 = Edge.new t.p1 t.p2 ∧ t.e2 = Edge.new t.p2 t.p3 ∧ t.e3 = Edge.new t.p3 t.p1 ∧
    t.isBad = false

/-- Three points on the x-axis; the third lies beyond the second by `1/1024`. -/
def collinearInput : List Vector2 := [⟨0, 0⟩, ⟨1, 0⟩, ⟨1025 / 1024, 0⟩]

/-- Three copies of one point: a bounding box with `deltaMax = 0`. -/
def identicalPoints : List Vector2 := [⟨0, 0⟩, ⟨0, 0⟩, ⟨0, 0⟩]

/-! ## 2D_convex.cpp: the point generator of the convex-hull program -/

/-- The structure `Point` of `2D_convex.cpp`, with exact rational coordinates. -/
structure Point where
  x : ℚ
  y : ℚ
  deriving DecidableEq, Repr

/-- The comparator of the `sort` call (lines 48–50): lexicographic order on `(x, y)`. -/
def lexLess (a b : Point) : Bool :=
  decide (a.x < b.x) || (decide (a.x = b.x) && decide (a.y < b.y))

/-- The predicate of the `unique` call (lines 52–54). -/
def nearDuplicate (a b : Point) : Bool :=
  decide (|a.x - b.x| < 1 / 10 ^ 9) && decide (|a.y - b.y| < 1 / 10 ^ 9)

/-- The loop of `std::unique` once a first element is kept: `last` is the element kept most
recently, and an element is dropped when the predicate holds between `last` and it. -/
def uniqueFrom (last : Point) : List Point → List Point
  | [] => []
  | q :: rest => if nearDuplicate last q then uniqueFrom last rest else q :: uniqueFrom q rest

/-- The calls `unique` and `erase` of lines 52–56. -/
def uniquePoints : List Point → List Point
  | [] => []
  | p :: rest => p :: uniqueFrom p rest

/-- Lines 47–58 of `generateRandomPoints`: the raw generated points are sorted and then passed
through `unique`; the result is what the function returns. -/
def sortAndUnique (raw : List Point) : List Point :=
  uniquePoints (raw.insertionSort (fun a b => lexLess a b = true))

/-- Some pair of entries at different positions of the list is a pair of near-duplicates. -/
def hasNearDuplicates : List Point → Bool
  | [] => false
  | p :: rest => rest.any (fun q => nearDuplicate p q) || hasNearDuplicates rest

/-- Three raw points with coordinates in `[0, 100)`: the first and the third differ by `2⁻³³`
in `x` only, the second lies between them in `x` and far away in `y`. -/
def rawPoints : List Point := [⟨1, 1⟩, ⟨1 + 1 / 2 ^ 34, 50⟩, ⟨1 + 1 / 2 ^ 33, 1⟩]

/-- The two endpoints of an edge, without its mark. -/
def Edge.ends (e : Edge) : Vector2 × Vector2 := (e.p1, e.p2)

/-- A duplicate-marking input: an edge, an unrelated edge, and the first edge reversed. -/
def samplePolygon : List Edge :=
  [Edge.new ⟨0, 0⟩ ⟨1, 0⟩, Edge.new ⟨1, 0⟩ ⟨0, 1⟩, Edge.new ⟨1, 0⟩ ⟨0, 0⟩]

/-! ## 2D_convex.cpp: gift wrapping -/

/-- The function `crossProduct` (lines 62–64): the cross product `(P1P2) × (P1P3)`. -/
def crossProduct (p1 p2 p3 : Point) : ℚ :=
  (p2.x - p1.x) * (p3.y - p1.y) - (p2.y - p1.y) * (p3.x - p1.x)

/-- The function `distanceSquared` (lines 67–71). -/
def distanceSquared (p1 p2 : Point) : ℚ :=
  let dx := p2.x - p1.x
  let dy := p2.y - p1.y
  dx * dx + dy * dy

/-- The element `points[i]`; every index the loops use is below `points.size()`. -/
def pointAt (points : List Point) (i : Nat) : Point := points.getD i ⟨0, 0⟩

/-- One iteration of the loop of lines 82–87 that looks for the leftmost point. -/
def leftmostStep (points : List Point) (leftmost i : Nat) : Nat :=
  if (pointAt points i).x < (pointAt points leftmost).x ∨
      ((pointAt points i).x = (pointAt points leftmost).x ∧
        (pointAt points i).y < (pointAt points leftmost).y) then i
  else leftmost

/-- Lines 81–87: the index of the leftmost point (the lowest one among equal `x`), found by a
scan of the indices `1 .. n-1` that starts from index 0. -/
def leftmostIndex (points : List Point) : Nat :=
  (List.range' 1 (points.length - 1)).foldl (leftmostStep points) 0

/-- One iteration of the inner loop of lines 100–115 for the current hull point `p`: the
candidate `q` is replaced by `i` when `i` lies strictly to the right of the ray from `p` to
`q`, or on that line and farther from `p`. -/
def wrapStep (points : List Point) (p q i : Nat) : Nat :=
  if i = p ∨ i = q then q
  else
    let cross := crossProduct (pointAt points p) (pointAt points i) (pointAt points q)
    if cross > 0 then i
    else if cross = 0 then
      if distanceSquared (pointAt points p) (pointAt points i) >
          distanceSquared (pointAt points p) (pointAt points q) then i
      else q
    else q

/-- Lines 97–117: the next hull index after `p`, starting from the candidate `(p + 1) % n`. -/
def nextHullIndex (points : List Point) (p : Nat) : Nat :=
  (List.range points.length).foldl (wrapStep points p) ((p + 1) % points.length)

/-- The `do … while` loop of lines 94–119 with a bound on the number of iterations still
allowed; `none` means the bound was reached before the loop condition failed. -/
def wrapLoop (points : List Point) (leftmost : Nat) : Nat → Nat → List Point → Option (List Point)
  | 0, _, _ => none
  | fuel + 1, p, hull =>
    let hull' := hull ++ [pointAt points p]
    let q := nextHullIndex points p
    if q ≠ leftmost ∧ hull'.length ≤ points.length then wrapLoop points leftmost fuel q hull'
    else some hull'

/-- The function `giftWrapping` (lines 74–122).  The loop is given `n + 1` iterations, as many
as its own condition `hull.size() <= n` can allow. -/
def giftWrapping (points : List Point) : Option (List Point) :=
  if points.length < 3 then some points
  else wrapLoop points (leftmostIndex points) (points.length + 1) (leftmostIndex points) []

/-- The vector from `p` to `x` lies in the half-plane to the left of the direction `(dx, dy)`,
or on its boundary line pointing against the direction. -/
def InHalfPlane (dx dy : ℚ) (p x : Point) : Prop :=
  0 < dx * (x.y - p.y) - dy * (x.x - p.x) ∨
    (dx * (x.y - p.y) - dy * (x.x - p.x) = 0 ∧ dx * (x.x - p.x) + dy * (x.y - p.y) < 0)

/-- Seen from `points[p]`, the point `points[j]` is not strictly to the right of the ray to
`points[q]`, and when it lies on that line it is not farther away than `points[q]`. -/
def GoodNext (points : List Point) (p q j : Nat) : Prop :=
  0 ≤ crossProduct (pointAt points p) (pointAt points q) (pointAt points j) ∧
    (crossProduct (pointAt points p) (pointAt points q) (pointAt points j) = 0 →
      distanceSquared (pointAt points p) (pointAt points j) ≤
        distanceSquared (pointAt points p) (pointAt points q))

/-- Every other input point lies in the half-plane of direction `(dx, dy)` seen from
`points[p]`. -/
def ExtremeAt (points : List Point) (p : Nat) (dx dy : ℚ) : Prop :=
  ∀ j, j < points.length → j ≠ p → InHalfPlane dx dy (pointAt points p) (pointAt points j)

/-- The point `points[a]` is not after `points[b]` in the order "leftmost first, lowest first
among equal `x`". -/
def LexLe (points : List Point) (a b : Nat) : Prop :=
  (pointAt points a).x < (pointAt points b).x ∨
    ((pointAt points a).x = (pointAt points b).x ∧ (pointAt points a).y ≤ (pointAt points b).y)

/-- An input of five points: the corners of the unit square and its centre. -/
def squareWithCentre : List Point := [⟨1, 1⟩, ⟨0, 0⟩, ⟨1 / 2, 1 / 2⟩, ⟨1, 0⟩, ⟨0, 1⟩]

/-! ## IEEE 754 binary floating point -/

/-- A binary floating-point format: the precision in bits (the implicit leading bit included)
and the least and the greatest exponent of a normal number. -/
structure FloatFormat where
  prec : ℕ
  emin : ℤ
  emax : ℤ

/-- The type `float`, IEEE 754 binary32. -/
def binary32 : FloatFormat := { prec := 24, emin := -126, emax := 127 }

/-- The type `double`, IEEE 754 binary64. -/
def binary64 : FloatFormat := { prec := 53, emin := -1022, emax := 1023 }

/-- A value of a floating-point type: a finite number, an infinity or a NaN.  The sign of a
zero is not represented; no comparison of the program distinguishes the two zeros. -/
inductive FloatVal where
  | finite (q : ℚ)
  | posInf
  | negInf
  | nan
  deriving DecidableEq, Repr

/-- The power `2 ^ e` for an integer exponent. -/
def pow2 (e : ℤ) : ℚ := if 0 ≤ e then (2 : ℚ) ^ e.toNat else 1 / (2 : ℚ) ^ (-e).toNat

/-- Repeated halving, with a bound on the number of steps. -/
def log2Aux : ℕ → ℕ → ℕ
  | 0, _ => 0
  | fuel + 1, n => if 2 ≤ n then log2Aux fuel (n / 2) + 1 else 0

/-- For `n > 0`, the natural number `k` with `2 ^ k ≤ n < 2 ^ (k + 1)`. -/
def natLog2 (n : ℕ) : ℕ := log2Aux n n

/-- For `x > 0`, the integer `e` with `2 ^ e ≤ x < 2 ^ (e + 1)`. -/
def floorLog2 (x : ℚ) : ℤ :=
  let e0 : ℤ := (natLog2 x.num.natAbs : ℤ) - (natLog2 x.den : ℤ)
  if pow2 e0 ≤ x then e0 else e0 - 1

/-- Rounding of a rational to the nearest integer, a tie going to the even one. -/
def roundHalfEven (r : ℚ) : ℤ :=
  let f := ⌊r⌋
  if r - f < 1 / 2 then f
  else if 1 / 2 < r - f then f + 1
  else if f % 2 = 0 then f else f + 1

/-- The spacing of the numbers of the format around `x ≠ 0`: `2 ^ (e - (prec - 1))` for the
exponent `e` of the binade of `x`, and for `emin` below the normal range. -/
def quantum (f : FloatFormat) (x : ℚ) : ℚ :=
  pow2 (max (floorLog2 |x|) f.emin - ((f.prec : ℤ) - 1))

/-- The magnitude of the rounded value: the multiple of the quantum nearest to `|x|`, a tie
going to the even multiple. -/
def roundMagnitude (f : FloatFormat) (x : ℚ) : ℚ :=
  (roundHalfEven (|x| / quantum f x) : ℚ) * quantum f x

/-- Rounding of an exact result to the format, in the default mode (to nearest, a tie to the
even significand); the result is an infinity when the rounded magnitude leaves the range. -/
def roundTo (f : FloatFormat) (x : ℚ) : FloatVal :=
  if x = 0 then FloatVal.finite 0
  else if pow2 (f.emax + 1) ≤ roundMagnitude f x then
    (if 0 < x then FloatVal.posInf else FloatVal.negInf)
  else FloatVal.finite (if 0 < x then roundMagnitude f x else -roundMagnitude f x)

/-- Negation. -/
def FloatVal.neg : FloatVal → FloatVal
  | FloatVal.finite a => FloatVal.finite (-a)
  | FloatVal.posInf => FloatVal.negInf
  | FloatVal.negInf => FloatVal.posInf
  | FloatVal.nan => FloatVal.nan

/-- The function `std::abs`. -/
def FloatVal.abs : FloatVal → FloatVal
  | FloatVal.finite a => FloatVal.finite |a|
  | FloatVal.posInf => FloatVal.posInf
  | FloatVal.negInf => FloatVal.posInf
  | FloatVal.nan => FloatVal.nan

/-- The operator `+` of the format. -/
def FloatVal.add (f : FloatFormat) : FloatVal → FloatVal → FloatVal
  | FloatVal.finite a, FloatVal.finite b => roundTo f (a + b)
  | FloatVal.nan, _ => FloatVal.nan
  | _, FloatVal.nan => FloatVal.nan
  | FloatVal.posInf, FloatVal.negInf => FloatVal.nan
  | FloatVal.negInf, FloatVal.posInf => FloatVal.nan
  | FloatVal.posInf, _ => FloatVal.posInf
  | _, FloatVal.posInf => FloatVal.posInf
  | FloatVal.negInf, _ => FloatVal.negInf
  | _, FloatVal.negInf => FloatVal.negInf

/-- The operator `-` of the format. -/
def FloatVal.sub (f : FloatFormat) (a b : FloatVal) : FloatVal := FloatVal.add f a b.neg

/-- The sign of a value that is not a NaN: `1`, `0` or `-1`. -/
def FloatVal.sign : FloatVal → ℤ
  | FloatVal.finite a => if 0 < a then 1 else if a < 0 then -1 else 0
  | FloatVal.posInf => 1
  | FloatVal.negInf => -1
  | FloatVal.nan => 0

/-- The operator `*` of the format. -/
def FloatVal.mul (f : FloatFormat) : FloatVal → FloatVal → FloatVal
  | FloatVal.finite a, FloatVal.finite b => roundTo f (a * b)
  | FloatVal.nan, _ => FloatVal.nan
  | _, FloatVal.nan => FloatVal.nan
  | a, b =>
    if a.sign * b.sign = 0 then FloatVal.nan
    else if 0 < a.sign * b.sign then FloatVal.posInf else FloatVal.negInf

/-- The operator `<`; a comparison with a NaN is false. -/
def FloatVal.lt : FloatVal → FloatVal → Bool
  | FloatVal.nan, _ => false
  | _, FloatVal.nan => false
  | FloatVal.finite a, FloatVal.finite b => decide (a < b)
  | FloatVal.posInf, _ => false
  | _, FloatVal.negInf => false
  | _, FloatVal.posInf => true
  | FloatVal.negInf, _ => true

/-- The operator `==`; a comparison with a NaN is false. -/
def FloatVal.eq : FloatVal → FloatVal → Bool
  | FloatVal.finite a, FloatVal.finite b => decide (a = b)
  | FloatVal.posInf, FloatVal.posInf => true
  | FloatVal.negInf, FloatVal.negInf => true
  | _, _ => false

/-- The operator `<=`. -/
def FloatVal.le (a b : FloatVal) : Bool := a.lt b || a.eq b

/-- The conversion of an `int` to the format. -/
def FloatVal.ofInt (f : FloatFormat) (n : ℤ) : FloatVal := roundTo f (n : ℚ)

/-! ## numeric.h and delaunay.h in `float` arithmetic -/

/-- The function `almost_equal(T x, T y, int ulp)` of `numeric.h` for `T = float`, every
operation rounded to binary32: `ulp` is converted to `float`, and the product is formed from
the left. -/
def almost_equalF (x y : FloatVal) (ulp : ℤ) : Bool :=
  (FloatVal.sub binary32 x y).abs.le
      (FloatVal.mul binary32
        (FloatVal.mul binary32 (FloatVal.finite epsilon) (FloatVal.add binary32 x y).abs)
        (FloatVal.ofInt binary32 ulp)) ||
    (FloatVal.sub binary32 x y).abs.lt (FloatVal.finite smallestNormal)

/-- The function `half(float x)` of `numeric.h`: `0.5f * x`. -/
def halfF (x : FloatVal) : FloatVal := FloatVal.mul binary32 (FloatVal.finite (1 / 2)) x

/-- The function `std::max(a, b)`: `b` when `a < b`, and `a` otherwise. -/
def FloatVal.max (a b : FloatVal) : FloatVal := if a.lt b then b else a

/-- A point whose two coordinates are finite. -/
def finitePoint : FloatVal → FloatVal → Option Vector2
  | FloatVal.finite x, FloatVal.finite y => some { x := x, y := y }
  | _, _ => none

/-- Lines 40–49 for `T = float`, every operation rounded to binary32: the three vertices
`p1, p2, p3` of the super-triangle; `none` when a coordinate is not finite. -/
def superVerticesF (b : Bounds) : Option (Vector2 × Vector2 × Vector2) :=
  let dx := FloatVal.sub binary32 (FloatVal.finite b.maxX) (FloatVal.finite b.minX)
  let dy := FloatVal.sub binary32 (FloatVal.finite b.maxY) (FloatVal.finite b.minY)
  let deltaMax := FloatVal.max dx dy
  let midx := halfF (FloatVal.add binary32 (FloatVal.finite b.minX) (FloatVal.finite b.maxX))
  let midy := halfF (FloatVal.add binary32 (FloatVal.finite b.minY) (FloatVal.finite b.maxY))
  let far := FloatVal.mul binary32 (FloatVal.ofInt binary32 20) deltaMax
  match finitePoint (FloatVal.sub binary32 midx far) (FloatVal.sub binary32 midy deltaMax),
      finitePoint midx (FloatVal.add binary32 midy far),
      finitePoint (FloatVal.add binary32 midx far) (FloatVal.sub binary32 midy deltaMax) with
  | some p1, some p2, some p3 => some (p1, p2, p3)
  | _, _, _ => none

/-! ## 2D_convex.cpp: gift wrapping in `double` arithmetic -/

/-- The function `crossProduct` (lines 62–64), every operation rounded to binary64. -/
def crossProductD (p1 p2 p3 : Point) : FloatVal :=
  FloatVal.sub binary64
    (FloatVal.mul binary64
      (FloatVal.sub binary64 (FloatVal.finite p2.x) (FloatVal.finite p1.x))
      (FloatVal.sub binary64 (FloatVal.finite p3.y) (FloatVal.finite p1.y)))
    (FloatVal.mul binary64
      (FloatVal.sub binary64 (FloatVal.finite p2.y) (FloatVal.finite p1.y))
      (FloatVal.sub binary64 (FloatVal.finite p3.x) (FloatVal.finite p1.x)))

/-- The function `distanceSquared` (lines 67–71), every operation rounded to binary64. -/
def distanceSquaredD (p1 p2 : Point) : FloatVal :=
  let dx := FloatVal.sub binary64 (FloatVal.finite p2.x) (FloatVal.finite p1.x)
  let dy := FloatVal.sub binary64 (FloatVal.finite p2.y) (FloatVal.finite p1.y)
  FloatVal.add binary64 (FloatVal.mul binary64 dx dx) (FloatVal.mul binary64 dy dy)

/-- One iteration of the inner loop of lines 100–115, with the cross product and the squared
distances computed in `double`. -/
def wrapStepD (points : List Point) (p q i : Nat) : Nat :=
  if i = p ∨ i = q then q
  else
    let cross := crossProductD (pointAt points p) (pointAt points i) (pointAt points q)
    if (FloatVal.finite 0).lt cross then i
    else if cross.eq (FloatVal.finite 0) then
      if (distanceSquaredD (pointAt points p) (pointAt points q)).lt
          (distanceSquaredD (pointAt points p) (pointAt points i)) then i
      else q
    else q

/-- Lines 97–117 in `double` arithmetic: the next hull index after `p`. -/
def nextHullIndexD (points : List Point) (p : Nat) : Nat :=
  (List.range points.length).foldl (wrapStepD points p) ((p + 1) % points.length)

/-- The `do … while` loop of lines 94–119 in `double` arithmetic, with a bound on the number
of iterations still allowed. -/
def wrapLoopD (points : List Point) (leftmost : Nat) : Nat → Nat → List Point → Option (List Point)
  | 0, _, _ => none
  | fuel + 1, p, hull =>
    let hull' := hull ++ [pointAt points p]
    let q := nextHullIndexD points p
    if q ≠ leftmost ∧ hull'.length ≤ points.length then wrapLoopD points leftmost fuel q hull'
    else some hull'

/-- The function `giftWrapping` (lines 74–122) in `double` arithmetic.  The comparisons that
find the leftmost point are exact in any arithmetic. -/
def giftWrappingD (points : List Point) : Option (List Point) :=
  if points.length < 3 then some points
  else wrapLoopD points (leftmostIndex points) (points.length + 1) (leftmostIndex points) []

/-- The `double` evaluation decides every sign of a cross product of three input points, and
every comparison of squared distances on a common line, as the exact values do. -/
def SignsExact (points : List Point) : Prop :=
  ∀ a ∈ points, ∀ b ∈ points, ∀ c ∈ points,
    (FloatVal.finite 0).lt (crossProductD a b c) = decide (0 < crossProduct a b c) ∧
    (crossProductD a b c).eq (FloatVal.finite 0) = decide (crossProduct a b c = 0) ∧
    (crossProduct a b c = 0 →
      (distanceSquaredD a c).lt (distanceSquaredD a b) =
        decide (distanceSquared a c < distanceSquared a b))

/-- The doubles nearest to `(0.1, 0)`, `(0.3, 0.5)` and `(0.5, 1)`. -/
def nearlyCollinearPoints : List Point :=
  [⟨3602879701896397 / 2 ^ 55, 0⟩, ⟨5404319552844595 / 2 ^ 54, 1 / 2⟩, ⟨1 / 2, 1⟩]

/-- Three points with `deltaMax = 1` at the height `2³⁰`, where the spacing of `float` is 64
below and 128 above. -/
def farAwayPoints : List Vector2 := [⟨0, 2 ^ 30⟩, ⟨1, 2 ^ 30⟩, ⟨1 / 2, 2 ^ 30⟩]

/-! ## Vocabulary of the statements about runs and about rounding -/

/-- No three pairwise distinct points of the list are collinear. -/
def NoThreeCollinear (l : List Vector2) : Prop :=
  ∀ a ∈ l, ∀ b ∈ l, ∀ c ∈ l, a ≠ b → a ≠ c → b ≠ c → orient a b c ≠ 0

/-- Where a working triangle comes from, when the points of `done` have been inserted: either
all its vertices satisfy `S` (it was there from the start), or it was built for the point at
some position of `done` on an edge whose two distinct ends satisfy `S` or stand at earlier
positions of `done`. -/
def BuiltFrom (S : Vector2 → Prop) (done : List Vector2) (t : Triangle) : Prop :=
  (∀ v ∈ t.vertices, S v) ∨
    ∃ pre p post, done = pre ++ p :: post ∧ t.p3 = p ∧ t.p1 ≠ t.p2 ∧
      (S t.p1 ∨ t.p1 ∈ pre) ∧ (S t.p2 ∨ t.p2 ∈ pre)

/-- The `float` values `0x1.3ffffap+0` and `0x1.400004p+0`: their sum `2.5 - 2⁻²³` is not a
`float` and rounds to `2.5`. -/
def roundedSumPair : ℚ × ℚ := (20971514 / 2 ^ 24, 20971524 / 2 ^ 24)

/-- The conditions on one insertion step under which the step is a step of the exact
Bowyer–Watson algorithm, for a run that started from the triangle `T0` (the super-triangle):
no working triangle is degenerate within the tolerance of the guard, the circumcircle test
accepts the point only when its squared distance to the circumcentre is at most the squared
radius, and every edge left in `polygon` is also an edge of a triangle that stays in the
working set, or joins two vertices of `T0`. -/
def stepExact (T0 : Triangle) (W : List Triangle) (p : Vector2) : Bool :=
  W.all (fun t =>
      !almost_equal (circumDet t.p1 t.p2 t.p3) 0 defaultUlp &&
        (!t.circumCircleContains p || decide (p.dist2 t.circum ≤ t.circumRadius2))) &&
    (survivingPolygon W p).all (fun e =>
      (keptTriangles W p).any (fun s => s.containsVertex e.p1 && s.containsVertex e.p2) ||
        (T0.containsVertex e.p1 && T0.containsVertex e.p2))

/-- Every insertion step of the run on the points `vs`, started from the working set `W`,
satisfies `stepExact`. -/
def exactRun (T0 : Triangle) : List Triangle → List Vector2 → Bool
  | _, [] => true
  | W, p :: rest => stepExact T0 W p && exactRun T0 (insertPoint W p) rest

/-- The triangle is as its constructor builds it from its three vertices, these are not
collinear, and no point of `done` is strictly inside its circumcircle. -/
def EmptyFor (done : List Vector2) (t : Triangle) : Prop :=
  t = Triangle.new t.p1 t.p2 t.p3 ∧ circumDet t.p1 t.p2 t.p3 ≠ 0 ∧
    ∀ q ∈ done, t.circumRadius2 ≤ q.dist2 t.circum

end CGFinal

namespace CGFinal

/-! ## Auxiliary facts about the loops -/

theorem boundingBox_cons (v : Vector2) (rest : List Vector2) :
    ∃ b, boundingBox (v :: rest) = some b := by
  simp [boundingBox]

theorem mem_scan_fst (p : Vector2) (ts : List Triangle) (t : Triangle)
    (h : t ∈ (scanTriangles p ts).1) (hb : t.isBad = false) :
    t ∈ ts ∧ t.circumCircleContains p = false := by
  induction ts with
  | nil => simp [scanTriangles] at h
  | cons a ts ih =>
    unfold scanTriangles at h
    by_cases hc : a.circumCircleContains p = true
    · simp only [hc, if_true, List.mem_cons] at h
      rcases h with h | h
      · subst h
        simp at hb
      · exact ⟨List.mem_cons_of_mem _ (ih h).1, (ih h).2⟩
    · simp only [hc, Bool.false_eq_true, if_false, List.mem_cons] at h
      rcases h with h | h
      · subst h
        exact ⟨List.mem_cons_self _ _, by simpa using hc⟩
      · exact ⟨List.mem_cons_of_mem _ (ih h).1, (ih h).2⟩

theorem mem_scan_snd (p : Vector2) (ts : List Triangle) (e : Edge)
    (h : e ∈ (scanTriangles p ts).2) :
    ∃ t ∈ ts, t.circumCircleContains p = true ∧ (e = t.e1 ∨ e = t.e2 ∨ e = t.e3) := by
  induction ts with
  | nil => simp [scanTriangles] at h
  | cons a ts ih =>
    unfold scanTriangles at h
    by_cases hc : a.circumCircleContains p = true
    · simp only [hc, if_true, List.mem_cons] at h
      rcases h with h | h | h | h
      · exact ⟨a, List.mem_cons_self _ _, hc, Or.inl h⟩
      · exact ⟨a, List.mem_cons_self _ _, hc, Or.inr (Or.inl h)⟩
      · exact ⟨a, List.mem_cons_self _ _, hc, Or.inr (Or.inr h)⟩
      · obtain ⟨t, ht, hct, het⟩ := ih h
        exact ⟨t, List.mem_cons_of_mem _ ht, hct, het⟩
    · simp only [hc, Bool.false_eq_true, if_false] at h
      obtain ⟨t, ht, hct, het⟩ := ih h
      exact ⟨t, List.mem_cons_of_mem _ ht, hct, het⟩

theorem mem_markDuplicatesAux (n : Nat) (l : List Edge) (e : Edge)
    (h : e ∈ markDuplicatesAux n l) : ∃ e0 ∈ l, e.p1 = e0.p1 ∧ e.p2 = e0.p2 := by
  induction n generalizing l with
  | zero => exact ⟨e, by simpa [markDuplicatesAux] using h, rfl, rfl⟩
  | succ n ih =>
    cases l with
    | nil => simp [markDuplicatesAux] at h
    | cons a rest =>
      simp only [markDuplicatesAux, List.mem_cons] at h
      rcases h with h | h
      · refine ⟨a, List.mem_cons_self _ _, ?_⟩
        subst h
        split <;> exact ⟨rfl, rfl⟩
      · obtain ⟨e0, he0, h1, h2⟩ := ih _ h
        obtain ⟨f, hf, hfe⟩ := List.mem_map.1 he0
        refine ⟨f, List.mem_cons_of_mem _ hf, ?_⟩
        subst hfe
        rw [h1, h2]
        split <;> exact ⟨rfl, rfl⟩

theorem mem_insertPoint (ts : List Triangle) (p : Vector2) (t : Triangle)
    (h : t ∈ insertPoint ts p) :
    (t ∈ ts ∧ t.circumCircleContains p = false) ∨
    ∃ s ∈ ts, ∃ e, (e = s.e1 ∨ e = s.e2 ∨ e = s.e3) ∧ t = Triangle.new e.p1 e.p2 p := by
  unfold insertPoint at h
  simp only [List.mem_append, List.mem_filter, List.mem_map] at h
  rcases h with ⟨h, hb⟩ | ⟨e, ⟨he, _⟩, rfl⟩
  · exact Or.inl (mem_scan_fst p ts t h (by simpa using hb))
  · obtain ⟨e0, he0, h1, h2⟩ := mem_markDuplicatesAux _ _ e he
    obtain ⟨s, hs, _, hes⟩ := mem_scan_snd p ts e0 he0
    exact Or.inr ⟨s, hs, e0, hes, by rw [h1, h2]⟩

theorem triangulate_of_boundingBox (d : Delaunay) (vs : List Vector2) (b : Bounds)
    (hb : boundingBox vs = some b) :
    triangulate d vs =
      some ({ _triangles := removeSuper b (vs.foldl insertPoint (d._triangles ++ [superTriangle b])),
              _edges := d._edges ++
                edgesOf (removeSuper b (vs.foldl insertPoint (d._triangles ++ [superTriangle b]))),
              _vertices := vs }, vs) := by
  simp [triangulate, hb]

theorem mem_removeSuper (b : Bounds) (ts : List Triangle) (t : Triangle)
    (h : t ∈ removeSuper b ts) :
    t ∈ ts ∧ t.containsVertex (superVertices b).1 = false ∧
      t.containsVertex (superVertices b).2.1 = false ∧
      t.containsVertex (superVertices b).2.2 = false := by
  unfold removeSuper at h
  rw [List.mem_filter] at h
  obtain ⟨hm, hf⟩ := h
  simp only [Bool.not_eq_true', Bool.or_eq_false_iff] at hf
  exact ⟨hm, hf.1.1, hf.1.2, hf.2⟩

theorem containsVertex_eq_false (t : Triangle) (v : Vector2) (h : t.containsVertex v = false) :
    t.p1 ≠ v ∧ t.p2 ≠ v ∧ t.p3 ≠ v := by
  unfold Triangle.containsVertex at h
  simp only [Bool.or_eq_false_iff, decide_eq_false_iff_not] at h
  exact ⟨h.1.1, h.1.2, h.2⟩

theorem outside_of_not_contains (t : Triangle) (q : Vector2)
    (h : t.circumCircleContains q = false)
    (hd : almost_equal (circumDet t.p1 t.p2 t.p3) 0 defaultUlp = false) :
    t.circumRadius2 < q.dist2 t.circum := by
  unfold Triangle.circumCircleContains at h
  simp only [hd, Bool.false_eq_true, if_false, Bool.or_eq_false_iff,
    decide_eq_false_iff_not, not_le] at h
  exact h.1

theorem removeSuper_eq_nil (b : Bounds) (W : List Triangle) (h : ∀ t ∈ W, TouchesSuper b t) :
    removeSuper b W = [] := by
  unfold removeSuper
  rw [List.filter_eq_nil_iff]
  intro t ht hfil
  simp only [Bool.not_eq_true', Bool.or_eq_false_iff] at hfil
  obtain ⟨a1, a2, a3⟩ := containsVertex_eq_false t _ hfil.1.1
  obtain ⟨b1, b2, b3⟩ := containsVertex_eq_false t _ hfil.1.2
  obtain ⟨c1, c2, c3⟩ := containsVertex_eq_false t _ hfil.2
  rcases h t ht with (h | h | h) | (h | h | h) | (h | h | h)
  · exact a1 h
  · exact b1 h
  · exact c1 h
  · exact a2 h
  · exact b2 h
  · exact c2 h
  · exact a3 h
  · exact b3 h
  · exact c3 h

theorem superTriangle_level0 (b : Bounds) :
    TouchesSuper b (superTriangle b) ∧
      ∀ e, e = (superTriangle b).e1 ∨ e = (superTriangle b).e2 ∨ e = (superTriangle b).e3 →
        IsSuperVertex b e.p1 ∧ IsSuperVertex b e.p2 := by
  refine ⟨Or.inl (Or.inl rfl), ?_⟩
  intro e he
  rcases he with rfl | rfl | rfl <;>
    simp [superTriangle, Triangle.new, Edge.new, IsSuperVertex]

theorem insertPoint_level1 (b : Bounds) (W : List Triangle) (p : Vector2)
    (h : ∀ t ∈ W, TouchesSuper b t ∧
      ∀ e, e = t.e1 ∨ e = t.e2 ∨ e = t.e3 → IsSuperVertex b e.p1 ∧ IsSuperVertex b e.p2) :
    ∀ t ∈ insertPoint W p, TouchesSuper b t ∧
      ∀ e, e = t.e1 ∨ e = t.e2 ∨ e = t.e3 → IsSuperVertex b e.p1 ∨ IsSuperVertex b e.p2 := by
  intro t ht
  rcases mem_insertPoint W p t ht with ⟨htW, _⟩ | ⟨s, hs, e, he, rfl⟩
  · exact ⟨(h t htW).1, fun e he => Or.inl ((h t htW).2 e he).1⟩
  · obtain ⟨h1, h2⟩ := (h s hs).2 e he
    refine ⟨Or.inl h1, ?_⟩
    intro f hf
    rcases hf with rfl | rfl | rfl
    · exact Or.inl h1
    · exact Or.inl h2
    · exact Or.inr h1

theorem insertPoint_level2 (b : Bounds) (W : List Triangle) (p : Vector2)
    (h : ∀ t ∈ W, TouchesSuper b t ∧
      ∀ e, e = t.e1 ∨ e = t.e2 ∨ e = t.e3 → IsSuperVertex b e.p1 ∨ IsSuperVertex b e.p2) :
    ∀ t ∈ insertPoint W p, TouchesSuper b t := by
  intro t ht
  rcases mem_insertPoint W p t ht with ⟨htW, _⟩ | ⟨s, hs, e, he, rfl⟩
  · exact (h t htW).1
  · rcases (h s hs).2 e he with h1 | h2
    · exact Or.inl h1
    · exact Or.inr (Or.inl h2)

theorem almost_equal_comm (x y : ℚ) (ulp : ℤ) : almost_equal x y ulp = almost_equal y x ulp := by
  unfold almost_equal
  rw [abs_sub_comm x y, add_comm x y]

theorem almost_equal_self (x : ℚ) : almost_equal x x defaultUlp = true := by
  unfold almost_equal defaultUlp epsilon
  have h : (0 : ℚ) ≤ 1 / 2 ^ 23 * |x + x| * ((2 : ℤ) : ℚ) := by positivity
  simp [h]

theorem coordsEqual_comm (a b : Vector2) : coordsEqual a b = coordsEqual b a := by
  unfold coordsEqual
  rw [almost_equal_comm a.x b.x, almost_equal_comm a.y b.y]

theorem coordsEqual_self (a : Vector2) : coordsEqual a a = true := by
  unfold coordsEqual
  rw [almost_equal_self, almost_equal_self]
  rfl

theorem edgesEqual_comm (e f : Edge) : edgesEqual e f = edgesEqual f e := by
  unfold edgesEqual
  rw [coordsEqual_comm e.p1 f.p1, coordsEqual_comm e.p2 f.p2, coordsEqual_comm e.p1 f.p2,
    coordsEqual_comm e.p2 f.p1]
  cases coordsEqual f.p1 e.p1 <;> cases coordsEqual f.p2 e.p2 <;>
    cases coordsEqual f.p2 e.p1 <;> cases coordsEqual f.p1 e.p2 <;> rfl

theorem scan_fst_filter (p : Vector2) (W : List Triangle) :
    (scanTriangles p W).1.filter (fun t => !t.isBad) =
      W.filter (fun t => !t.circumCircleContains p && !t.isBad) := by
  induction W with
  | nil => rfl
  | cons a W ih =>
    unfold scanTriangles
    cases hc : a.circumCircleContains p
    · simp only [Bool.false_eq_true, if_false]
      rw [List.filter_cons, List.filter_cons, ih, hc]
      rfl
    · simp only [if_true]
      rw [List.filter_cons, List.filter_cons, ih, hc]
      rfl

theorem scan_snd_flatMap (p : Vector2) (W : List Triangle) :
    (scanTriangles p W).2 =
      (W.filter (fun t => t.circumCircleContains p)).flatMap (fun t => [t.e1, t.e2, t.e3]) := by
  induction W with
  | nil => rfl
  | cons a W ih =>
    unfold scanTriangles
    cases hc : a.circumCircleContains p
    · simp only [Bool.false_eq_true, if_false]
      rw [List.filter_cons, ih, hc]
      rfl
    · simp only [if_true]
      rw [List.filter_cons, ih, hc]
      rfl

theorem length_flatMap_edges (l : List Triangle) :
    (l.flatMap (fun t => [t.e1, t.e2, t.e3])).length = 3 * l.length := by
  induction l with
  | nil => rfl
  | cons a l ih =>
    simp only [List.flatMap_cons, List.length_append, ih, List.length_cons, List.length_nil]
    omega

theorem edgesEqual_congr_right (e f g : Edge) (h : f.ends = g.ends) :
    edgesEqual e f = edgesEqual e g := by
  have h1 : f.p1 = g.p1 := congrArg Prod.fst h
  have h2 : f.p2 = g.p2 := congrArg Prod.snd h
  unfold edgesEqual
  rw [h1, h2]

theorem edgesEqual_congr_left (e f g : Edge) (h : f.ends = g.ends) :
    edgesEqual f e = edgesEqual g e := by
  rw [edgesEqual_comm f e, edgesEqual_comm g e, edgesEqual_congr_right e f g h]

theorem any_edgesEqual_congr (e e' : Edge) (l l' : List Edge) (he : e.ends = e'.ends)
    (hl : l.map Edge.ends = l'.map Edge.ends) :
    l.any (fun f => edgesEqual e f) = l'.any (fun f => edgesEqual e' f) := by
  induction l generalizing l' with
  | nil =>
    cases l' with
    | nil => rfl
    | cons b l' => simp at hl
  | cons a l ih =>
    cases l' with
    | nil => simp at hl
    | cons b l' =>
      simp only [List.map_cons, List.cons.injEq] at hl
      rw [List.any_cons, List.any_cons, ih l' hl.2, edgesEqual_congr_right e a b hl.1,
        edgesEqual_congr_left b e e' he]

theorem survivorsBySpec_cons (before : List Edge) (e : Edge) (rest : List Edge) :
    survivorsBySpec before (e :: rest) =
      if before.any (fun f => edgesEqual e f) || rest.any (fun f => edgesEqual e f) then
        survivorsBySpec (before ++ [e]) rest
      else
        e :: survivorsBySpec (before ++ [e]) rest := rfl

theorem survivorsBySpec_map (g : Edge → Edge) (hg : ∀ f, (g f).ends = f.ends)
    (rest : List Edge) :
    ∀ (B B' : List Edge), B.map Edge.ends = B'.map Edge.ends →
      (∀ f ∈ rest, g f ≠ f → B.any (fun b => edgesEqual f b) = true) →
      survivorsBySpec B' (rest.map g) = survivorsBySpec B rest := by
  induction rest with
  | nil => intro B B' _ _; rfl
  | cons f rest ih =>
    intro B B' hB hchg
    have hrest : (rest.map g).map Edge.ends = rest.map Edge.ends := by
      rw [List.map_map]
      apply List.map_congr_left
      intro a _
      exact hg a
    have hcond : (B'.any (fun b => edgesEqual (g f) b) ||
        (rest.map g).any (fun b => edgesEqual (g f) b)) =
        (B.any (fun b => edgesEqual f b) || rest.any (fun b => edgesEqual f b)) := by
      rw [any_edgesEqual_congr (g f) f B' B (hg f) hB.symm,
        any_edgesEqual_congr (g f) f (rest.map g) rest (hg f) hrest]
    have hrec : survivorsBySpec (B' ++ [g f]) (rest.map g) = survivorsBySpec (B ++ [f]) rest := by
      apply ih
      · simp [hB, hg f]
      · intro a ha hne
        rw [List.any_append, hchg a (List.mem_cons_of_mem _ ha) hne]
        rfl
    rw [List.map_cons, survivorsBySpec_cons, survivorsBySpec_cons, hcond, hrec]
    cases hc : (B.any (fun b => edgesEqual f b) || rest.any (fun b => edgesEqual f b))
    · have hf : g f = f := by
        by_contra hne
        have := hchg f (List.mem_cons_self _ _) hne
        rw [this] at hc
        simp at hc
      simp [hf]
    · simp

theorem markDuplicatesAux_filter (n : Nat) :
    ∀ (l before : List Edge), l.length = n →
      (∀ f ∈ l, f.isBad = before.any (fun b => edgesEqual f b)) →
      (markDuplicatesAux n l).filter (fun e => !e.isBad) = survivorsBySpec before l := by
  induction n with
  | zero =>
    intro l before hl _
    rw [List.length_eq_zero.1 hl]
    rfl
  | succ n ih =>
    intro l before hl hinv
    cases l with
    | nil => simp at hl
    | cons e rest =>
      have hlen : (rest.map (fun f => if edgesEqual e f then { f with isBad := true } else f)).length
          = n := by
        rw [List.length_map]; simpa using hl
      have hinv' : ∀ f ∈ rest.map (fun f => if edgesEqual e f then { f with isBad := true } else f),
          f.isBad = (before ++ [e]).any (fun b => edgesEqual f b) := by
        intro f' hf'
        obtain ⟨f, hf, rfl⟩ := List.mem_map.1 hf'
        have hf0 := hinv f (List.mem_cons_of_mem _ hf)
        cases hef : edgesEqual e f
        · simp only [Bool.false_eq_true, if_false]
          rw [hf0, List.any_append]
          simp [edgesEqual_comm f e, hef]
        · simp only [if_true]
          rw [List.any_append]
          have : edgesEqual { f with isBad := true } e = true := by
            rw [edgesEqual_comm]; exact hef
          simp [this]
      have hmap := survivorsBySpec_map
        (fun f => if edgesEqual e f then { f with isBad := true } else f)
        (by intro f; dsimp only; split <;> rfl) rest (before ++ [e]) (before ++ [e]) rfl
        (by
          intro f _ hne
          have hef : edgesEqual e f = true := by
            by_contra h
            simp [h] at hne
          rw [List.any_append]
          simp [edgesEqual_comm f e, hef])
      have he0 := hinv e (List.mem_cons_self _ _)
      simp only [markDuplicatesAux]
      rw [List.filter_cons, ih _ (before ++ [e]) hlen hinv', hmap, survivorsBySpec_cons]
      cases hb : before.any (fun b => edgesEqual e b) <;>
        cases hr : rest.any (fun f => edgesEqual e f) <;>
        simp [he0, hb, hr]

theorem survivorsBySpec_sublist (l : List Edge) :
    ∀ before : List Edge, List.Sublist (survivorsBySpec before l) l := by
  induction l with
  | nil => intro _; exact List.Sublist.slnil
  | cons e rest ih =>
    intro before
    rw [survivorsBySpec_cons]
    split
    · exact List.Sublist.cons _ (ih _)
    · exact List.Sublist.cons₂ _ (ih _)

theorem foldl_update_minX (l : List Vector2) (b0 : Bounds) :
    (l.foldl Bounds.update b0).minX ≤ b0.minX ∧
    (∀ v ∈ l, (l.foldl Bounds.update b0).minX ≤ v.x) ∧
    ((l.foldl Bounds.update b0).minX = b0.minX ∨ ∃ v ∈ l, v.x = (l.foldl Bounds.update b0).minX) := by
  induction l generalizing b0 with
  | nil => exact ⟨le_refl _, by simp, Or.inl rfl⟩
  | cons a l ih =>
    rw [List.foldl_cons]
    obtain ⟨h1, h2, h3⟩ := ih (b0.update a)
    have hu : (b0.update a).minX ≤ b0.minX ∧ (b0.update a).minX ≤ a.x ∧
        ((b0.update a).minX = b0.minX ∨ (b0.update a).minX = a.x) := by
      simp only [Bounds.update]
      split
      · next h => exact ⟨le_of_lt h, le_refl _, Or.inr rfl⟩
      · next h => exact ⟨le_refl _, not_lt.1 h, Or.inl rfl⟩
    refine ⟨le_trans h1 hu.1, ?_, ?_⟩
    · intro v hv
      rcases List.mem_cons.1 hv with rfl | hv
      · exact le_trans h1 hu.2.1
      · exact h2 v hv
    · rcases h3 with h3 | ⟨v, hv, hvx⟩
      · rcases hu.2.2 with h4 | h4
        · exact Or.inl (h3.trans h4)
        · exact Or.inr ⟨a, List.mem_cons_self _ _, (h3.trans h4).symm⟩
      · exact Or.inr ⟨v, List.mem_cons_of_mem _ hv, hvx⟩

theorem foldl_update_minY (l : List Vector2) (b0 : Bounds) :
    (l.foldl Bounds.update b0).minY ≤ b0.minY ∧
    (∀ v ∈ l, (l.foldl Bounds.update b0).minY ≤ v.y) ∧
    ((l.foldl Bounds.update b0).minY = b0.minY ∨ ∃ v ∈ l, v.y = (l.foldl Bounds.update b0).minY) := by
  induction l generalizing b0 with
  | nil => exact ⟨le_refl _, by simp, Or.inl rfl⟩
  | cons a l ih =>
    rw [List.foldl_cons]
    obtain ⟨h1, h2, h3⟩ := ih (b0.update a)
    have hu : (b0.update a).minY ≤ b0.minY ∧ (b0.update a).minY ≤ a.y ∧
        ((b0.update a).minY = b0.minY ∨ (b0.update a).minY = a.y) := by
      simp only [Bounds.update]
      split
      · next h => exact ⟨le_of_lt h, le_refl _, Or.inr rfl⟩
      · next h => exact ⟨le_refl _, not_lt.1 h, Or.inl rfl⟩
    refine ⟨le_trans h1 hu.1, ?_, ?_⟩
    · intro v hv
      rcases List.mem_cons.1 hv with rfl | hv
      · exact le_trans h1 hu.2.1
      · exact h2 v hv
    · rcases h3 with h3 | ⟨v, hv, hvx⟩
      · rcases hu.2.2 with h4 | h4
        · exact Or.inl (h3.trans h4)
        · exact Or.inr ⟨a, List.mem_cons_self _ _, (h3.trans h4).symm⟩
      · exact Or.inr ⟨v, List.mem_cons_of_mem _ hv, hvx⟩

theorem foldl_update_maxX (l : List Vector2) (b0 : Bounds) :
    b0.maxX ≤ (l.foldl Bounds.update b0).maxX ∧
    (∀ v ∈ l, v.x ≤ (l.foldl Bounds.update b0).maxX) ∧
    ((l.foldl Bounds.update b0).maxX = b0.maxX ∨ ∃ v ∈ l, v.x = (l.foldl Bounds.update b0).maxX) := by
  induction l generalizing b0 with
  | nil => exact ⟨le_refl _, by simp, Or.inl rfl⟩
  | cons a l ih =>
    rw [List.foldl_cons]
    obtain ⟨h1, h2, h3⟩ := ih (b0.update a)
    have hu : b0.maxX ≤ (b0.update a).maxX ∧ a.x ≤ (b0.update a).maxX ∧
        ((b0.update a).maxX = b0.maxX ∨ (b0.update a).maxX = a.x) := by
      simp only [Bounds.update]
      split
      · next h => exact ⟨le_of_lt h, le_refl _, Or.inr rfl⟩
      · next h => exact ⟨le_refl _, not_lt.1 h, Or.inl rfl⟩
    refine ⟨le_trans hu.1 h1, ?_, ?_⟩
    · intro v hv
      rcases List.mem_cons.1 hv with rfl | hv
      · exact le_trans hu.2.1 h1
      · exact h2 v hv
    · rcases h3 with h3 | ⟨v, hv, hvx⟩
      · rcases hu.2.2 with h4 | h4
        · exact Or.inl (h3.trans h4)
        · exact Or.inr ⟨a, List.mem_cons_self _ _, (h3.trans h4).symm⟩
      · exact Or.inr ⟨v, List.mem_cons_of_mem _ hv, hvx⟩

theorem foldl_update_maxY (l : List Vector2) (b0 : Bounds) :
    b0.maxY ≤ (l.foldl Bounds.update b0).maxY ∧
    (∀ v ∈ l, v.y ≤ (l.foldl Bounds.update b0).maxY) ∧
    ((l.foldl Bounds.update b0).maxY = b0.maxY ∨ ∃ v ∈ l, v.y = (l.foldl Bounds.update b0).maxY) := by
  induction l generalizing b0 with
  | nil => exact ⟨le_refl _, by simp, Or.inl rfl⟩
  | cons a l ih =>
    rw [List.foldl_cons]
    obtain ⟨h1, h2, h3⟩ := ih (b0.update a)
    have hu : b0.maxY ≤ (b0.update a).maxY ∧ a.y ≤ (b0.update a).maxY ∧
        ((b0.update a).maxY = b0.maxY ∨ (b0.update a).maxY = a.y) := by
      simp only [Bounds.update]
      split
      · next h => exact ⟨le_of_lt h, le_refl _, Or.inr rfl⟩
      · next h => exact ⟨le_refl _, not_lt.1 h, Or.inl rfl⟩
    refine ⟨le_trans hu.1 h1, ?_, ?_⟩
    · intro v hv
      rcases List.mem_cons.1 hv with rfl | hv
      · exact le_trans hu.2.1 h1
      · exact h2 v hv
    · rcases h3 with h3 | ⟨v, hv, hvx⟩
      · rcases hu.2.2 with h4 | h4
        · exact Or.inl (h3.trans h4)
        · exact Or.inr ⟨a, List.mem_cons_self _ _, (h3.trans h4).symm⟩
      · exact Or.inr ⟨v, List.mem_cons_of_mem _ hv, hvx⟩

/-- The bounds computed by lines 26–38 are the least and greatest coordinates of the input. -/
theorem boundingBox_spec (vs : List Vector2) (b : Bounds) (hb : boundingBox vs = some b) :
    (∀ v ∈ vs, b.minX ≤ v.x ∧ v.x ≤ b.maxX ∧ b.minY ≤ v.y ∧ v.y ≤ b.maxY) ∧
    (∃ v ∈ vs, v.x = b.minX) ∧ (∃ v ∈ vs, v.x = b.maxX) ∧
    (∃ v ∈ vs, v.y = b.minY) ∧ (∃ v ∈ vs, v.y = b.maxY) := by
  cases vs with
  | nil => simp [boundingBox] at hb
  | cons v0 rest =>
    simp only [boundingBox, List.get?_cons_zero, Option.some.injEq] at hb
    subst hb
    have hx := foldl_update_minX (v0 :: rest) ⟨v0.x, v0.y, v0.x, v0.y⟩
    have hX := foldl_update_maxX (v0 :: rest) ⟨v0.x, v0.y, v0.x, v0.y⟩
    have hy := foldl_update_minY (v0 :: rest) ⟨v0.x, v0.y, v0.x, v0.y⟩
    have hY := foldl_update_maxY (v0 :: rest) ⟨v0.x, v0.y, v0.x, v0.y⟩
    refine ⟨fun v hv => ⟨hx.2.1 v hv, hX.2.1 v hv, hy.2.1 v hv, hY.2.1 v hv⟩, ?_, ?_, ?_, ?_⟩
    · rcases hx.2.2 with h | h
      · exact ⟨v0, List.mem_cons_self _ _, h.symm⟩
      · exact h
    · rcases hX.2.2 with h | h
      · exact ⟨v0, List.mem_cons_self _ _, h.symm⟩
      · exact h
    · rcases hy.2.2 with h | h
      · exact ⟨v0, List.mem_cons_self _ _, h.symm⟩
      · exact h
    · rcases hY.2.2 with h | h
      · exact ⟨v0, List.mem_cons_self _ _, h.symm⟩
      · exact h

theorem almost_equal_zero_eq_false (x : ℚ) (h : smallestNormal ≤ |x|) :
    almost_equal x 0 defaultUlp = false := by
  have hpos : 0 < |x| := lt_of_lt_of_le (by unfold smallestNormal; positivity) h
  unfold almost_equal defaultUlp epsilon
  simp only [sub_zero, add_zero, Bool.or_eq_false_iff, decide_eq_false_iff_not, not_le, not_lt]
  refine ⟨?_, h⟩
  have : (1 : ℚ) / 2 ^ 23 * |x| * ((2 : ℤ) : ℚ) = |x| * (1 / 2 ^ 22) := by
    push_cast; ring
  rw [this]
  nlinarith [hpos]

theorem mem_survivingPolygon (W : List Triangle) (p : Vector2) (e : Edge)
    (h : e ∈ survivingPolygon W p) :
    ∃ s ∈ W, s.circumCircleContains p = true ∧
      ∃ e0, (e0 = s.e1 ∨ e0 = s.e2 ∨ e0 = s.e3) ∧ e.p1 = e0.p1 ∧ e.p2 = e0.p2 := by
  unfold survivingPolygon scannedPolygon at h
  obtain ⟨e0, he0, h1, h2⟩ := mem_markDuplicatesAux _ _ e (List.mem_filter.1 h).1
  obtain ⟨s, hs, hc, hes⟩ := mem_scan_snd p W e0 he0
  exact ⟨s, hs, hc, e0, hes, h1, h2⟩

theorem circumDet_ne_zero_of_contains (s : Triangle) (p : Vector2)
    (h : s.circumCircleContains p = true) : circumDet s.p1 s.p2 s.p3 ≠ 0 := by
  intro h0
  unfold Triangle.circumCircleContains at h
  rw [h0, almost_equal_self] at h
  simp at h

theorem vertices_ne_of_circumDet (a b c : Vector2) (h : circumDet a b c ≠ 0) :
    a ≠ b ∧ b ≠ c ∧ c ≠ a := by
  refine ⟨?_, ?_, ?_⟩ <;> (intro heq; subst heq; apply h; simp only [circumDet]; ring)

theorem survivingPolygon_ends_ne (W : List Triangle) (p : Vector2)
    (hW : ∀ t ∈ W, t.WellFormed) : ∀ e ∈ survivingPolygon W p, e.p1 ≠ e.p2 := by
  intro e he
  obtain ⟨s, hs, hc, e0, he0, h1, h2⟩ := mem_survivingPolygon W p e he
  obtain ⟨n1, n2, n3⟩ := vertices_ne_of_circumDet _ _ _ (circumDet_ne_zero_of_contains s p hc)
  obtain ⟨w1, w2, w3, _⟩ := hW s hs
  rw [h1, h2]
  rcases he0 with rfl | rfl | rfl
  · rw [w1]; exact n1
  · rw [w2]; exact n2
  · rw [w3]; exact n3

theorem insertPoint_wellFormed (W : List Triangle) (p : Vector2)
    (hW : ∀ t ∈ W, t.WellFormed) : ∀ t ∈ insertPoint W p, t.WellFormed := by
  intro t ht
  rcases mem_insertPoint W p t ht with ⟨htW, _⟩ | ⟨s, _, e, _, rfl⟩
  · exact hW t htW
  · exact ⟨rfl, rfl, rfl, rfl⟩

theorem superTriangle_wellFormed (b : Bounds) : (superTriangle b).WellFormed :=
  ⟨rfl, rfl, rfl, rfl⟩

/-! ### Gift wrapping and the accounting of one insertion step -/

theorem halfPlane_trans (a1 b1 a2 b2 a3 b3 : ℚ)
    (h1 : 0 < a1 ∨ (a1 = 0 ∧ 0 < b1)) (h2 : 0 < a2 ∨ (a2 = 0 ∧ 0 < b2))
    (h3 : 0 < a3 ∨ (a3 = 0 ∧ 0 < b3))
    (c12 : 0 ≤ a1 * b2 - a2 * b1) (c23 : 0 ≤ a2 * b3 - a3 * b2) :
    0 ≤ a1 * b3 - a3 * b1 := by
  have e : a2 * (a1 * b3 - a3 * b1) = a1 * (a2 * b3 - a3 * b2) + a3 * (a1 * b2 - a2 * b1) := by
    ring
  have ha1 : 0 ≤ a1 := by rcases h1 with h | h; exact le_of_lt h; exact le_of_eq h.1.symm
  have ha3 : 0 ≤ a3 := by rcases h3 with h | h; exact le_of_lt h; exact le_of_eq h.1.symm
  rcases h2 with h2 | ⟨h2, hb2⟩
  · have : 0 ≤ a2 * (a1 * b3 - a3 * b1) := by
      rw [e]; exact add_nonneg (mul_nonneg ha1 c23) (mul_nonneg ha3 c12)
    exact nonneg_of_mul_nonneg_right this h2
  · rw [h2] at c23
    have ha3' : a3 = 0 := by nlinarith
    rcases h3 with h3 | ⟨_, hb3⟩
    · linarith
    · rw [ha3']
      nlinarith [mul_nonneg ha1 (le_of_lt hb3)]

theorem halfPlane_strict (a1 b1 a2 b2 a3 b3 : ℚ)
    (h1 : 0 < a1 ∨ (a1 = 0 ∧ 0 < b1)) (h2 : 0 < a2 ∨ (a2 = 0 ∧ 0 < b2))
    (h3 : 0 < a3 ∨ (a3 = 0 ∧ 0 < b3))
    (c12 : 0 < a1 * b2 - a2 * b1) (c23 : 0 ≤ a2 * b3 - a3 * b2) :
    0 < a1 * b3 - a3 * b1 := by
  have hle := halfPlane_trans a1 b1 a2 b2 a3 b3 h1 h2 h3 (le_of_lt c12) c23
  rcases lt_or_eq_of_le hle with h | h
  · exact h
  · exfalso
    have e : a2 * (a1 * b3 - a3 * b1) = a1 * (a2 * b3 - a3 * b2) + a3 * (a1 * b2 - a2 * b1) := by
      ring
    rw [← h] at e
    have ha1 : 0 ≤ a1 := by rcases h1 with h | h; exact le_of_lt h; exact le_of_eq h.1.symm
    have ha3 : 0 ≤ a3 := by rcases h3 with h | h; exact le_of_lt h; exact le_of_eq h.1.symm
    have t1 : 0 ≤ a1 * (a2 * b3 - a3 * b2) := mul_nonneg ha1 c23
    have t2 : 0 ≤ a3 * (a1 * b2 - a2 * b1) := mul_nonneg ha3 (le_of_lt c12)
    have t3 : a3 * (a1 * b2 - a2 * b1) = 0 := by linarith
    have ha3' : a3 = 0 := by
      rcases mul_eq_zero.1 t3 with h' | h'
      · exact h'
      · linarith
    rcases h3 with h3 | ⟨_, hb3⟩
    · linarith
    · rw [ha3'] at h
      have ha1' : a1 = 0 := by
        have : a1 * b3 = 0 := by linarith
        rcases mul_eq_zero.1 this with h' | h'
        · exact h'
        · linarith
      rcases h1 with h1 | ⟨_, hb1⟩
      · linarith
      · rw [ha1'] at c12
        have ha2 : 0 ≤ a2 := by rcases h2 with h | h; exact le_of_lt h; exact le_of_eq h.1.symm
        nlinarith [mul_nonneg ha2 (le_of_lt hb1)]

theorem halfPlane_dot (a1 b1 a2 b2 : ℚ)
    (h1 : 0 < a1 ∨ (a1 = 0 ∧ 0 < b1)) (h2 : 0 < a2 ∨ (a2 = 0 ∧ 0 < b2))
    (c : a1 * b2 - a2 * b1 = 0) : 0 < a1 * a2 + b1 * b2 := by
  rcases h1 with h1 | ⟨h1, hb1⟩
  · rcases h2 with h2 | ⟨h2, hb2⟩
    · have e : a1 * (a1 * a2 + b1 * b2) = a2 * (a1 * a1 + b1 * b1) := by
        have : a1 * b2 = a2 * b1 := by linarith
        calc a1 * (a1 * a2 + b1 * b2) = a1 * a1 * a2 + b1 * (a1 * b2) := by ring
          _ = a1 * a1 * a2 + b1 * (a2 * b1) := by rw [this]
          _ = a2 * (a1 * a1 + b1 * b1) := by ring
      have hpos : 0 < a2 * (a1 * a1 + b1 * b1) := by
        apply mul_pos h2
        nlinarith [mul_self_nonneg b1, mul_pos h1 h1]
      rw [← e] at hpos
      exact pos_of_mul_pos_right hpos (le_of_lt h1)
    · rw [h2] at c
      have : a1 * b2 = 0 := by linarith
      rcases mul_eq_zero.1 this with h' | h'
      · linarith
      · linarith
  · rw [h1] at c
    have : a2 * b1 = 0 := by linarith
    have ha2 : a2 = 0 := by
      rcases mul_eq_zero.1 this with h' | h'
      · exact h'
      · linarith
    rcases h2 with h2 | ⟨_, hb2⟩
    · linarith
    · rw [h1, ha2]
      nlinarith [mul_pos hb1 hb2]

theorem inHalfPlane_coords (dx dy : ℚ) (p x : Point) (h : InHalfPlane dx dy p x) :
    (0 < dx * (x.y - p.y) - dy * (x.x - p.x) ∨
      (dx * (x.y - p.y) - dy * (x.x - p.x) = 0 ∧
        0 < -(dx * (x.x - p.x) + dy * (x.y - p.y)))) ∧ 0 < dx * dx + dy * dy := by
  unfold InHalfPlane at h
  constructor
  · rcases h with h | ⟨h1, h2⟩
    · exact Or.inl h
    · exact Or.inr ⟨h1, by linarith⟩
  · by_contra hN
    have h0 : dx * dx + dy * dy = 0 :=
      le_antisymm (not_lt.1 hN) (add_nonneg (mul_self_nonneg dx) (mul_self_nonneg dy))
    have hx : dx = 0 := by nlinarith [mul_self_nonneg dx, mul_self_nonneg dy]
    have hy : dy = 0 := by nlinarith [mul_self_nonneg dx, mul_self_nonneg dy]
    rw [hx, hy] at h
    rcases h with h | ⟨_, h2⟩
    · simp at h
    · simp at h2

theorem cross_trans (dx dy : ℚ) (p u v w : Point)
    (hu : InHalfPlane dx dy p u) (hv : InHalfPlane dx dy p v) (hw : InHalfPlane dx dy p w)
    (c1 : 0 ≤ crossProduct p u v) (c2 : 0 ≤ crossProduct p v w) :
    0 ≤ crossProduct p u w := by
  obtain ⟨hu', hN⟩ := inHalfPlane_coords dx dy p u hu
  obtain ⟨hv', _⟩ := inHalfPlane_coords dx dy p v hv
  obtain ⟨hw', _⟩ := inHalfPlane_coords dx dy p w hw
  have key := halfPlane_trans _ _ _ _ _ _ hu' hv' hw'
    (by
      have : (dx * (u.y - p.y) - dy * (u.x - p.x)) * -(dx * (v.x - p.x) + dy * (v.y - p.y)) -
          (dx * (v.y - p.y) - dy * (v.x - p.x)) * -(dx * (u.x - p.x) + dy * (u.y - p.y)) =
          (dx * dx + dy * dy) * crossProduct p u v := by
        unfold crossProduct; ring
      rw [this]; exact mul_nonneg (le_of_lt hN) c1)
    (by
      have : (dx * (v.y - p.y) - dy * (v.x - p.x)) * -(dx * (w.x - p.x) + dy * (w.y - p.y)) -
          (dx * (w.y - p.y) - dy * (w.x - p.x)) * -(dx * (v.x - p.x) + dy * (v.y - p.y)) =
          (dx * dx + dy * dy) * crossProduct p v w := by
        unfold crossProduct; ring
      rw [this]; exact mul_nonneg (le_of_lt hN) c2)
  have e : (dx * (u.y - p.y) - dy * (u.x - p.x)) * -(dx * (w.x - p.x) + dy * (w.y - p.y)) -
      (dx * (w.y - p.y) - dy * (w.x - p.x)) * -(dx * (u.x - p.x) + dy * (u.y - p.y)) =
      (dx * dx + dy * dy) * crossProduct p u w := by
    unfold crossProduct; ring
  rw [e] at key
  exact nonneg_of_mul_nonneg_right key hN

theorem cross_strict (dx dy : ℚ) (p u v w : Point)
    (hu : InHalfPlane dx dy p u) (hv : InHalfPlane dx dy p v) (hw : InHalfPlane dx dy p w)
    (c1 : 0 < crossProduct p u v) (c2 : 0 ≤ crossProduct p v w) :
    0 < crossProduct p u w := by
  obtain ⟨hu', hN⟩ := inHalfPlane_coords dx dy p u hu
  obtain ⟨hv', _⟩ := inHalfPlane_coords dx dy p v hv
  obtain ⟨hw', _⟩ := inHalfPlane_coords dx dy p w hw
  have key := halfPlane_strict _ _ _ _ _ _ hu' hv' hw'
    (by
      have : (dx * (u.y - p.y) - dy * (u.x - p.x)) * -(dx * (v.x - p.x) + dy * (v.y - p.y)) -
          (dx * (v.y - p.y) - dy * (v.x - p.x)) * -(dx * (u.x - p.x) + dy * (u.y - p.y)) =
          (dx * dx + dy * dy) * crossProduct p u v := by
        unfold crossProduct; ring
      rw [this]; exact mul_pos hN c1)
    (by
      have : (dx * (v.y - p.y) - dy * (v.x - p.x)) * -(dx * (w.x - p.x) + dy * (w.y - p.y)) -
          (dx * (w.y - p.y) - dy * (w.x - p.x)) * -(dx * (v.x - p.x) + dy * (v.y - p.y)) =
          (dx * dx + dy * dy) * crossProduct p v w := by
        unfold crossProduct; ring
      rw [this]; exact mul_nonneg (le_of_lt hN) c2)
  have e : (dx * (u.y - p.y) - dy * (u.x - p.x)) * -(dx * (w.x - p.x) + dy * (w.y - p.y)) -
      (dx * (w.y - p.y) - dy * (w.x - p.x)) * -(dx * (u.x - p.x) + dy * (u.y - p.y)) =
      (dx * dx + dy * dy) * crossProduct p u w := by
    unfold crossProduct; ring
  rw [e] at key
  exact pos_of_mul_pos_right key (le_of_lt hN)

theorem dot_pos_of_collinear (dx dy : ℚ) (p u v : Point)
    (hu : InHalfPlane dx dy p u) (hv : InHalfPlane dx dy p v)
    (c : crossProduct p u v = 0) :
    0 < (u.x - p.x) * (v.x - p.x) + (u.y - p.y) * (v.y - p.y) := by
  obtain ⟨hu', hN⟩ := inHalfPlane_coords dx dy p u hu
  obtain ⟨hv', _⟩ := inHalfPlane_coords dx dy p v hv
  have key := halfPlane_dot _ _ _ _ hu' hv'
    (by
      have : (dx * (u.y - p.y) - dy * (u.x - p.x)) * -(dx * (v.x - p.x) + dy * (v.y - p.y)) -
          (dx * (v.y - p.y) - dy * (v.x - p.x)) * -(dx * (u.x - p.x) + dy * (u.y - p.y)) =
          (dx * dx + dy * dy) * crossProduct p u v := by
        unfold crossProduct; ring
      rw [this, c, mul_zero])
  have e : (dx * (u.y - p.y) - dy * (u.x - p.x)) * (dx * (v.y - p.y) - dy * (v.x - p.x)) +
      -(dx * (u.x - p.x) + dy * (u.y - p.y)) * -(dx * (v.x - p.x) + dy * (v.y - p.y)) =
      (dx * dx + dy * dy) * ((u.x - p.x) * (v.x - p.x) + (u.y - p.y) * (v.y - p.y)) := by
    ring
  rw [e] at key
  exact pos_of_mul_pos_right key (le_of_lt hN)

theorem crossProduct_swap (p u v : Point) : crossProduct p v u = -crossProduct p u v := by
  unfold crossProduct; ring

theorem crossProduct_self (p u : Point) : crossProduct p u u = 0 := by
  unfold crossProduct; ring

theorem wrapStep_cases (points : List Point) (p q i : Nat) :
    wrapStep points p q i = q ∨ (wrapStep points p q i = i ∧ i ≠ p ∧ i ≠ q) := by
  unfold wrapStep
  by_cases h : i = p ∨ i = q
  · simp [h]
  · have h1 : i ≠ p := fun e => h (Or.inl e)
    have h2 : i ≠ q := fun e => h (Or.inr e)
    simp only [h, if_false]
    split
    · exact Or.inr ⟨rfl, h1, h2⟩
    · split
      · split
        · exact Or.inr ⟨rfl, h1, h2⟩
        · exact Or.inl rfl
      · exact Or.inl rfl

theorem goodNext_self (points : List Point) (p q : Nat) : GoodNext points p q q := by
  unfold GoodNext
  rw [crossProduct_self]
  exact ⟨le_refl _, fun _ => le_refl _⟩

theorem wrapStep_good_new (points : List Point) (p q i : Nat) (hip : i ≠ p) :
    GoodNext points p (wrapStep points p q i) i := by
  unfold wrapStep
  by_cases h : i = p ∨ i = q
  · rcases h with h | h
    · exact absurd h hip
    · simp only [h, or_true, if_true]
      exact goodNext_self points p q
  · simp only [h, if_false]
    split
    · exact goodNext_self points p i
    · next hc =>
      split
      · next hc0 =>
        split
        · exact goodNext_self points p i
        · next hd =>
          unfold GoodNext
          rw [crossProduct_swap, hc0]
          exact ⟨by simp, fun _ => not_lt.1 hd⟩
      · next hc0 =>
        have hneg : crossProduct (pointAt points p) (pointAt points i) (pointAt points q) < 0 :=
          lt_of_le_of_ne (not_lt.1 hc) hc0
        unfold GoodNext
        rw [crossProduct_swap]
        exact ⟨by linarith, fun h0 => by linarith⟩

theorem wrapStep_good_old (points : List Point) (p q i j : Nat) (dx dy : ℚ)
    (hExt : ExtremeAt points p dx dy)
    (hq : q < points.length) (hqp : q ≠ p) (hi : i < points.length)
    (hj : j < points.length) (hjp : j ≠ p) (hG : GoodNext points p q j) :
    GoodNext points p (wrapStep points p q i) j := by
  unfold wrapStep
  by_cases h : i = p ∨ i = q
  · simp only [h, if_true]
    exact hG
  · have hip : i ≠ p := fun e => h (Or.inl e)
    have hI := hExt i hi hip
    have hQ := hExt q hq hqp
    have hJ := hExt j hj hjp
    simp only [h, if_false]
    split
    · next hc =>
      have := cross_strict dx dy _ _ _ _ hI hQ hJ hc hG.1
      exact ⟨le_of_lt this, fun h0 => by linarith⟩
    · split
      · next hc0 =>
        split
        · next hd =>
          have h1 := cross_trans dx dy _ _ _ _ hI hQ hJ (le_of_eq hc0.symm) hG.1
          refine ⟨h1, fun h0 => ?_⟩
          have h2 := cross_trans dx dy _ _ _ _ hJ hI hQ
            (by rw [crossProduct_swap, h0]; simp) (le_of_eq hc0.symm)
          rw [crossProduct_swap] at h2
          have h3 : crossProduct (pointAt points p) (pointAt points q) (pointAt points j) = 0 :=
            le_antisymm (by linarith) hG.1
          exact le_trans (hG.2 h3) (le_of_lt hd)
        · exact hG
      · exact hG

theorem scan_good (points : List Point) (p : Nat) (dx dy : ℚ)
    (hExt : ExtremeAt points p dx dy) (l : List Nat) :
    (∀ i ∈ l, i < points.length) → ∀ q, q < points.length → q ≠ p →
      l.foldl (wrapStep points p) q < points.length ∧
      l.foldl (wrapStep points p) q ≠ p ∧
      (∀ j, j < points.length → j ≠ p → GoodNext points p q j →
        GoodNext points p (l.foldl (wrapStep points p) q) j) ∧
      (∀ i ∈ l, i ≠ p → GoodNext points p (l.foldl (wrapStep points p) q) i) := by
  induction l with
  | nil =>
    intro _ q hq hqp
    exact ⟨hq, hqp, fun _ _ _ h => h, by simp⟩
  | cons i l ih =>
    intro hl q hq hqp
    have hi : i < points.length := hl i (List.mem_cons_self _ _)
    have hl' : ∀ k ∈ l, k < points.length := fun k hk => hl k (List.mem_cons_of_mem _ hk)
    have hq1 : wrapStep points p q i < points.length := by
      rcases wrapStep_cases points p q i with h | ⟨h, _, _⟩ <;> rw [h] <;> assumption
    have hq1p : wrapStep points p q i ≠ p := by
      rcases wrapStep_cases points p q i with h | ⟨h, h1, _⟩ <;> rw [h] <;> assumption
    obtain ⟨r1, r2, r3, r4⟩ := ih hl' (wrapStep points p q i) hq1 hq1p
    rw [List.foldl_cons]
    refine ⟨r1, r2, ?_, ?_⟩
    · intro j hj hjp hG
      exact r3 j hj hjp (wrapStep_good_old points p q i j dx dy hExt hq hqp hi hj hjp hG)
    · intro k hk hkp
      rcases List.mem_cons.1 hk with rfl | hk
      · exact r3 k hi hkp (wrapStep_good_new points p q k hkp)
      · exact r4 k hk hkp

theorem succ_mod_ne (p n : Nat) (hn : 2 ≤ n) (hp : p < n) : (p + 1) % n < n ∧ (p + 1) % n ≠ p := by
  refine ⟨Nat.mod_lt _ (by omega), ?_⟩
  by_cases h : p + 1 < n
  · rw [Nat.mod_eq_of_lt h]; omega
  · have : p + 1 = n := by omega
    rw [this, Nat.mod_self]; omega

theorem nextHullIndex_good (points : List Point) (p : Nat) (dx dy : ℚ)
    (hn : 2 ≤ points.length) (hp : p < points.length) (hExt : ExtremeAt points p dx dy) :
    nextHullIndex points p < points.length ∧ nextHullIndex points p ≠ p ∧
      ∀ j, j < points.length → j ≠ p → GoodNext points p (nextHullIndex points p) j := by
  obtain ⟨h1, h2⟩ := succ_mod_ne p points.length hn hp
  obtain ⟨r1, r2, _, r4⟩ := scan_good points p dx dy hExt (List.range points.length)
    (fun i hi => List.mem_range.1 hi) _ h1 h2
  exact ⟨r1, r2, fun j hj hjp => r4 j (List.mem_range.2 hj) hjp⟩

theorem pointAt_eq_getElem (points : List Point) (i : Nat) (hi : i < points.length) :
    pointAt points i = points[i] := by
  unfold pointAt
  exact List.getD_eq_getElem _ _ hi

theorem pointAt_mem (points : List Point) (i : Nat) (hi : i < points.length) :
    pointAt points i ∈ points := by
  rw [pointAt_eq_getElem points i hi]
  exact List.getElem_mem _

theorem pointAt_inj (points : List Point) (hnd : points.Nodup) (i j : Nat)
    (hi : i < points.length) (hj : j < points.length)
    (h : pointAt points i = pointAt points j) : i = j := by
  rw [pointAt_eq_getElem points i hi, pointAt_eq_getElem points j hj] at h
  exact (List.Nodup.getElem_inj_iff hnd).1 h

theorem exists_pointAt_of_mem (points : List Point) (r : Point) (hr : r ∈ points) :
    ∃ j, j < points.length ∧ pointAt points j = r := by
  obtain ⟨j, hj, e⟩ := List.getElem_of_mem hr
  exact ⟨j, hj, by rw [pointAt_eq_getElem points j hj, e]⟩

theorem point_eq_of_sq_zero (a b : Point)
    (h : (a.x - b.x) * (a.x - b.x) + (a.y - b.y) * (a.y - b.y) = 0) : a = b := by
  have hx : a.x - b.x = 0 := by nlinarith [mul_self_nonneg (a.x - b.x), mul_self_nonneg (a.y - b.y)]
  have hy : a.y - b.y = 0 := by nlinarith [mul_self_nonneg (a.x - b.x), mul_self_nonneg (a.y - b.y)]
  cases a; cases b
  simp only [Point.mk.injEq]
  exact ⟨by simpa [sub_eq_zero] using hx, by simpa [sub_eq_zero] using hy⟩

theorem dist_pos_of_ne (a b : Point) (h : a ≠ b) :
    0 < (a.x - b.x) * (a.x - b.x) + (a.y - b.y) * (a.y - b.y) := by
  rcases lt_or_eq_of_le (add_nonneg (mul_self_nonneg (a.x - b.x)) (mul_self_nonneg (a.y - b.y)))
    with h1 | h1
  · exact h1
  · exact absurd (point_eq_of_sq_zero a b h1.symm) h

/-- Behind the chosen next point: a point `X ≠ Q` that is not farther from `P` than `Q` lies
against the direction `Q - P` seen from `Q`. -/
theorem behind_next (P Q X : Point) (hXQ : X ≠ Q)
    (hd : distanceSquared P X ≤ distanceSquared P Q) :
    (Q.x - P.x) * (X.x - Q.x) + (Q.y - P.y) * (X.y - Q.y) < 0 := by
  have hXQ' := dist_pos_of_ne X Q hXQ
  simp only [distanceSquared] at hd
  have e : (X.x - Q.x) * (X.x - Q.x) + (X.y - Q.y) * (X.y - Q.y) =
      ((X.x - P.x) * (X.x - P.x) + (X.y - P.y) * (X.y - P.y)) -
      ((Q.x - P.x) * (Q.x - P.x) + (Q.y - P.y) * (Q.y - P.y)) -
      2 * ((Q.x - P.x) * (X.x - Q.x) + (Q.y - P.y) * (X.y - Q.y)) := by ring
  rw [e] at hXQ'
  linarith

theorem extremeAt_next (points : List Point) (hnd : points.Nodup) (p : Nat) (dx dy : ℚ)
    (hn : 2 ≤ points.length) (hp : p < points.length) (hExt : ExtremeAt points p dx dy) :
    ExtremeAt points (nextHullIndex points p)
      ((pointAt points (nextHullIndex points p)).x - (pointAt points p).x)
      ((pointAt points (nextHullIndex points p)).y - (pointAt points p).y) := by
  obtain ⟨hq, hqp, hgood⟩ := nextHullIndex_good points p dx dy hn hp hExt
  have hQP : pointAt points (nextHullIndex points p) ≠ pointAt points p :=
    fun e => hqp (pointAt_inj points hnd _ _ hq hp e)
  intro j hj hjq
  unfold InHalfPlane
  by_cases hjp : j = p
  · subst hjp
    right
    have := dist_pos_of_ne _ _ hQP
    constructor
    · ring
    · nlinarith
  · obtain ⟨g1, g2⟩ := hgood j hj hjp
    have hXQ : pointAt points j ≠ pointAt points (nextHullIndex points p) :=
      fun e => hjq (pointAt_inj points hnd _ _ hj hq e)
    have ea : ((pointAt points (nextHullIndex points p)).x - (pointAt points p).x) *
        ((pointAt points j).y - (pointAt points (nextHullIndex points p)).y) -
        ((pointAt points (nextHullIndex points p)).y - (pointAt points p).y) *
        ((pointAt points j).x - (pointAt points (nextHullIndex points p)).x) =
        crossProduct (pointAt points p) (pointAt points (nextHullIndex points p))
          (pointAt points j) := by
      unfold crossProduct; ring
    rw [ea]
    rcases lt_or_eq_of_le g1 with h | h
    · exact Or.inl h
    · exact Or.inr ⟨h.symm, behind_next _ _ _ hXQ (g2 h.symm)⟩

theorem lexLe_refl (points : List Point) (a : Nat) : LexLe points a a :=
  Or.inr ⟨rfl, le_refl _⟩

theorem lexLe_trans (points : List Point) (a b c : Nat) (h1 : LexLe points a b)
    (h2 : LexLe points b c) : LexLe points a c := by
  unfold LexLe at *
  rcases h1 with h1 | ⟨h1, h1'⟩ <;> rcases h2 with h2 | ⟨h2, h2'⟩
  · exact Or.inl (lt_trans h1 h2)
  · exact Or.inl (h2 ▸ h1)
  · exact Or.inl (h1 ▸ h2)
  · exact Or.inr ⟨h1.trans h2, le_trans h1' h2'⟩

theorem leftmostStep_spec (points : List Point) (m i : Nat) :
    (leftmostStep points m i = m ∨ leftmostStep points m i = i) ∧
    LexLe points (leftmostStep points m i) m ∧ LexLe points (leftmostStep points m i) i := by
  unfold leftmostStep
  split
  · next h =>
    refine ⟨Or.inr rfl, ?_, lexLe_refl points i⟩
    rcases h with h | ⟨h1, h2⟩
    · exact Or.inl h
    · exact Or.inr ⟨h1, le_of_lt h2⟩
  · next h =>
    refine ⟨Or.inl rfl, lexLe_refl points m, ?_⟩
    unfold LexLe
    push_neg at h
    rcases lt_or_eq_of_le (not_lt.1 (fun hlt => absurd hlt (not_lt.2 h.1))) with h1 | h1
    · exact Or.inl h1
    · exact Or.inr ⟨h1, h.2 h1.symm⟩

theorem leftmost_fold (points : List Point) (l : List Nat) :
    (∀ i ∈ l, i < points.length) → ∀ m, m < points.length →
      l.foldl (leftmostStep points) m < points.length ∧
      LexLe points (l.foldl (leftmostStep points) m) m ∧
      ∀ i ∈ l, LexLe points (l.foldl (leftmostStep points) m) i := by
  induction l with
  | nil => intro _ m hm; exact ⟨hm, lexLe_refl points m, by simp⟩
  | cons i l ih =>
    intro hl m hm
    have hi : i < points.length := hl i (List.mem_cons_self _ _)
    obtain ⟨hc, h1, h2⟩ := leftmostStep_spec points m i
    have hm1 : leftmostStep points m i < points.length := by
      rcases hc with h | h <;> rw [h] <;> assumption
    obtain ⟨r1, r2, r3⟩ := ih (fun k hk => hl k (List.mem_cons_of_mem _ hk)) _ hm1
    rw [List.foldl_cons]
    refine ⟨r1, lexLe_trans _ _ _ _ r2 h1, ?_⟩
    intro k hk
    rcases List.mem_cons.1 hk with rfl | hk
    · exact lexLe_trans _ _ _ _ r2 h2
    · exact r3 k hk

theorem leftmostIndex_spec (points : List Point) (hn : 1 ≤ points.length) :
    leftmostIndex points < points.length ∧
      ∀ j, j < points.length → LexLe points (leftmostIndex points) j := by
  obtain ⟨r1, r2, r3⟩ := leftmost_fold points (List.range' 1 (points.length - 1))
    (by intro i hi; rw [List.mem_range'_1] at hi; omega) 0 (by omega)
  refine ⟨r1, ?_⟩
  intro j hj
  by_cases h0 : j = 0
  · subst h0; exact r2
  · exact r3 j (by rw [List.mem_range'_1]; omega)

theorem extremeAt_leftmost (points : List Point) (hnd : points.Nodup)
    (hn : 1 ≤ points.length) : ExtremeAt points (leftmostIndex points) 0 (-1) := by
  obtain ⟨hm, hle⟩ := leftmostIndex_spec points hn
  intro j hj hjm
  have hne : pointAt points j ≠ pointAt points (leftmostIndex points) :=
    fun e => hjm (pointAt_inj points hnd _ _ hj hm e)
  unfold InHalfPlane
  rcases hle j hj with h | ⟨h1, h2⟩
  · left; linarith
  · right
    refine ⟨by linarith, ?_⟩
    rcases lt_or_eq_of_le h2 with h3 | h3
    · linarith
    · exfalso
      apply hne
      generalize pointAt points j = a at *
      generalize pointAt points (leftmostIndex points) = b at *
      cases a; cases b
      simp only [Point.mk.injEq]
      exact ⟨h1.symm, h3.symm⟩

theorem nextHullIndex_injective (points : List Point) (hnd : points.Nodup)
    (hn : 2 ≤ points.length) (p p' : Nat) (dx dy dx' dy' : ℚ)
    (hp : p < points.length) (hp' : p' < points.length)
    (hE : ExtremeAt points p dx dy) (hE' : ExtremeAt points p' dx' dy')
    (h : nextHullIndex points p = nextHullIndex points p') : p = p' := by
  by_contra hne
  obtain ⟨hq, hqp, hg⟩ := nextHullIndex_good points p dx dy hn hp hE
  obtain ⟨hq', hqp', hg'⟩ := nextHullIndex_good points p' dx' dy' hn hp' hE'
  rw [← h] at hq' hqp' hg'
  obtain ⟨c1, d1⟩ := hg p' hp' (fun e => hne e.symm)
  obtain ⟨c2, d2⟩ := hg' p hp hne
  have hsw : crossProduct (pointAt points p') (pointAt points (nextHullIndex points p))
      (pointAt points p) = -crossProduct (pointAt points p)
      (pointAt points (nextHullIndex points p)) (pointAt points p') := by
    unfold crossProduct; ring
  have hc1 : crossProduct (pointAt points p) (pointAt points (nextHullIndex points p))
      (pointAt points p') = 0 := le_antisymm (by linarith) c1
  have hc2 : crossProduct (pointAt points p') (pointAt points (nextHullIndex points p))
      (pointAt points p) = 0 := by rw [hsw, hc1]; simp
  have s1 := dot_pos_of_collinear dx dy _ _ _ (hE _ hq hqp) (hE p' hp' (fun e => hne e.symm)) hc1
  have s2 := dot_pos_of_collinear dx' dy' _ _ _ (hE' _ hq' hqp') (hE' p hp hne) hc2
  have dd1 := d1 hc1
  have hPP : pointAt points p' ≠ pointAt points p :=
    fun e => hne (pointAt_inj points hnd _ _ hp hp' e.symm)
  have hW := dist_pos_of_ne _ _ hPP
  simp only [distanceSquared] at dd1
  simp only [crossProduct] at hc1
  generalize pointAt points p = P at *
  generalize pointAt points p' = P' at *
  generalize pointAt points (nextHullIndex points p) = Q at *
  have lag : ((Q.x - P.x) * (P'.x - P.x) + (Q.y - P.y) * (P'.y - P.y)) *
      ((Q.x - P.x) * (P'.x - P.x) + (Q.y - P.y) * (P'.y - P.y)) +
      ((Q.x - P.x) * (P'.y - P.y) - (Q.y - P.y) * (P'.x - P.x)) *
      ((Q.x - P.x) * (P'.y - P.y) - (Q.y - P.y) * (P'.x - P.x)) =
      ((Q.x - P.x) * (Q.x - P.x) + (Q.y - P.y) * (Q.y - P.y)) *
      ((P'.x - P.x) * (P'.x - P.x) + (P'.y - P.y) * (P'.y - P.y)) := by ring
  rw [hc1, mul_zero, add_zero] at lag
  have e2 : (Q.x - P'.x) * (P.x - P'.x) + (Q.y - P'.y) * (P.y - P'.y) =
      ((P'.x - P.x) * (P'.x - P.x) + (P'.y - P.y) * (P'.y - P.y)) -
      ((Q.x - P.x) * (P'.x - P.x) + (Q.y - P.y) * (P'.y - P.y)) := by ring
  rw [e2] at s2
  -- s1 : 0 < s, s2 : 0 < W - s, dd1 : W ≤ U, lag : s * s = U * W
  have hsW : ((Q.x - P.x) * (P'.x - P.x) + (Q.y - P.y) * (P'.y - P.y)) *
      ((Q.x - P.x) * (P'.x - P.x) + (Q.y - P.y) * (P'.y - P.y)) <
      ((P'.x - P.x) * (P'.x - P.x) + (P'.y - P.y) * (P'.y - P.y)) *
      ((P'.x - P.x) * (P'.x - P.x) + (P'.y - P.y) * (P'.y - P.y)) := by
    apply mul_self_lt_mul_self (le_of_lt s1)
    linarith
  have hUW := mul_le_mul_of_nonneg_right dd1 (le_of_lt hW)
  linarith

theorem iterate_returns (f : ℕ → ℕ) (R : ℕ → Prop) (n : ℕ)
    (hR : ∀ p, R p → p < n ∧ R (f p))
    (hinj : ∀ p p', R p → R p' → f p = f p' → p = p') (p0 : ℕ) (h0 : R p0) :
    ∃ k, 1 ≤ k ∧ k ≤ n ∧ f^[k] p0 = p0 := by
  have hRk : ∀ k, R (f^[k] p0) := by
    intro k
    induction k with
    | zero => exact h0
    | succ k ih => rw [Function.iterate_succ_apply']; exact (hR _ ih).2
  have cancel : ∀ i j, i < j → f^[i] p0 = f^[j] p0 → f^[j - i] p0 = p0 := by
    intro i
    induction i with
    | zero => intro j _ h; exact h.symm
    | succ i ih =>
      intro j hij h
      obtain ⟨j', rfl⟩ : ∃ j', j = j' + 1 := ⟨j - 1, by omega⟩
      rw [Function.iterate_succ_apply', Function.iterate_succ_apply'] at h
      have := ih j' (by omega) (hinj _ _ (hRk i) (hRk j') h)
      rw [Nat.add_sub_add_right]
      exact this
  obtain ⟨i, j, hij, hg⟩ := Fintype.exists_ne_map_eq_of_card_lt
    (fun i : Fin (n + 1) => (⟨f^[i.1] p0, (hR _ (hRk i.1)).1⟩ : Fin n)) (by simp)
  have hval : f^[i.1] p0 = f^[j.1] p0 := congrArg Fin.val hg
  rcases lt_or_gt_of_ne (fun e => hij (Fin.ext e)) with h | h
  · exact ⟨j.1 - i.1, by omega, by omega, cancel _ _ h hval⟩
  · exact ⟨i.1 - j.1, by omega, by omega, cancel _ _ h hval.symm⟩

theorem iterate_first_return (f : ℕ → ℕ) (R : ℕ → Prop) (n : ℕ)
    (hR : ∀ p, R p → p < n ∧ R (f p))
    (hinj : ∀ p p', R p → R p' → f p = f p' → p = p') (p0 : ℕ) (h0 : R p0) :
    ∃ k, 1 ≤ k ∧ k ≤ n ∧ f^[k] p0 = p0 ∧ ∀ s, 1 ≤ s → s < k → f^[s] p0 ≠ p0 := by
  classical
  have hex : ∃ k, 1 ≤ k ∧ f^[k] p0 = p0 := by
    obtain ⟨k, h1, _, h3⟩ := iterate_returns f R n hR hinj p0 h0
    exact ⟨k, h1, h3⟩
  obtain ⟨k, h1, h2, h3⟩ := iterate_returns f R n hR hinj p0 h0
  refine ⟨Nat.find hex, (Nat.find_spec hex).1, le_trans (Nat.find_min' hex ⟨h1, h3⟩) h2,
    (Nat.find_spec hex).2, ?_⟩
  intro s hs1 hsk he
  exact Nat.find_min hex hsk ⟨hs1, he⟩

theorem wrapLoop_run (points : List Point) (leftmost : Nat) (t : Nat) :
    ∀ (fuel p : Nat) (hull : List Point), t + 1 ≤ fuel →
      (∀ s, s < t → (nextHullIndex points)^[s + 1] p ≠ leftmost) →
      (nextHullIndex points)^[t + 1] p = leftmost →
      hull.length + t + 1 ≤ points.length →
      wrapLoop points leftmost fuel p hull =
        some (hull ++ (List.range (t + 1)).map
          (fun s => pointAt points ((nextHullIndex points)^[s] p))) := by
  induction t with
  | zero =>
    intro fuel p hull hf _ hret _
    obtain ⟨fuel', rfl⟩ : ∃ fuel', fuel = fuel' + 1 := ⟨fuel - 1, by omega⟩
    have hq : nextHullIndex points p = leftmost := by simpa using hret
    simp only [wrapLoop, hq, ne_eq, not_true_eq_false, false_and, if_false]
    rfl
  | succ t ih =>
    intro fuel p hull hf hne hret hlen
    obtain ⟨fuel', rfl⟩ : ∃ fuel', fuel = fuel' + 1 := ⟨fuel - 1, by omega⟩
    have hq : nextHullIndex points p ≠ leftmost := by simpa using hne 0 (by omega)
    have hl : (hull ++ [pointAt points p]).length ≤ points.length := by
      rw [List.length_append, List.length_singleton]; omega
    have hrec := ih fuel' (nextHullIndex points p) (hull ++ [pointAt points p]) (by omega)
      (by
        intro s hs
        have := hne (s + 1) (by omega)
        rwa [Function.iterate_succ_apply] at this)
      (by rwa [Function.iterate_succ_apply] at hret)
      (by rw [List.length_append, List.length_singleton]; omega)
    rw [wrapLoop]
    simp only [hq, ne_eq, not_false_eq_true, hl, and_self, if_true]
    rw [hrec, List.range_succ_eq_map (t + 1), List.map_cons, List.map_map, List.append_assoc]
    rfl

theorem crossProduct_base (p q : Point) : crossProduct p q p = 0 := by
  unfold crossProduct; ring

theorem wrapLoop_terminates (points : List Point) (leftmost : Nat) (fuel : Nat) :
    ∀ (p : Nat) (hull : List Point), hull.length ≤ points.length →
      points.length + 1 ≤ hull.length + fuel →
      ∃ r, wrapLoop points leftmost fuel p hull = some r ∧ r.length ≤ points.length + 1 := by
  induction fuel with
  | zero => intro p hull h1 h2; omega
  | succ fuel ih =>
    intro p hull h1 h2
    rw [wrapLoop]
    by_cases hc : nextHullIndex points p ≠ leftmost ∧
        (hull ++ [pointAt points p]).length ≤ points.length
    · rw [if_pos hc]
      exact ih _ _ hc.2 (by rw [List.length_append, List.length_singleton]; omega)
    · rw [if_neg hc]
      exact ⟨_, rfl, by rw [List.length_append, List.length_singleton]; omega⟩

theorem wrapLoop_more_fuel (points : List Point) (leftmost : Nat) (fuel : Nat) :
    ∀ (p : Nat) (hull r : List Point) (extra : Nat),
      wrapLoop points leftmost fuel p hull = some r →
      wrapLoop points leftmost (fuel + extra) p hull = some r := by
  induction fuel with
  | zero => intro p hull r extra h; simp [wrapLoop] at h
  | succ fuel ih =>
    intro p hull r extra h
    rw [Nat.add_right_comm, wrapLoop]
    rw [wrapLoop] at h
    by_cases hc : nextHullIndex points p ≠ leftmost ∧
        (hull ++ [pointAt points p]).length ≤ points.length
    · rw [if_pos hc] at h ⊢
      exact ih _ _ _ _ h
    · rw [if_neg hc] at h ⊢
      exact h

theorem insertPoint_eq (W : List Triangle) (p : Vector2) :
    insertPoint W p =
      keptTriangles W p ++ (survivingPolygon W p).map (fun e => Triangle.new e.p1 e.p2 p) := rfl

theorem mem_keptTriangles (W : List Triangle) (p : Vector2) (t : Triangle)
    (h : t ∈ keptTriangles W p) : t ∈ W := by
  unfold keptTriangles at h
  rw [scan_fst_filter] at h
  exact (List.mem_filter.1 h).1

theorem insertPoint_provenance (b : Bounds) (vs : List Vector2) (W : List Triangle)
    (p : Vector2) (hp : p ∈ vs)
    (hW : ∀ t ∈ W, t.WellFormed ∧ ∀ v ∈ t.vertices, v ∈ vs ∨ IsSuperVertex b v) :
    ∀ t ∈ insertPoint W p, t.WellFormed ∧ ∀ v ∈ t.vertices, v ∈ vs ∨ IsSuperVertex b v := by
  intro t ht
  rw [insertPoint_eq] at ht
  rcases List.mem_append.1 ht with hk | hn
  · exact hW t (mem_keptTriangles W p t hk)
  · obtain ⟨e, he, rfl⟩ := List.mem_map.1 hn
    refine ⟨⟨rfl, rfl, rfl, rfl⟩, ?_⟩
    obtain ⟨s, hs, _, e0, he0, h1, h2⟩ := mem_survivingPolygon W p e he
    obtain ⟨⟨w1, w2, w3, _⟩, hv⟩ := hW s hs
    have hs1 := hv s.p1 (by simp [Triangle.vertices])
    have hs2 := hv s.p2 (by simp [Triangle.vertices])
    have hs3 := hv s.p3 (by simp [Triangle.vertices])
    have hends : (e.p1 ∈ vs ∨ IsSuperVertex b e.p1) ∧ (e.p2 ∈ vs ∨ IsSuperVertex b e.p2) := by
      rw [h1, h2]
      rcases he0 with rfl | rfl | rfl
      · rw [w1]; exact ⟨hs1, hs2⟩
      · rw [w2]; exact ⟨hs2, hs3⟩
      · rw [w3]; exact ⟨hs3, hs1⟩
    intro v hv'
    simp only [Triangle.vertices, Triangle.new, List.mem_cons, List.mem_singleton,
      List.not_mem_nil, or_false] at hv'
    rcases hv' with rfl | rfl | rfl
    · exact hends.1
    · exact hends.2
    · exact Or.inl hp

theorem foldl_insertPoint_provenance (b : Bounds) (vs rest : List Vector2) :
    (∀ p ∈ rest, p ∈ vs) → ∀ W : List Triangle,
      (∀ t ∈ W, t.WellFormed ∧ ∀ v ∈ t.vertices, v ∈ vs ∨ IsSuperVertex b v) →
      ∀ t ∈ rest.foldl insertPoint W,
        t.WellFormed ∧ ∀ v ∈ t.vertices, v ∈ vs ∨ IsSuperVertex b v := by
  induction rest with
  | nil => intro _ W hW; simpa using hW
  | cons p rest ih =>
    intro hr W hW
    rw [List.foldl_cons]
    exact ih (fun q hq => hr q (List.mem_cons_of_mem _ hq)) _
      (insertPoint_provenance b vs W p (hr p (List.mem_cons_self _ _)) hW)

theorem superTriangle_provenance (b : Bounds) (vs : List Vector2) :
    (superTriangle b).WellFormed ∧
      ∀ v ∈ (superTriangle b).vertices, v ∈ vs ∨ IsSuperVertex b v := by
  refine ⟨superTriangle_wellFormed b, ?_⟩
  intro v hv
  simp only [Triangle.vertices, superTriangle, Triangle.new, List.mem_cons, List.mem_singleton,
    List.not_mem_nil, or_false] at hv
  exact Or.inr hv

/-! ## Auxiliary facts about the rounding model -/

theorem pow2_eq_zpow (e : ℤ) : pow2 e = (2 : ℚ) ^ e := by
  unfold pow2
  split
  · rename_i h
    rw [← zpow_natCast, Int.toNat_of_nonneg h]
  · rename_i h
    have h' : 0 ≤ -e := by omega
    rw [← zpow_natCast, Int.toNat_of_nonneg h', zpow_neg, one_div, inv_inv]

theorem pow2_pos (e : ℤ) : 0 < pow2 e := by
  rw [pow2_eq_zpow]; positivity

theorem pow2_add (a b : ℤ) : pow2 (a + b) = pow2 a * pow2 b := by
  rw [pow2_eq_zpow, pow2_eq_zpow, pow2_eq_zpow, zpow_add₀ (by norm_num)]

theorem pow2_le_pow2 (a b : ℤ) (h : a ≤ b) : pow2 a ≤ pow2 b := by
  rw [pow2_eq_zpow, pow2_eq_zpow]
  exact zpow_le_zpow_right₀ (by norm_num) h

theorem pow2_natCast (n : ℕ) : pow2 (n : ℤ) = (2 : ℚ) ^ n := by
  rw [pow2_eq_zpow, zpow_natCast]

theorem pow2_neg_natCast (n : ℕ) : pow2 (-(n : ℤ)) = 1 / (2 : ℚ) ^ n := by
  rw [pow2_eq_zpow, zpow_neg, zpow_natCast, one_div]

theorem log2Aux_spec : ∀ (fuel n : ℕ), n ≤ fuel → n ≠ 0 →
    2 ^ log2Aux fuel n ≤ n ∧ n < 2 ^ (log2Aux fuel n + 1) := by
  intro fuel
  induction fuel with
  | zero => intro n hn h0; omega
  | succ fuel ih =>
    intro n hn h0
    unfold log2Aux
    by_cases h2 : 2 ≤ n
    · rw [if_pos h2]
      have hdiv : n / 2 ≤ fuel := by omega
      have hne : n / 2 ≠ 0 := by omega
      obtain ⟨h1, h3⟩ := ih (n / 2) hdiv hne
      constructor
      · rw [pow_succ]; omega
      · rw [pow_succ]; omega
    · rw [if_neg h2]
      have : n = 1 := by omega
      subst this
      simp

theorem natLog2_spec (n : ℕ) (h0 : n ≠ 0) :
    2 ^ natLog2 n ≤ n ∧ n < 2 ^ (natLog2 n + 1) :=
  log2Aux_spec n n le_rfl h0

theorem floorLog2_le (x : ℚ) (hx : 0 < x) : pow2 (floorLog2 x) ≤ x := by
  unfold floorLog2
  simp only
  split
  · assumption
  · have hnum : 0 < x.num := Rat.num_pos.2 hx
    have hden : x.den ≠ 0 := x.den_nz
    have hn0 : x.num.natAbs ≠ 0 := by
      intro h; rw [Int.natAbs_eq_zero] at h; omega
    obtain ⟨ha, _⟩ := natLog2_spec x.num.natAbs hn0
    obtain ⟨_, hb⟩ := natLog2_spec x.den hden
    have hxe : x = (x.num.natAbs : ℚ) / (x.den : ℚ) := by
      have h1 : ((x.num.natAbs : ℤ) : ℚ) = (x.num : ℚ) :=
        congrArg Int.cast (Int.natAbs_of_nonneg hnum.le)
      have h2 : ((x.num.natAbs : ℕ) : ℚ) = ((x.num.natAbs : ℤ) : ℚ) :=
        (Int.cast_natCast _).symm
      rw [h2, h1, Rat.num_div_den]
    have hdpos : (0 : ℚ) < (x.den : ℚ) := by exact_mod_cast x.den_pos
    have e1 : pow2 ((natLog2 x.num.natAbs : ℤ) - (natLog2 x.den : ℤ) - 1) =
        (2 : ℚ) ^ natLog2 x.num.natAbs / (2 : ℚ) ^ (natLog2 x.den + 1) := by
      rw [show ((natLog2 x.num.natAbs : ℤ) - (natLog2 x.den : ℤ) - 1) =
        (natLog2 x.num.natAbs : ℤ) + -(((natLog2 x.den + 1 : ℕ)) : ℤ) by push_cast; ring,
        pow2_add, pow2_natCast, pow2_neg_natCast]
      ring
    rw [e1]
    have ha' : (2 : ℚ) ^ natLog2 x.num.natAbs ≤ (x.num.natAbs : ℚ) := by exact_mod_cast ha
    have hb' : (x.den : ℚ) ≤ (2 : ℚ) ^ (natLog2 x.den + 1) := by exact_mod_cast hb.le
    calc (2 : ℚ) ^ natLog2 x.num.natAbs / (2 : ℚ) ^ (natLog2 x.den + 1)
        ≤ (x.num.natAbs : ℚ) / (2 : ℚ) ^ (natLog2 x.den + 1) := by
          apply div_le_div_of_nonneg_right ha' (by positivity)
      _ ≤ (x.num.natAbs : ℚ) / (x.den : ℚ) := by
          apply div_le_div_of_nonneg_left (by positivity) hdpos hb'
      _ = x := hxe.symm

theorem roundHalfEven_err (t : ℚ) : |(roundHalfEven t : ℚ) - t| ≤ 1 / 2 := by
  unfold roundHalfEven
  have h1 := Int.floor_le t
  have h2 := Int.lt_floor_add_one t
  simp only
  split
  · rw [abs_le]; constructor <;> linarith
  · split
    · rw [abs_le]; push_cast; constructor <;> linarith
    · have he : t - ⌊t⌋ = 1 / 2 := by
        rename_i ha hb
        linarith [not_lt.1 ha, not_lt.1 hb]
      split
      · rw [abs_le]; constructor <;> linarith
      · rw [abs_le]; push_cast; constructor <;> linarith

theorem roundHalfEven_ge (t : ℚ) (k : ℤ) (h : (k : ℚ) ≤ t) : k ≤ roundHalfEven t := by
  have hk : k ≤ ⌊t⌋ := Int.le_floor.2 h
  unfold roundHalfEven
  simp only
  split
  · exact hk
  · split
    · omega
    · split
      · exact hk
      · omega

theorem roundHalfEven_intCast (k : ℤ) : roundHalfEven (k : ℚ) = k := by
  unfold roundHalfEven
  simp

theorem quantum_pos (f : FloatFormat) (x : ℚ) : 0 < quantum f x := pow2_pos _

theorem roundMagnitude_err (f : FloatFormat) (x : ℚ) :
    |roundMagnitude f x - (|x|)| ≤ quantum f x / 2 := by
  unfold roundMagnitude
  have hq := quantum_pos f x
  have h := roundHalfEven_err (|x| / quantum f x)
  have e : (roundHalfEven (|x| / quantum f x) : ℚ) * quantum f x - |x| =
      ((roundHalfEven (|x| / quantum f x) : ℚ) - |x| / quantum f x) * quantum f x := by
    field_simp
  rw [e, abs_mul, abs_of_pos hq]
  calc |(roundHalfEven (|x| / quantum f x) : ℚ) - |x| / quantum f x| * quantum f x
      ≤ 1 / 2 * quantum f x := mul_le_mul_of_nonneg_right h hq.le
    _ = quantum f x / 2 := by ring

theorem roundMagnitude_nonneg (f : FloatFormat) (x : ℚ) : 0 ≤ roundMagnitude f x := by
  unfold roundMagnitude
  have hq := quantum_pos f x
  have h0 : (0 : ℤ) ≤ roundHalfEven (|x| / quantum f x) :=
    roundHalfEven_ge _ 0 (by
      rw [Int.cast_zero]
      exact div_nonneg (abs_nonneg x) hq.le)
  have : (0 : ℚ) ≤ (roundHalfEven (|x| / quantum f x) : ℚ) := by exact_mod_cast h0
  exact mul_nonneg this hq.le

theorem pow2_sub_natCast (e : ℤ) (n : ℕ) : pow2 (e - n) = pow2 e / (2 : ℚ) ^ n := by
  rw [sub_eq_add_neg, pow2_add, pow2_neg_natCast]
  ring

theorem quantum_half_le (f : FloatFormat) (x : ℚ) (hx : x ≠ 0) :
    quantum f x / 2 ≤ |x| / (2 : ℚ) ^ f.prec + pow2 (f.emin - f.prec) := by
  have hax : 0 < |x| := abs_pos.2 hx
  have hq : quantum f x / 2 = pow2 (max (floorLog2 |x|) f.emin) / (2 : ℚ) ^ f.prec := by
    unfold quantum
    rw [show max (floorLog2 |x|) f.emin - ((f.prec : ℤ) - 1) =
      max (floorLog2 |x|) f.emin + 1 - (f.prec : ℤ) by ring, pow2_sub_natCast, pow2_add]
    have : pow2 1 = 2 := by rw [pow2_eq_zpow]; norm_num
    rw [this]
    ring
  rw [hq, pow2_sub_natCast]
  have hp : (0 : ℚ) < (2 : ℚ) ^ f.prec := by positivity
  rcases le_total (floorLog2 |x|) f.emin with h | h
  · rw [max_eq_right h]
    have : 0 ≤ |x| / (2 : ℚ) ^ f.prec := by positivity
    linarith
  · rw [max_eq_left h]
    have h1 := floorLog2_le |x| hax
    have h2 : pow2 (floorLog2 |x|) / (2 : ℚ) ^ f.prec ≤ |x| / (2 : ℚ) ^ f.prec :=
      div_le_div_of_nonneg_right h1 hp.le
    have h3 : 0 < pow2 f.emin / (2 : ℚ) ^ f.prec := div_pos (pow2_pos _) hp
    linarith

theorem roundTo_spec (f : FloatFormat) (x : ℚ)
    (hx : |x| + (|x| / (2 : ℚ) ^ f.prec + pow2 (f.emin - f.prec)) < pow2 (f.emax + 1)) :
    ∃ r, roundTo f x = FloatVal.finite r ∧
      |r - x| ≤ |x| / (2 : ℚ) ^ f.prec + pow2 (f.emin - f.prec) ∧
      (0 ≤ x → 0 ≤ r) ∧ (x ≤ 0 → r ≤ 0) := by
  by_cases h0 : x = 0
  · subst h0
    refine ⟨0, by simp [roundTo], ?_, fun _ => le_rfl, fun _ => le_rfl⟩
    simp only [sub_zero, abs_zero, zero_div, zero_add]
    exact (pow2_pos _).le
  · have herr := roundMagnitude_err f x
    have hq := quantum_half_le f x h0
    have hnn := roundMagnitude_nonneg f x
    have hb : |roundMagnitude f x - (|x|)| ≤ |x| / (2 : ℚ) ^ f.prec + pow2 (f.emin - f.prec) :=
      le_trans herr hq
    have hfin : ¬ pow2 (f.emax + 1) ≤ roundMagnitude f x := by
      rw [not_le]
      have := (abs_le.1 hb).2
      linarith
    unfold roundTo
    rw [if_neg h0, if_neg hfin]
    rcases lt_or_gt_of_ne h0 with hneg | hpos
    · rw [if_neg (not_lt.2 hneg.le)]
      refine ⟨_, rfl, ?_, fun h => absurd h (not_le.2 hneg), fun _ => by linarith⟩
      rw [abs_of_neg hneg] at hb ⊢
      have e : -roundMagnitude f x - x = -(roundMagnitude f x - -x) := by ring
      rw [e, abs_neg]
      exact hb
    · rw [if_pos hpos]
      refine ⟨_, rfl, ?_, fun _ => hnn, fun h => absurd h (not_le.2 hpos)⟩
      rw [abs_of_pos hpos] at hb ⊢
      exact hb

theorem roundMagnitude_ge (f : FloatFormat) (x : ℚ) (hp : 1 ≤ f.prec)
    (hx : pow2 f.emin ≤ |x|) : pow2 f.emin ≤ roundMagnitude f x := by
  have hax : 0 < |x| := lt_of_lt_of_le (pow2_pos _) hx
  have hE : pow2 (max (floorLog2 |x|) f.emin) ≤ |x| := by
    rcases le_total (floorLog2 |x|) f.emin with h | h
    · rw [max_eq_right h]; exact hx
    · rw [max_eq_left h]; exact floorLog2_le |x| hax
  have hq := quantum_pos f x
  have hqe : quantum f x * (2 : ℚ) ^ (f.prec - 1) = pow2 (max (floorLog2 |x|) f.emin) := by
    unfold quantum
    have : ((f.prec : ℤ) - 1) = ((f.prec - 1 : ℕ) : ℤ) := by omega
    rw [this, pow2_sub_natCast]
    field_simp
  have hk : (((2 : ℤ) ^ (f.prec - 1) : ℤ) : ℚ) ≤ |x| / quantum f x := by
    rw [le_div_iff₀ hq]
    push_cast
    rw [mul_comm, hqe]
    exact hE
  have hn := roundHalfEven_ge _ _ hk
  have hn' : ((2 : ℚ) ^ (f.prec - 1)) ≤ (roundHalfEven (|x| / quantum f x) : ℚ) := by
    exact_mod_cast hn
  unfold roundMagnitude
  calc pow2 f.emin ≤ pow2 (max (floorLog2 |x|) f.emin) := pow2_le_pow2 _ _ (le_max_right _ _)
    _ = (2 : ℚ) ^ (f.prec - 1) * quantum f x := by rw [← hqe]; ring
    _ ≤ (roundHalfEven (|x| / quantum f x) : ℚ) * quantum f x :=
        mul_le_mul_of_nonneg_right hn' hq.le

theorem roundTo_exact_subnormal (f : FloatFormat) (x : ℚ) (k : ℤ)
    (hk : x = (k : ℚ) * pow2 (f.emin - ((f.prec : ℤ) - 1))) (hx : |x| < pow2 f.emin)
    (hr : f.emin ≤ f.emax + 1) : roundTo f x = FloatVal.finite x := by
  by_cases h0 : x = 0
  · subst h0; simp [roundTo]
  · have hax : 0 < |x| := abs_pos.2 h0
    have hfl : floorLog2 |x| < f.emin := by
      by_contra hcon
      rw [not_lt] at hcon
      have := le_trans (pow2_le_pow2 _ _ hcon) (floorLog2_le |x| hax)
      linarith
    have hq : quantum f x = pow2 (f.emin - ((f.prec : ℤ) - 1)) := by
      unfold quantum
      rw [max_eq_right hfl.le]
    have hqpos := pow2_pos (f.emin - ((f.prec : ℤ) - 1))
    have hmag : roundMagnitude f x = |x| := by
      unfold roundMagnitude
      rw [hq]
      have : |x| / pow2 (f.emin - ((f.prec : ℤ) - 1)) = ((|k| : ℤ) : ℚ) := by
        rw [hk, abs_mul, abs_of_pos hqpos, Int.cast_abs]
        field_simp
      rw [this, roundHalfEven_intCast, hk, abs_mul, abs_of_pos hqpos, Int.cast_abs]
    have hfin : ¬ pow2 (f.emax + 1) ≤ roundMagnitude f x := by
      rw [hmag, not_le]
      exact lt_of_lt_of_le hx (pow2_le_pow2 _ _ hr)
    unfold roundTo
    rw [if_neg h0, if_neg hfin, hmag]
    rcases lt_or_gt_of_ne h0 with hneg | hpos
    · rw [if_neg (not_lt.2 hneg.le), abs_of_neg hneg, neg_neg]
    · rw [if_pos hpos, abs_of_pos hpos]

theorem representable_multiple (f : FloatFormat) (x : ℚ)
    (h : roundTo f x = FloatVal.finite x) :
    ∃ k : ℤ, x = (k : ℚ) * pow2 (f.emin - ((f.prec : ℤ) - 1)) := by
  by_cases h0 : x = 0
  · exact ⟨0, by rw [h0]; simp⟩
  · unfold roundTo at h
    rw [if_neg h0] at h
    split at h
    · split at h <;> cases h
    · have hval : (if 0 < x then roundMagnitude f x else -roundMagnitude f x) = x := by
        injection h
      have hE : f.emin ≤ max (floorLog2 |x|) f.emin := le_max_right _ _
      obtain ⟨m, hm⟩ : ∃ m : ℕ, max (floorLog2 |x|) f.emin = f.emin + (m : ℤ) :=
        ⟨(max (floorLog2 |x|) f.emin - f.emin).toNat, by omega⟩
      have hq : quantum f x = (2 : ℚ) ^ m * pow2 (f.emin - ((f.prec : ℤ) - 1)) := by
        unfold quantum
        rw [hm, show f.emin + (m : ℤ) - ((f.prec : ℤ) - 1) =
          (m : ℤ) + (f.emin - ((f.prec : ℤ) - 1)) by ring, pow2_add, pow2_natCast]
      have hmag : roundMagnitude f x =
          ((roundHalfEven (|x| / quantum f x) * 2 ^ m : ℤ) : ℚ) *
            pow2 (f.emin - ((f.prec : ℤ) - 1)) := by
        unfold roundMagnitude
        rw [hq]
        push_cast
        ring
      by_cases hpos : 0 < x
      · rw [if_pos hpos] at hval
        exact ⟨_, by rw [← hmag]; exact hval.symm⟩
      · rw [if_neg hpos] at hval
        refine ⟨-(roundHalfEven (|x| / quantum f x) * 2 ^ m), ?_⟩
        rw [Int.cast_neg, neg_mul, ← hmag]
        exact hval.symm

theorem roundTo_abs_eq (f : FloatFormat) (x r : ℚ) (hx : x ≠ 0)
    (h : roundTo f x = FloatVal.finite r) : |r| = roundMagnitude f x := by
  unfold roundTo at h
  rw [if_neg hx] at h
  have hnn := roundMagnitude_nonneg f x
  split at h
  · split at h <;> cases h
  · injection h with h
    rw [← h]
    split
    · exact abs_of_nonneg hnn
    · rw [abs_neg]; exact abs_of_nonneg hnn

theorem binary32_round (x : ℚ) (hx : |x| ≤ 2 ^ 127) :
    ∃ r, roundTo binary32 x = FloatVal.finite r ∧
      |r - x| ≤ |x| / 2 ^ 24 + 1 / 2 ^ 150 ∧ (0 ≤ x → 0 ≤ r) ∧ (x ≤ 0 → r ≤ 0) := by
  have e1 : pow2 (binary32.emin - (binary32.prec : ℤ)) = 1 / 2 ^ 150 := by decide!
  have e2 : pow2 (binary32.emax + 1) = 2 ^ 128 := by decide!
  have e3 : binary32.prec = 24 := rfl
  have := roundTo_spec binary32 x (by
    rw [e1, e2, e3]
    have h0 := abs_nonneg x
    have : |x| / 2 ^ 24 ≤ 2 ^ 127 / 2 ^ 24 := div_le_div_of_nonneg_right hx (by positivity)
    norm_num at this ⊢
    linarith)
  rw [e1, e3] at this
  exact this

theorem binary32_abs_ge (x r : ℚ) (hx : 1 / 2 ^ 126 ≤ |x|)
    (h : roundTo binary32 x = FloatVal.finite r) : 1 / 2 ^ 126 ≤ |r| := by
  have e1 : pow2 binary32.emin = 1 / 2 ^ 126 := by decide!
  have h0 : x ≠ 0 := by
    intro h0
    rw [h0, abs_zero] at hx
    have : (0 : ℚ) < 1 / 2 ^ 126 := by positivity
    linarith
  rw [roundTo_abs_eq binary32 x r h0 h, ← e1]
  exact roundMagnitude_ge binary32 x (by decide) (by rw [e1]; exact hx)

theorem binary32_sub_exact (x y : ℚ) (hx : roundTo binary32 x = FloatVal.finite x)
    (hy : roundTo binary32 y = FloatVal.finite y) (hd : |x - y| < 1 / 2 ^ 126) :
    roundTo binary32 (x - y) = FloatVal.finite (x - y) := by
  obtain ⟨k1, h1⟩ := representable_multiple binary32 x hx
  obtain ⟨k2, h2⟩ := representable_multiple binary32 y hy
  have e1 : pow2 binary32.emin = 1 / 2 ^ 126 := by decide!
  refine roundTo_exact_subnormal binary32 (x - y) (k1 - k2) ?_ (by rw [e1]; exact hd)
    (by decide)
  rw [Int.cast_sub, sub_mul, ← h1, ← h2]

theorem floatVal_sub_finite (f : FloatFormat) (x y : ℚ) :
    FloatVal.sub f (FloatVal.finite x) (FloatVal.finite y) = roundTo f (x - y) := by
  simp only [FloatVal.sub, FloatVal.neg, FloatVal.add, sub_eq_add_neg]

theorem floatVal_le_finite (a b : ℚ) :
    (FloatVal.finite a).le (FloatVal.finite b) = decide (a ≤ b) := by
  simp only [FloatVal.le, FloatVal.lt, FloatVal.eq]
  by_cases h : a ≤ b
  · rcases lt_or_eq_of_le h with h1 | h1
    · simp [h, h1]
    · simp [h1]
  · have h1 : ¬ a < b := fun h' => h h'.le
    have h2 : ¬ a = b := fun h' => h h'.le
    simp [h, h1, h2]

theorem almost_equalF_default (x y : ℚ) (hx : roundTo binary32 x = FloatVal.finite x)
    (hy : roundTo binary32 y = FloatVal.finite y) (hxb : |x| ≤ 2 ^ 126) (hyb : |y| ≤ 2 ^ 126) :
    ((|x - y| ≤ epsilon * |x + y| * 2 * (1 - 1 / 2 ^ 20) ∨ |x - y| < smallestNormal) →
        almost_equalF (FloatVal.finite x) (FloatVal.finite y) defaultUlp = true) ∧
    (almost_equalF (FloatVal.finite x) (FloatVal.finite y) defaultUlp = true →
        |x - y| ≤ epsilon * |x + y| * 2 * (1 + 1 / 2 ^ 20) ∨ |x - y| < smallestNormal) := by
  have hdb : |x - y| ≤ 2 ^ 127 := by
    have := abs_sub x y
    norm_num at hxb hyb ⊢
    linarith
  have hsb : |x + y| ≤ 2 ^ 127 := by
    have := abs_add x y
    norm_num at hxb hyb ⊢
    linarith
  obtain ⟨D, hD, hDe, -, -⟩ := binary32_round (x - y) hdb
  obtain ⟨S, hS, hSe, -, -⟩ := binary32_round (x + y) hsb
  have hDa : |(|D|) - (|x - y|)| ≤ |D - (x - y)| := abs_abs_sub_abs_le_abs_sub _ _
  have hSa : |(|S|) - (|x + y|)| ≤ |S - (x + y)| := abs_abs_sub_abs_le_abs_sub _ _
  have hD1 := abs_le.1 (le_trans hDa hDe)
  have hS1 := abs_le.1 (le_trans hSa hSe)
  have hd0 := abs_nonneg (x - y)
  have hs0 := abs_nonneg (x + y)
  have hSb : |S| ≤ 2 ^ 128 := by
    have : |x + y| / 2 ^ 24 ≤ 2 ^ 127 / 2 ^ 24 := div_le_div_of_nonneg_right hsb (by positivity)
    norm_num at this hS1 hsb ⊢
    linarith [hS1.2]
  have hzb : |epsilon * (|S|)| ≤ 2 ^ 127 := by
    rw [abs_mul, abs_abs]
    unfold epsilon
    rw [abs_of_pos (by positivity)]
    norm_num at hSb ⊢
    linarith [abs_nonneg S]
  obtain ⟨w, hw, hwe, hw0, -⟩ := binary32_round (epsilon * |S|) hzb
  have hz0 : 0 ≤ epsilon * |S| := mul_nonneg (by unfold epsilon; positivity) (abs_nonneg S)
  have hw0' := hw0 hz0
  rw [abs_of_nonneg hz0] at hwe
  have hw1 := abs_le.1 hwe
  have hwb : |w * 2| ≤ 2 ^ 127 := by
    rw [abs_mul, abs_of_nonneg hw0']
    unfold epsilon at hw1
    norm_num at hw1 hSb ⊢
    linarith [hw1.2, abs_nonneg S]
  obtain ⟨P, hP, hPe, hP0, -⟩ := binary32_round (w * 2) hwb
  have hw2 : 0 ≤ w * 2 := mul_nonneg hw0' (by norm_num)
  have hP0' := hP0 hw2
  rw [abs_of_nonneg hw2] at hPe
  have hP1 := abs_le.1 hPe
  have htwo : FloatVal.ofInt binary32 defaultUlp = FloatVal.finite 2 := by decide!
  have hval : almost_equalF (FloatVal.finite x) (FloatVal.finite y) defaultUlp =
      (decide (|D| ≤ P) || decide (|D| < smallestNormal)) := by
    unfold almost_equalF
    rw [floatVal_sub_finite, hD, htwo]
    simp only [FloatVal.add, hS, FloatVal.abs, FloatVal.mul, hw, hP, floatVal_le_finite,
      FloatVal.lt]
  rw [hval, Bool.or_eq_true, decide_eq_true_eq, decide_eq_true_eq]
  unfold epsilon smallestNormal at *
  constructor
  · intro h
    by_cases hsmall : |x - y| < 1 / 2 ^ 126
    · right
      have := binary32_sub_exact x y hx hy hsmall
      rw [hD] at this
      rw [FloatVal.finite.inj this]
      exact hsmall
    · left
      rw [not_lt] at hsmall
      rcases h with h | h
      · norm_num at h hD1 hS1 hw1 hP1 hsmall ⊢
        linarith [hD1.2, hS1.1, hw1.1, hP1.1]
      · exact absurd h (not_lt.2 hsmall)
  · intro h
    by_cases hsmall : |x - y| < 1 / 2 ^ 126
    · exact Or.inr hsmall
    · left
      rw [not_lt] at hsmall
      have hDge := binary32_abs_ge (x - y) D hsmall hD
      rcases h with h | h
      · norm_num at h hD1 hS1 hw1 hP1 hsmall ⊢
        linarith [hD1.1, hS1.2, hw1.2, hP1.2]
      · exact absurd h (not_lt.2 hDge)

theorem roundTo_exact_of_multiple (f : FloatFormat) (x : ℚ) (hp : 1 ≤ f.prec)
    (hint : ∃ k : ℤ, x = (k : ℚ)) (hx : |x| < (2 : ℚ) ^ f.prec)
    (hmin : f.emin ≤ 0) (hmax : (f.prec : ℤ) ≤ f.emax + 1) :
    roundTo f x = FloatVal.finite x := by
  by_cases h0 : x = 0
  · subst h0; simp [roundTo]
  · obtain ⟨k, hk⟩ := hint
    have hax : 0 < |x| := abs_pos.2 h0
    have hE : max (floorLog2 |x|) f.emin ≤ (f.prec : ℤ) - 1 := by
      apply max_le
      · by_contra hcon
        rw [not_le] at hcon
        have h1 : pow2 (f.prec : ℤ) ≤ pow2 (floorLog2 |x|) := pow2_le_pow2 _ _ (by omega)
        have h2 := floorLog2_le |x| hax
        rw [pow2_natCast] at h1
        linarith
      · omega
    obtain ⟨m, hm⟩ : ∃ m : ℕ, (f.prec : ℤ) - 1 - max (floorLog2 |x|) f.emin = (m : ℤ) :=
      ⟨((f.prec : ℤ) - 1 - max (floorLog2 |x|) f.emin).toNat, by omega⟩
    have hq : quantum f x = 1 / (2 : ℚ) ^ m := by
      unfold quantum
      rw [show max (floorLog2 |x|) f.emin - ((f.prec : ℤ) - 1) = -(m : ℤ) by omega,
        pow2_neg_natCast]
    have hmag : roundMagnitude f x = |x| := by
      unfold roundMagnitude
      rw [hq]
      have : |x| / (1 / (2 : ℚ) ^ m) = ((|k| * 2 ^ m : ℤ) : ℚ) := by
        rw [hk]
        push_cast
        field_simp
      rw [this, roundHalfEven_intCast, hk]
      push_cast
      field_simp
    have hfin : ¬ pow2 (f.emax + 1) ≤ roundMagnitude f x := by
      rw [hmag, not_le]
      have : pow2 (f.prec : ℤ) ≤ pow2 (f.emax + 1) := pow2_le_pow2 _ _ hmax
      rw [pow2_natCast] at this
      linarith
    unfold roundTo
    rw [if_neg h0, if_neg hfin, hmag]
    rcases lt_or_gt_of_ne h0 with hneg | hpos
    · rw [if_neg (not_lt.2 hneg.le), abs_of_neg hneg, neg_neg]
    · rw [if_pos hpos, abs_of_pos hpos]

theorem binary64_exact_int (k : ℤ) (hk : |(k : ℚ)| < 2 ^ 53) :
    roundTo binary64 (k : ℚ) = FloatVal.finite (k : ℚ) :=
  roundTo_exact_of_multiple binary64 _ (by decide) ⟨k, rfl⟩ hk (by decide) (by decide)

theorem crossProductD_exact (a b c : Point)
    (ha : ∃ i j : ℤ, a.x = i ∧ a.y = j ∧ |(i : ℚ)| ≤ 2 ^ 24 ∧ |(j : ℚ)| ≤ 2 ^ 24)
    (hb : ∃ i j : ℤ, b.x = i ∧ b.y = j ∧ |(i : ℚ)| ≤ 2 ^ 24 ∧ |(j : ℚ)| ≤ 2 ^ 24)
    (hc : ∃ i j : ℤ, c.x = i ∧ c.y = j ∧ |(i : ℚ)| ≤ 2 ^ 24 ∧ |(j : ℚ)| ≤ 2 ^ 24) :
    crossProductD a b c = FloatVal.finite (crossProduct a b c) ∧
      distanceSquaredD a b = FloatVal.finite (distanceSquared a b) := by
  obtain ⟨a1, a2, ea1, ea2, ha1, ha2⟩ := ha
  obtain ⟨b1, b2, eb1, eb2, hb1, hb2⟩ := hb
  obtain ⟨c1, c2, ec1, ec2, hc1, hc2⟩ := hc
  obtain ⟨la1, ua1⟩ := abs_le.1 ha1
  obtain ⟨la2, ua2⟩ := abs_le.1 ha2
  obtain ⟨lb1, ub1⟩ := abs_le.1 hb1
  obtain ⟨lb2, ub2⟩ := abs_le.1 hb2
  obtain ⟨lc1, uc1⟩ := abs_le.1 hc1
  obtain ⟨lc2, uc2⟩ := abs_le.1 hc2
  have hd : ∀ u v : ℤ, |(u : ℚ)| ≤ 2 ^ 24 → |(v : ℚ)| ≤ 2 ^ 24 →
      |((u - v : ℤ) : ℚ)| ≤ 2 ^ 25 := by
    intro u v hu hv
    push_cast
    have := abs_sub u v
    have h3 : |(u : ℚ) - v| ≤ |(u : ℚ)| + |(v : ℚ)| := abs_sub _ _
    norm_num at hu hv ⊢
    linarith
  have hm : ∀ u v : ℤ, |(u : ℚ)| ≤ 2 ^ 25 → |(v : ℚ)| ≤ 2 ^ 25 →
      |((u * v : ℤ) : ℚ)| ≤ 2 ^ 50 := by
    intro u v hu hv
    push_cast
    rw [abs_mul]
    calc |(u : ℚ)| * |(v : ℚ)| ≤ 2 ^ 25 * 2 ^ 25 :=
          mul_le_mul hu hv (abs_nonneg _) (by positivity)
      _ = 2 ^ 50 := by norm_num
  have hsub : ∀ u v : ℤ, |((u - v : ℤ) : ℚ)| ≤ 2 ^ 25 →
      FloatVal.sub binary64 (FloatVal.finite u) (FloatVal.finite v) =
        FloatVal.finite ((u - v : ℤ) : ℚ) := by
    intro u v h
    rw [floatVal_sub_finite, ← Int.cast_sub]
    exact binary64_exact_int _ (lt_of_le_of_lt h (by norm_num))
  have hmul : ∀ u v : ℤ, |((u * v : ℤ) : ℚ)| ≤ 2 ^ 50 →
      FloatVal.mul binary64 (FloatVal.finite u) (FloatVal.finite v) =
        FloatVal.finite ((u * v : ℤ) : ℚ) := by
    intro u v h
    show roundTo binary64 ((u : ℚ) * v) = _
    rw [← Int.cast_mul]
    exact binary64_exact_int _ (lt_of_le_of_lt h (by norm_num))
  have hs2 : ∀ u v : ℤ, |(u : ℚ)| ≤ 2 ^ 50 → |(v : ℚ)| ≤ 2 ^ 50 →
      FloatVal.sub binary64 (FloatVal.finite u) (FloatVal.finite v) =
        FloatVal.finite ((u - v : ℤ) : ℚ) ∧
      FloatVal.add binary64 (FloatVal.finite u) (FloatVal.finite v) =
        FloatVal.finite ((u + v : ℤ) : ℚ) := by
    intro u v hu hv
    constructor
    · rw [floatVal_sub_finite, ← Int.cast_sub]
      apply binary64_exact_int
      push_cast
      have h3 : |(u : ℚ) - v| ≤ |(u : ℚ)| + |(v : ℚ)| := abs_sub _ _
      norm_num at hu hv ⊢
      linarith
    · show roundTo binary64 ((u : ℚ) + v) = _
      rw [← Int.cast_add]
      apply binary64_exact_int
      push_cast
      have h3 : |(u : ℚ) + v| ≤ |(u : ℚ)| + |(v : ℚ)| := abs_add _ _
      norm_num at hu hv ⊢
      linarith
  unfold crossProductD distanceSquaredD crossProduct distanceSquared
  simp only [ea1, ea2, eb1, eb2, ec1, ec2]
  rw [hsub b1 a1 (hd _ _ hb1 ha1), hsub c2 a2 (hd _ _ hc2 ha2), hsub b2 a2 (hd _ _ hb2 ha2),
    hsub c1 a1 (hd _ _ hc1 ha1),
    hmul _ _ (hm _ _ (hd _ _ hb1 ha1) (hd _ _ hc2 ha2)),
    hmul _ _ (hm _ _ (hd _ _ hb2 ha2) (hd _ _ hc1 ha1)),
    (hs2 _ _ (hm _ _ (hd _ _ hb1 ha1) (hd _ _ hc2 ha2))
      (hm _ _ (hd _ _ hb2 ha2) (hd _ _ hc1 ha1))).1,
    hmul _ _ (hm _ _ (hd _ _ hb1 ha1) (hd _ _ hb1 ha1)),
    hmul _ _ (hm _ _ (hd _ _ hb2 ha2) (hd _ _ hb2 ha2)),
    (hs2 _ _ (hm _ _ (hd _ _ hb1 ha1) (hd _ _ hb1 ha1))
      (hm _ _ (hd _ _ hb2 ha2) (hd _ _ hb2 ha2))).2]
  constructor <;> push_cast <;> rfl

theorem signsExact_of_integer (points : List Point)
    (h : ∀ a ∈ points, ∃ i j : ℤ, a.x = i ∧ a.y = j ∧ |(i : ℚ)| ≤ 2 ^ 24 ∧ |(j : ℚ)| ≤ 2 ^ 24) :
    SignsExact points := by
  intro a ha b hb c hc
  obtain ⟨e1, _⟩ := crossProductD_exact a b c (h a ha) (h b hb) (h c hc)
  obtain ⟨_, e2⟩ := crossProductD_exact a b c (h a ha) (h b hb) (h c hc)
  obtain ⟨_, e3⟩ := crossProductD_exact a c b (h a ha) (h c hc) (h b hb)
  rw [e1, e2, e3]
  refine ⟨rfl, ?_, fun _ => rfl⟩
  simp only [FloatVal.eq]

/-! ## Auxiliary facts about the super-triangle in `float` arithmetic -/

theorem circumDet_eq_orient (a b c : Vector2) : circumDet a b c = orient a b c := by
  unfold circumDet orient; ring

theorem power_identity (a b c v : Vector2) (hD : circumDet a b c ≠ 0) :
    (v.dist2 (circumCenter a b c) - a.dist2 (circumCenter a b c)) * (circumDet a b c) ^ 2 =
      -(orient b c v * orient c a v * a.dist2 b + orient c a v * orient a b v * b.dist2 c +
        orient a b v * orient b c v * c.dist2 a) := by
  unfold circumCenter half Vector2.dist2 orient
  simp only
  field_simp
  unfold circumDet
  ring

theorem inside_circumcircle (a b c v : Vector2) (hD : circumDet a b c ≠ 0)
    (h1 : orient a b v ≤ 0) (h2 : orient b c v ≤ 0) (h3 : orient c a v ≤ 0) :
    v.dist2 (circumCenter a b c) ≤ a.dist2 (circumCenter a b c) := by
  have hid := power_identity a b c v hD
  have hpos : 0 < (circumDet a b c) ^ 2 := by positivity
  have hab : 0 ≤ a.dist2 b :=
    add_nonneg (mul_self_nonneg _) (mul_self_nonneg _)
  have hbc : 0 ≤ b.dist2 c :=
    add_nonneg (mul_self_nonneg _) (mul_self_nonneg _)
  have hca : 0 ≤ c.dist2 a :=
    add_nonneg (mul_self_nonneg _) (mul_self_nonneg _)
  have t1 : 0 ≤ orient b c v * orient c a v * a.dist2 b :=
    mul_nonneg (mul_nonneg_of_nonpos_of_nonpos h2 h3) hab
  have t2 : 0 ≤ orient c a v * orient a b v * b.dist2 c :=
    mul_nonneg (mul_nonneg_of_nonpos_of_nonpos h3 h1) hbc
  have t3 : 0 ≤ orient a b v * orient b c v * c.dist2 a :=
    mul_nonneg (mul_nonneg_of_nonpos_of_nonpos h1 h2) hca
  by_contra hcon
  rw [not_le] at hcon
  have : 0 < (v.dist2 (circumCenter a b c) - a.dist2 (circumCenter a b c)) *
      (circumDet a b c) ^ 2 := mul_pos (by linarith) hpos
  linarith

set_option maxHeartbeats 1000000 in
theorem perturbed_super (m n δ : ℚ) (q1 q2 q3 v : Vector2) (hδ : 0 < δ)
    (h1x : |q1.x - (m - 20 * δ)| ≤ δ / 16) (h1y : |q1.y - (n - δ)| ≤ δ / 16)
    (h2x : |q2.x - m| ≤ δ / 16) (h2y : |q2.y - (n + 20 * δ)| ≤ δ / 16)
    (h3x : |q3.x - (m + 20 * δ)| ≤ δ / 16) (h3y : |q3.y - (n - δ)| ≤ δ / 16)
    (hvx : |v.x - m| ≤ δ / 2) (hvy : |v.y - n| ≤ δ / 2) :
    orient q1 q2 v < 0 ∧ orient q2 q3 v < 0 ∧ orient q3 q1 v < 0 ∧
      orient q1 q2 q3 ≤ -(800 * δ ^ 2) := by
  obtain ⟨a1, a2⟩ := abs_le.1 h1x
  obtain ⟨b1, b2⟩ := abs_le.1 h1y
  obtain ⟨c1, c2⟩ := abs_le.1 h2x
  obtain ⟨d1, d2⟩ := abs_le.1 h2y
  obtain ⟨e1, e2⟩ := abs_le.1 h3x
  obtain ⟨f1, f2⟩ := abs_le.1 h3y
  obtain ⟨s1, s2⟩ := abs_le.1 hvx
  obtain ⟨t1, t2⟩ := abs_le.1 hvy
  unfold orient
  refine ⟨?_, ?_, ?_, ?_⟩
  · have hX1 : q2.x - q1.x ≤ 161 / 8 * δ := by linarith
    have hX1' : 0 ≤ q2.x - q1.x := by linarith
    have hY1 : v.y - q1.y ≤ 25 / 16 * δ := by linarith
    have hY1' : 0 ≤ v.y - q1.y := by linarith
    have hX2 : 167 / 8 * δ ≤ q2.y - q1.y := by linarith
    have hY2 : 311 / 16 * δ ≤ v.x - q1.x := by linarith
    have p1 : (q2.x - q1.x) * (v.y - q1.y) ≤ 161 / 8 * δ * (25 / 16 * δ) :=
      mul_le_mul hX1 hY1 hY1' (by linarith)
    have p2 : 167 / 8 * δ * (311 / 16 * δ) ≤ (q2.y - q1.y) * (v.x - q1.x) :=
      mul_le_mul hX2 hY2 (by linarith) (by linarith)
    linarith [mul_pos hδ hδ]
  · have hX1 : 159 / 8 * δ ≤ q3.x - q2.x := by linarith
    have hY1 : 311 / 16 * δ ≤ -(v.y - q2.y) := by linarith
    have hX2 : -(q3.y - q2.y) ≤ 169 / 8 * δ := by linarith
    have hX2' : 0 ≤ -(q3.y - q2.y) := by linarith
    have hY2 : |v.x - q2.x| ≤ 9 / 16 * δ := by rw [abs_le]; constructor <;> linarith
    have p1 : 159 / 8 * δ * (311 / 16 * δ) ≤ (q3.x - q2.x) * -(v.y - q2.y) :=
      mul_le_mul hX1 hY1 (by linarith) (by linarith)
    have p2 : |(-(q3.y - q2.y)) * (v.x - q2.x)| ≤ 169 / 8 * δ * (9 / 16 * δ) := by
      rw [abs_mul, abs_of_nonneg hX2']
      exact mul_le_mul hX2 hY2 (abs_nonneg _) (by linarith)
    have p3 := (abs_le.1 p2).2
    linarith [mul_pos hδ hδ]
  · have hX1 : 319 / 8 * δ ≤ -(q1.x - q3.x) := by linarith
    have hY1 : 7 / 16 * δ ≤ v.y - q3.y := by linarith
    have hX2 : |q1.y - q3.y| ≤ 1 / 8 * δ := by rw [abs_le]; constructor <;> linarith
    have hY2 : |v.x - q3.x| ≤ 329 / 16 * δ := by rw [abs_le]; constructor <;> linarith
    have p1 : 319 / 8 * δ * (7 / 16 * δ) ≤ -(q1.x - q3.x) * (v.y - q3.y) :=
      mul_le_mul hX1 hY1 (by linarith) (by linarith)
    have p2 : |(q1.y - q3.y) * (v.x - q3.x)| ≤ 1 / 8 * δ * (329 / 16 * δ) := by
      rw [abs_mul]
      exact mul_le_mul hX2 hY2 (abs_nonneg _) (by linarith)
    have p3 := (abs_le.1 p2).1
    linarith [mul_pos hδ hδ]
  · have hX1 : |q2.x - q1.x| ≤ 161 / 8 * δ := by rw [abs_le]; constructor <;> linarith
    have hY1 : |q3.y - q1.y| ≤ 1 / 8 * δ := by rw [abs_le]; constructor <;> linarith
    have hX2 : 167 / 8 * δ ≤ q2.y - q1.y := by linarith
    have hY2 : 319 / 8 * δ ≤ q3.x - q1.x := by linarith
    have p1 : |(q2.x - q1.x) * (q3.y - q1.y)| ≤ 161 / 8 * δ * (1 / 8 * δ) := by
      rw [abs_mul]
      exact mul_le_mul hX1 hY1 (abs_nonneg _) (by linarith)
    have p2 : 167 / 8 * δ * (319 / 8 * δ) ≤ (q2.y - q1.y) * (q3.x - q1.x) :=
      mul_le_mul hX2 hY2 (by linarith) (by linarith)
    have p3 := (abs_le.1 p1).2
    linarith [mul_pos hδ hδ]

theorem binary32_round_le (x B : ℚ) (hB : |x| ≤ B) (hB2 : B ≤ 2 ^ 127) :
    ∃ r, roundTo binary32 x = FloatVal.finite r ∧ |r - x| ≤ B / 2 ^ 24 + 1 / 2 ^ 150 ∧
      (0 ≤ x → 0 ≤ r) := by
  obtain ⟨r, h1, h2, h3, _⟩ := binary32_round x (le_trans hB hB2)
  refine ⟨r, h1, ?_, h3⟩
  have : |x| / 2 ^ 24 ≤ B / 2 ^ 24 := div_le_div_of_nonneg_right hB (by positivity)
  linarith

set_option maxHeartbeats 2000000 in
theorem superVerticesF_close (b : Bounds) (hx : b.minX ≤ b.maxX) (hy : b.minY ≤ b.maxY)
    (hM1 : |b.minX| ≤ 2 ^ 16 * b.deltaMax) (hM2 : |b.maxX| ≤ 2 ^ 16 * b.deltaMax)
    (hM3 : |b.minY| ≤ 2 ^ 16 * b.deltaMax) (hM4 : |b.maxY| ≤ 2 ^ 16 * b.deltaMax)
    (hlo : 1 / 2 ^ 60 ≤ b.deltaMax) (hhi : b.deltaMax ≤ 2 ^ 100) :
    ∃ q1 q2 q3, superVerticesF b = some (q1, q2, q3) ∧
      |q1.x - (half (b.minX + b.maxX) - 20 * b.deltaMax)| ≤ b.deltaMax / 16 ∧
      |q1.y - (half (b.minY + b.maxY) - b.deltaMax)| ≤ b.deltaMax / 16 ∧
      |q2.x - half (b.minX + b.maxX)| ≤ b.deltaMax / 16 ∧
      |q2.y - (half (b.minY + b.maxY) + 20 * b.deltaMax)| ≤ b.deltaMax / 16 ∧
      |q3.x - (half (b.minX + b.maxX) + 20 * b.deltaMax)| ≤ b.deltaMax / 16 ∧
      |q3.y - (half (b.minY + b.maxY) - b.deltaMax)| ≤ b.deltaMax / 16 := by
  have hdX : b.maxX - b.minX ≤ b.deltaMax := le_max_left _ _
  have hdY : b.maxY - b.minY ≤ b.deltaMax := le_max_right _ _
  have hcase : b.deltaMax = b.maxX - b.minX ∨ b.deltaMax = b.maxY - b.minY := by
    unfold Bounds.deltaMax
    rcases max_choice (b.maxX - b.minX) (b.maxY - b.minY) with h | h
    · exact Or.inl h
    · exact Or.inr h
  generalize b.deltaMax = δ at *
  have hδ : 0 < δ := lt_of_lt_of_le (by positivity) hlo
  have hA : (1 : ℚ) / 2 ^ 150 ≤ δ / 2 ^ 90 := by
    have : (1 : ℚ) / 2 ^ 150 = (1 / 2 ^ 60) / 2 ^ 90 := by norm_num
    rw [this]
    exact div_le_div_of_nonneg_right hlo (by positivity)
  obtain ⟨m1, m1'⟩ := abs_le.1 hM1
  obtain ⟨m2, m2'⟩ := abs_le.1 hM2
  obtain ⟨m3, m3'⟩ := abs_le.1 hM3
  obtain ⟨m4, m4'⟩ := abs_le.1 hM4
  -- dx, dy
  obtain ⟨rdx, hdx, edx, pdx⟩ := binary32_round_le (b.maxX - b.minX) δ
    (by rw [abs_of_nonneg (by linarith)]; exact hdX) (by norm_num at hhi ⊢; linarith)
  obtain ⟨rdy, hdy, edy, pdy⟩ := binary32_round_le (b.maxY - b.minY) δ
    (by rw [abs_of_nonneg (by linarith)]; exact hdY) (by norm_num at hhi ⊢; linarith)
  obtain ⟨edx1, edx2⟩ := abs_le.1 edx
  obtain ⟨edy1, edy2⟩ := abs_le.1 edy
  -- deltaMax
  obtain ⟨dm, hdm, edm1, edm2⟩ : ∃ dm, (if rdx < rdy then rdy else rdx) = dm ∧
      δ - (δ / 2 ^ 24 + 1 / 2 ^ 150) ≤ dm ∧ dm ≤ δ + (δ / 2 ^ 24 + 1 / 2 ^ 150) := by
    refine ⟨_, rfl, ?_, ?_⟩
    · split
      · rcases hcase with h | h <;> linarith
      · rcases hcase with h | h <;> linarith
    · split <;> linarith
  -- sums and midpoints
  obtain ⟨rsx, hsx, esx, -⟩ := binary32_round_le (b.minX + b.maxX) (2 ^ 17 * δ)
    (by rw [abs_le]; constructor <;> linarith) (by norm_num at hhi ⊢; linarith)
  obtain ⟨rsy, hsy, esy, -⟩ := binary32_round_le (b.minY + b.maxY) (2 ^ 17 * δ)
    (by rw [abs_le]; constructor <;> linarith) (by norm_num at hhi ⊢; linarith)
  obtain ⟨esx1, esx2⟩ := abs_le.1 esx
  obtain ⟨esy1, esy2⟩ := abs_le.1 esy
  obtain ⟨mx, hmx, emx, -⟩ := binary32_round_le (1 / 2 * rsx) (2 ^ 17 * δ)
    (by rw [abs_le]; norm_num at *; constructor <;> linarith) (by norm_num at hhi ⊢; linarith)
  obtain ⟨my, hmy, emy, -⟩ := binary32_round_le (1 / 2 * rsy) (2 ^ 17 * δ)
    (by rw [abs_le]; norm_num at *; constructor <;> linarith) (by norm_num at hhi ⊢; linarith)
  obtain ⟨emx1, emx2⟩ := abs_le.1 emx
  obtain ⟨emy1, emy2⟩ := abs_le.1 emy
  -- 20 * deltaMax
  have h20 : FloatVal.ofInt binary32 20 = FloatVal.finite 20 := by decide!
  obtain ⟨far, hfar, efar, -⟩ := binary32_round_le (20 * dm) (21 * δ)
    (by rw [abs_le]; norm_num at *; constructor <;> linarith) (by norm_num at hhi ⊢; linarith)
  obtain ⟨efar1, efar2⟩ := abs_le.1 efar
  -- the coordinates
  obtain ⟨x1, hx1, ex1, -⟩ := binary32_round_le (mx - far) (2 ^ 18 * δ)
    (by rw [abs_le]; norm_num at *; constructor <;> linarith) (by norm_num at hhi ⊢; linarith)
  obtain ⟨y1, hy1, ey1, -⟩ := binary32_round_le (my - dm) (2 ^ 18 * δ)
    (by rw [abs_le]; norm_num at *; constructor <;> linarith) (by norm_num at hhi ⊢; linarith)
  obtain ⟨y2, hy2, ey2, -⟩ := binary32_round_le (my + far) (2 ^ 18 * δ)
    (by rw [abs_le]; norm_num at *; constructor <;> linarith) (by norm_num at hhi ⊢; linarith)
  obtain ⟨x3, hx3, ex3, -⟩ := binary32_round_le (mx + far) (2 ^ 18 * δ)
    (by rw [abs_le]; norm_num at *; constructor <;> linarith) (by norm_num at hhi ⊢; linarith)
  obtain ⟨ex11, ex12⟩ := abs_le.1 ex1
  obtain ⟨ey11, ey12⟩ := abs_le.1 ey1
  obtain ⟨ey21, ey22⟩ := abs_le.1 ey2
  obtain ⟨ex31, ex32⟩ := abs_le.1 ex3
  refine ⟨⟨x1, y1⟩, ⟨mx, y2⟩, ⟨x3, y1⟩, ?_, ?_, ?_, ?_, ?_, ?_, ?_⟩
  · unfold superVerticesF halfF FloatVal.max
    simp only [floatVal_sub_finite, hdx, hdy, FloatVal.add, hsx, hsy, FloatVal.mul, hmx, hmy,
      h20, FloatVal.lt, decide_eq_true_eq, apply_ite FloatVal.finite]
    rw [← apply_ite FloatVal.finite, hdm]
    simp only [FloatVal.mul, hfar, floatVal_sub_finite, hx1, hy1, FloatVal.add, hy2, hx3,
      finitePoint]
  all_goals
    unfold half
    rw [abs_le]
    norm_num at *
    constructor <;> linarith

theorem boundingBox_bounds (vs : List Vector2) (b : Bounds) (hb : boundingBox vs = some b)
    (B : ℚ) (hM : ∀ v ∈ vs, |v.x| ≤ B ∧ |v.y| ≤ B) :
    b.minX ≤ b.maxX ∧ b.minY ≤ b.maxY ∧ |b.minX| ≤ B ∧ |b.maxX| ≤ B ∧ |b.minY| ≤ B ∧
      |b.maxY| ≤ B := by
  obtain ⟨hall, ⟨v1, hv1, e1⟩, ⟨v2, hv2, e2⟩, ⟨v3, hv3, e3⟩, ⟨v4, hv4, e4⟩⟩ :=
    boundingBox_spec vs b hb
  refine ⟨?_, ?_, ?_, ?_, ?_, ?_⟩
  · linarith [(hall v1 hv1).1, (hall v1 hv1).2.1]
  · linarith [(hall v1 hv1).2.2.1, (hall v1 hv1).2.2.2]
  · rw [← e1]; exact (hM v1 hv1).1
  · rw [← e2]; exact (hM v2 hv2).1
  · rw [← e3]; exact (hM v3 hv3).2
  · rw [← e4]; exact (hM v4 hv4).2

theorem superF_inside (vs : List Vector2) (b : Bounds) (hb : boundingBox vs = some b)
    (hM : ∀ v ∈ vs, |v.x| ≤ 2 ^ 16 * b.deltaMax ∧ |v.y| ≤ 2 ^ 16 * b.deltaMax)
    (hlo : 1 / 2 ^ 60 ≤ b.deltaMax) (hhi : b.deltaMax ≤ 2 ^ 100) :
    ∃ q1 q2 q3, superVerticesF b = some (q1, q2, q3) ∧
      orient q1 q2 q3 ≤ -(800 * b.deltaMax ^ 2) ∧
      ∀ v ∈ vs, orient q1 q2 v < 0 ∧ orient q2 q3 v < 0 ∧ orient q3 q1 v < 0 := by
  obtain ⟨hx, hy, m1, m2, m3, m4⟩ := boundingBox_bounds vs b hb _ hM
  obtain ⟨q1, q2, q3, hq, c1, c2, c3, c4, c5, c6⟩ :=
    superVerticesF_close b hx hy m1 m2 m3 m4 hlo hhi
  have hδ : 0 < b.deltaMax := lt_of_lt_of_le (by positivity) hlo
  have hdX : b.maxX - b.minX ≤ b.deltaMax := le_max_left _ _
  have hdY : b.maxY - b.minY ≤ b.deltaMax := le_max_right _ _
  have hv : ∀ v ∈ vs, |v.x - half (b.minX + b.maxX)| ≤ b.deltaMax / 2 ∧
      |v.y - half (b.minY + b.maxY)| ≤ b.deltaMax / 2 := by
    intro v hv
    obtain ⟨k1, k2, k3, k4⟩ := (boundingBox_spec vs b hb).1 v hv
    unfold half
    constructor <;> rw [abs_le] <;> constructor <;> linarith
  obtain ⟨v0, hv0⟩ : ∃ v0, v0 ∈ vs := by
    obtain ⟨_, ⟨v1, hv1, _⟩, _⟩ := boundingBox_spec vs b hb
    exact ⟨v1, hv1⟩
  refine ⟨q1, q2, q3, hq, ?_, ?_⟩
  · exact (perturbed_super _ _ _ q1 q2 q3 v0 hδ c1 c2 c3 c4 c5 c6 (hv v0 hv0).1
      (hv v0 hv0).2).2.2.2
  · intro v hvm
    obtain ⟨o1, o2, o3, _⟩ := perturbed_super _ _ _ q1 q2 q3 v hδ c1 c2 c3 c4 c5 c6
      (hv v hvm).1 (hv v hvm).2
    exact ⟨o1, o2, o3⟩

/-! ## Provenance of the triangles of a run -/

theorem builtFrom_vertex (S : Vector2 → Prop) (done : List Vector2) (t : Triangle)
    (h : BuiltFrom S done t) : ∀ v ∈ t.vertices, S v ∨ v ∈ done := by
  intro v hv
  rcases h with h | ⟨pre, p, post, hd, h3, _, h1, h2⟩
  · exact Or.inl (h v hv)
  · simp only [Triangle.vertices, List.mem_cons, List.mem_singleton, List.not_mem_nil,
      or_false] at hv
    rw [hd]
    rcases hv with rfl | rfl | rfl
    · exact h1.imp id (fun h => List.mem_append_left _ h)
    · exact h2.imp id (fun h => List.mem_append_left _ h)
    · right; rw [h3]; simp

theorem builtFrom_snoc (S : Vector2 → Prop) (done : List Vector2) (p : Vector2) (t : Triangle)
    (h : BuiltFrom S done t) : BuiltFrom S (done ++ [p]) t := by
  rcases h with h | ⟨pre, p0, post, hd, h3, hne, h1, h2⟩
  · exact Or.inl h
  · exact Or.inr ⟨pre, p0, post ++ [p], by rw [hd]; simp, h3, hne, h1, h2⟩

theorem survivingPolygon_ends_builtFrom (S : Vector2 → Prop) (done : List Vector2)
    (W : List Triangle) (p : Vector2)
    (hW : ∀ t ∈ W, t.WellFormed ∧ BuiltFrom S done t) :
    ∀ e ∈ survivingPolygon W p,
      e.p1 ≠ e.p2 ∧ (S e.p1 ∨ e.p1 ∈ done) ∧ (S e.p2 ∨ e.p2 ∈ done) := by
  intro e he
  refine ⟨survivingPolygon_ends_ne W p (fun t ht => (hW t ht).1) e he, ?_⟩
  obtain ⟨s, hs, _, e0, he0, h1, h2⟩ := mem_survivingPolygon W p e he
  obtain ⟨⟨w1, w2, w3, _⟩, hb⟩ := hW s hs
  have hv := builtFrom_vertex S done s hb
  have hs1 := hv s.p1 (by simp [Triangle.vertices])
  have hs2 := hv s.p2 (by simp [Triangle.vertices])
  have hs3 := hv s.p3 (by simp [Triangle.vertices])
  rw [h1, h2]
  rcases he0 with rfl | rfl | rfl
  · rw [w1]; exact ⟨hs1, hs2⟩
  · rw [w2]; exact ⟨hs2, hs3⟩
  · rw [w3]; exact ⟨hs3, hs1⟩

theorem insertPoint_builtFrom (S : Vector2 → Prop) (done : List Vector2) (W : List Triangle)
    (p : Vector2) (hW : ∀ t ∈ W, t.WellFormed ∧ BuiltFrom S done t) :
    ∀ t ∈ insertPoint W p, t.WellFormed ∧ BuiltFrom S (done ++ [p]) t := by
  intro t ht
  refine ⟨insertPoint_wellFormed W p (fun t ht => (hW t ht).1) t ht, ?_⟩
  rw [insertPoint_eq] at ht
  rcases List.mem_append.1 ht with hk | hn
  · exact builtFrom_snoc S done p t (hW t (mem_keptTriangles W p t hk)).2
  · obtain ⟨e, he, rfl⟩ := List.mem_map.1 hn
    obtain ⟨hne, h1, h2⟩ := survivingPolygon_ends_builtFrom S done W p hW e he
    exact Or.inr ⟨done, p, [], rfl, rfl, hne, h1, h2⟩

theorem foldl_insertPoint_builtFrom (S : Vector2 → Prop) (rest : List Vector2) :
    ∀ (done : List Vector2) (W : List Triangle),
      (∀ t ∈ W, t.WellFormed ∧ BuiltFrom S done t) →
      ∀ t ∈ rest.foldl insertPoint W, t.WellFormed ∧ BuiltFrom S (done ++ rest) t := by
  induction rest with
  | nil => intro done W hW; simpa using hW
  | cons p rest ih =>
    intro done W hW
    rw [List.foldl_cons]
    have := ih (done ++ [p]) (insertPoint W p) (insertPoint_builtFrom S done W p hW)
    simpa using this

theorem new_wellFormed_builtFrom (S : Vector2 → Prop) (q1 q2 q3 : Vector2)
    (h1 : S q1) (h2 : S q2) (h3 : S q3) :
    ∀ t ∈ [Triangle.new q1 q2 q3], t.WellFormed ∧ BuiltFrom S [] t := by
  intro t ht
  rw [List.mem_singleton.1 ht]
  refine ⟨⟨rfl, rfl, rfl, rfl⟩, Or.inl ?_⟩
  intro v hv
  simp only [Triangle.vertices, Triangle.new, List.mem_cons, List.mem_singleton,
    List.not_mem_nil, or_false] at hv
  rcases hv with rfl | rfl | rfl
  · exact h1
  · exact h2
  · exact h3

theorem builtFrom_orient_ne (S : Vector2 → Prop) (l vs : List Vector2)
    (hS : ∀ v, S v → v ∈ l) (hnd : (l ++ vs).Nodup) (hgp : NoThreeCollinear (l ++ vs))
    (pre post : List Vector2) (p a c : Vector2) (hsplit : vs = pre ++ p :: post)
    (hne : a ≠ c) (ha : S a ∨ a ∈ pre) (hc : S c ∨ c ∈ pre) : orient a c p ≠ 0 := by
  have hmem : ∀ v, S v ∨ v ∈ pre → v ∈ l ++ pre := by
    intro v hv
    rcases hv with h | h
    · exact List.mem_append_left _ (hS v h)
    · exact List.mem_append_right _ h
  have hnd' : ((l ++ pre) ++ p :: post).Nodup := by
    rw [List.append_assoc, ← hsplit]; exact hnd
  have hp : p ∉ l ++ pre := by
    intro hin
    have := List.disjoint_of_nodup_append hnd' hin
    exact this (List.mem_cons_self _ _)
  have hsub : ∀ v, v ∈ l ++ pre → v ∈ l ++ vs := by
    intro v hv
    rw [hsplit, ← List.append_assoc]
    exact List.mem_append_left _ hv
  have hpv : p ∈ l ++ vs := by
    rw [hsplit]; simp
  refine hgp a (hsub a (hmem a ha)) c (hsub c (hmem c hc)) p hpv hne ?_ ?_
  · intro h; exact hp (h ▸ hmem a ha)
  · intro h; exact hp (h ▸ hmem c hc)

/-! ## Gift wrapping in `double` arithmetic -/

theorem wrapStepD_eq (points : List Point) (hS : SignsExact points) (p q i : Nat)
    (hp : p < points.length) (hq : q < points.length) (hi : i < points.length) :
    wrapStepD points p q i = wrapStep points p q i := by
  obtain ⟨h1, h2, h3⟩ := hS _ (pointAt_mem points p hp) _ (pointAt_mem points i hi) _
    (pointAt_mem points q hq)
  unfold wrapStepD wrapStep
  by_cases hc : i = p ∨ i = q
  · rw [if_pos hc, if_pos hc]
  · rw [if_neg hc, if_neg hc]
    simp only [h1, h2, decide_eq_true_eq, gt_iff_lt]
    by_cases hpos : 0 < crossProduct (pointAt points p) (pointAt points i) (pointAt points q)
    · rw [if_pos hpos, if_pos hpos]
    · rw [if_neg hpos, if_neg hpos]
      by_cases hz : crossProduct (pointAt points p) (pointAt points i) (pointAt points q) = 0
      · rw [if_pos hz, if_pos hz, h3 hz]
        simp only [decide_eq_true_eq]
      · rw [if_neg hz, if_neg hz]

theorem wrapStep_lt (points : List Point) (p q i : Nat) (hq : q < points.length)
    (hi : i < points.length) : wrapStep points p q i < points.length := by
  rcases wrapStep_cases points p q i with h | h
  · rw [h]; exact hq
  · rw [h.1]; exact hi

theorem foldl_wrapStepD_eq (points : List Point) (hS : SignsExact points) (p : Nat)
    (hp : p < points.length) (l : List Nat) :
    (∀ i ∈ l, i < points.length) → ∀ q, q < points.length →
      l.foldl (wrapStepD points p) q = l.foldl (wrapStep points p) q ∧
        l.foldl (wrapStep points p) q < points.length := by
  induction l with
  | nil => intro _ q hq; exact ⟨rfl, hq⟩
  | cons i l ih =>
    intro hl q hq
    have hi := hl i (List.mem_cons_self _ _)
    rw [List.foldl_cons, List.foldl_cons, wrapStepD_eq points hS p q i hp hq hi]
    exact ih (fun j hj => hl j (List.mem_cons_of_mem _ hj)) _ (wrapStep_lt points p q i hq hi)

theorem nextHullIndexD_eq (points : List Point) (hS : SignsExact points) (p : Nat)
    (hp : p < points.length) :
    nextHullIndexD points p = nextHullIndex points p ∧
      nextHullIndex points p < points.length := by
  unfold nextHullIndexD nextHullIndex
  exact foldl_wrapStepD_eq points hS p hp _ (fun i hi => List.mem_range.1 hi) _
    (Nat.mod_lt _ (by omega))

theorem wrapLoopD_eq (points : List Point) (hS : SignsExact points) (leftmost : Nat)
    (fuel : Nat) : ∀ (p : Nat) (hull : List Point), p < points.length →
      wrapLoopD points leftmost fuel p hull = wrapLoop points leftmost fuel p hull := by
  induction fuel with
  | zero => intro p hull _; rfl
  | succ fuel ih =>
    intro p hull hp
    obtain ⟨h1, h2⟩ := nextHullIndexD_eq points hS p hp
    rw [wrapLoopD, wrapLoop]
    simp only [h1]
    rw [ih _ _ h2]

theorem giftWrappingD_eq (points : List Point) (hS : SignsExact points) :
    giftWrappingD points = giftWrapping points := by
  unfold giftWrappingD giftWrapping
  by_cases h : points.length < 3
  · rw [if_pos h, if_pos h]
  · rw [if_neg h, if_neg h]
    exact wrapLoopD_eq points hS _ _ _ _ (leftmostIndex_spec points (by omega)).1

theorem iterate_ne_of_first_return (f : ℕ → ℕ) (R : ℕ → Prop)
    (hR : ∀ p, R p → R (f p))
    (hinj : ∀ p p', R p → R p' → f p = f p' → p = p') (p0 : ℕ) (h0 : R p0) (k : ℕ)
    (hmin : ∀ s, 1 ≤ s → s < k → f^[s] p0 ≠ p0) :
    ∀ i j, i < j → j < k → f^[i] p0 ≠ f^[j] p0 := by
  have hRk : ∀ k, R (f^[k] p0) := by
    intro k
    induction k with
    | zero => exact h0
    | succ k ih => rw [Function.iterate_succ_apply']; exact hR _ ih
  intro i
  induction i with
  | zero => intro j hj hjk h; exact hmin j hj hjk h.symm
  | succ i ih =>
    intro j hij hjk h
    obtain ⟨j', rfl⟩ : ∃ j', j = j' + 1 := ⟨j - 1, by omega⟩
    rw [Function.iterate_succ_apply', Function.iterate_succ_apply'] at h
    exact ih j' (by omega) (by omega) (hinj _ _ (hRk i) (hRk j') h)

theorem crossProduct_reverse (p q r : Point) : crossProduct q p r = -crossProduct p q r := by
  unfold crossProduct; ring

theorem collinear_of_on_line (p q a b c : Point) (hpq : p ≠ q)
    (ha : crossProduct p q a = 0) (hb : crossProduct p q b = 0) (hc : crossProduct p q c = 0) :
    crossProduct a b c = 0 := by
  unfold crossProduct at *
  have hne : q.x - p.x ≠ 0 ∨ q.y - p.y ≠ 0 := by
    by_contra hcon
    push_neg at hcon
    apply hpq
    cases p; cases q
    simp only [Point.mk.injEq]
    constructor <;> linarith [hcon.1, hcon.2]
  rcases hne with h | h
  · apply mul_left_cancel₀ h
    rw [mul_zero]
    apply mul_left_cancel₀ h
    rw [mul_zero]
    linear_combination
      ((b.x - a.x) * (q.x - p.x)) * hc - ((c.x - a.x) * (q.x - p.x)) * hb +
        ((c.x - b.x) * (q.x - p.x)) * ha
  · apply mul_left_cancel₀ h
    rw [mul_zero]
    apply mul_left_cancel₀ h
    rw [mul_zero]
    linear_combination
      ((b.y - a.y) * (q.y - p.y)) * hc - ((c.y - a.y) * (q.y - p.y)) * hb +
        ((c.y - b.y) * (q.y - p.y)) * ha

theorem giftWrapping_orbit (points : List Point) (hn : 3 ≤ points.length)
    (hnd : points.Nodup) :
    ∃ k, 2 ≤ k ∧ k ≤ points.length ∧
      (nextHullIndex points)^[k] (leftmostIndex points) = leftmostIndex points ∧
      giftWrapping points = some ((List.range k).map
        (fun s => pointAt points ((nextHullIndex points)^[s] (leftmostIndex points)))) ∧
      (∀ i j, i < j → j < k →
        pointAt points ((nextHullIndex points)^[i] (leftmostIndex points)) ≠
          pointAt points ((nextHullIndex points)^[j] (leftmostIndex points))) ∧
      ∀ s, (nextHullIndex points)^[s] (leftmostIndex points) < points.length ∧
        ∀ r ∈ points, 0 ≤ crossProduct
          (pointAt points ((nextHullIndex points)^[s] (leftmostIndex points)))
          (pointAt points ((nextHullIndex points)^[s + 1] (leftmostIndex points))) r := by
  have hR : ∀ p, (p < points.length ∧ ∃ dx dy, ExtremeAt points p dx dy) →
      p < points.length ∧
        (nextHullIndex points p < points.length ∧
          ∃ dx dy, ExtremeAt points (nextHullIndex points p) dx dy) := by
    rintro p ⟨hp, dx, dy, hE⟩
    exact ⟨hp, (nextHullIndex_good points p dx dy (by omega) hp hE).1, _, _,
      extremeAt_next points hnd p dx dy (by omega) hp hE⟩
  have hinj : ∀ p p', (p < points.length ∧ ∃ dx dy, ExtremeAt points p dx dy) →
      (p' < points.length ∧ ∃ dx dy, ExtremeAt points p' dx dy) →
      nextHullIndex points p = nextHullIndex points p' → p = p' := by
    rintro p p' ⟨hp, dx, dy, hE⟩ ⟨hp', dx', dy', hE'⟩ h
    exact nextHullIndex_injective points hnd (by omega) p p' dx dy dx' dy' hp hp' hE hE' h
  have h0 : leftmostIndex points < points.length ∧
      ∃ dx dy, ExtremeAt points (leftmostIndex points) dx dy :=
    ⟨(leftmostIndex_spec points (by omega)).1, 0, -1,
      extremeAt_leftmost points hnd (by omega)⟩
  obtain ⟨k, hk1, hkn, hret, hmin⟩ := iterate_first_return (nextHullIndex points)
    (fun p => p < points.length ∧ ∃ dx dy, ExtremeAt points p dx dy) points.length
    hR hinj (leftmostIndex points) h0
  have hRk : ∀ s, (nextHullIndex points)^[s] (leftmostIndex points) < points.length ∧
      ∃ dx dy, ExtremeAt points ((nextHullIndex points)^[s] (leftmostIndex points)) dx dy := by
    intro s
    induction s with
    | zero => exact h0
    | succ s ih => rw [Function.iterate_succ_apply']; exact (hR _ ih).2
  have hk2 : 2 ≤ k := by
    by_contra hlt
    have hk : k = 1 := by omega
    rw [hk, Function.iterate_one] at hret
    obtain ⟨hp, dx, dy, hE⟩ := h0
    exact (nextHullIndex_good points _ dx dy (by omega) hp hE).2.1 hret
  refine ⟨k, hk2, hkn, hret, ?_, ?_, ?_⟩
  · obtain ⟨t, rfl⟩ : ∃ t, k = t + 1 := ⟨k - 1, by omega⟩
    have := wrapLoop_run points (leftmostIndex points) t (points.length + 1)
      (leftmostIndex points) [] (by omega)
      (fun s hs => hmin (s + 1) (by omega) (by omega)) hret (by simpa using hkn)
    unfold giftWrapping
    rw [if_neg (by omega), this, List.nil_append]
  · intro i j hij hjk he
    have := pointAt_inj points hnd _ _ (hRk i).1 (hRk j).1 he
    exact iterate_ne_of_first_return (nextHullIndex points)
      (fun p => p < points.length ∧ ∃ dx dy, ExtremeAt points p dx dy)
      (fun p hp => (hR p hp).2) hinj _ h0 k hmin i j hij hjk this
  · intro s
    obtain ⟨hs, dx, dy, hE⟩ := hRk s
    refine ⟨hs, ?_⟩
    intro r hr
    obtain ⟨j, hj, rfl⟩ := exists_pointAt_of_mem points r hr
    rw [Function.iterate_succ_apply']
    by_cases hjp : j = (nextHullIndex points)^[s] (leftmostIndex points)
    · rw [hjp, crossProduct_base]
    · exact ((nextHullIndex_good points _ dx dy (by omega) hs hE).2.2 j hj hjp).1

theorem floatVal_not_lt_zero (d : FloatVal) (e : ℚ) (he : 0 ≤ e)
    (h1 : (FloatVal.finite 0).lt d = decide (0 < e))
    (h2 : d.eq (FloatVal.finite 0) = decide (e = 0)) :
    d.lt (FloatVal.finite 0) = false := by
  rcases lt_or_eq_of_le he with hpos | hz
  · rw [decide_eq_true hpos] at h1
    cases d with
    | finite q =>
      simp only [FloatVal.lt, decide_eq_true_eq] at h1
      simp only [FloatVal.lt, decide_eq_false_iff_not, not_lt]
      exact le_of_lt h1
    | posInf => rfl
    | negInf => simp [FloatVal.lt] at h1
    | nan => rfl
  · rw [decide_eq_true hz.symm] at h2
    cases d with
    | finite q =>
      simp only [FloatVal.eq, decide_eq_true_eq] at h2
      rw [h2]
      simp [FloatVal.lt]
    | posInf => rfl
    | negInf => simp [FloatVal.eq] at h2
    | nan => rfl

/-! ## Circles through two common points and the empty-circumcircle invariant -/

theorem circumCenter_equidistant (a b c : Vector2) (hD : circumDet a b c ≠ 0) :
    b.dist2 (circumCenter a b c) = a.dist2 (circumCenter a b c) ∧
      c.dist2 (circumCenter a b c) = a.dist2 (circumCenter a b c) := by
  have hsq : (circumDet a b c) ^ 2 ≠ 0 := pow_ne_zero 2 hD
  have hb := power_identity a b c b hD
  have hc := power_identity a b c c hD
  have ob1 : orient a b b = 0 := by unfold orient; ring
  have ob2 : orient b c b = 0 := by unfold orient; ring
  have oc1 : orient b c c = 0 := by unfold orient; ring
  have oc2 : orient c a c = 0 := by unfold orient; ring
  rw [ob1, ob2] at hb
  rw [oc1, oc2] at hc
  constructor
  · have : (b.dist2 (circumCenter a b c) - a.dist2 (circumCenter a b c)) *
        (circumDet a b c) ^ 2 = 0 := by rw [hb]; ring
    have := (mul_eq_zero.1 this).resolve_right hsq
    linarith
  · have : (c.dist2 (circumCenter a b c) - a.dist2 (circumCenter a b c)) *
        (circumDet a b c) ^ 2 = 0 := by rw [hc]; ring
    have := (mul_eq_zero.1 this).resolve_right hsq
    linarith

theorem pencil_identity (c1 c2 a b q x : Vector2) (r1 r2 : ℚ)
    (h1a : a.dist2 c1 = r1) (h1b : b.dist2 c1 = r1)
    (h2a : a.dist2 c2 = r2) (h2b : b.dist2 c2 = r2) :
    ((q.dist2 c1 - r1) - (q.dist2 c2 - r2)) * orient a b x =
      ((x.dist2 c1 - r1) - (x.dist2 c2 - r2)) * orient a b q := by
  unfold Vector2.dist2 at *
  unfold orient
  linear_combination
    (((b.x - a.x) * (x.y - a.y) - (b.y - a.y) * (x.x - a.x)) -
        ((b.x - a.x) * (q.y - a.y) - (b.y - a.y) * (q.x - a.x)) -
        ((q.x - a.x) * (x.y - a.y) - (q.y - a.y) * (x.x - a.x))) * (h1a - h2a) +
      ((q.x - a.x) * (x.y - a.y) - (q.y - a.y) * (x.x - a.x)) * (h1b - h2b)

theorem pencil_nondegenerate (c1 c2 a b c p : Vector2) (r1 r2 : ℚ)
    (h1a : a.dist2 c1 = r1) (h1b : b.dist2 c1 = r1)
    (h2a : a.dist2 c2 = r2) (h2b : b.dist2 c2 = r2)
    (hc : orient a b c ≠ 0) (hp1 : p.dist2 c1 ≤ r1) (hp2 : r2 < p.dist2 c2) :
    orient a b p ≠ 0 := by
  intro h0
  have hid := pencil_identity c1 c2 a b p c r1 r2 h1a h1b h2a h2b
  rw [h0, mul_zero] at hid
  have := (mul_eq_zero.1 hid).resolve_right hc
  linarith

theorem pencil_empty (c1 c3 a b p q : Vector2) (r1 r3 : ℚ)
    (h1a : a.dist2 c1 = r1) (h1b : b.dist2 c1 = r1)
    (h3a : a.dist2 c3 = r3) (h3b : b.dist2 c3 = r3) (h3p : p.dist2 c3 = r3)
    (hp1 : p.dist2 c1 ≤ r1) (hq1 : r1 ≤ q.dist2 c1)
    (hside : 0 ≤ orient a b q * orient a b p) (hp : orient a b p ≠ 0) :
    r3 ≤ q.dist2 c3 := by
  have hid := pencil_identity c1 c3 a b q p r1 r3 h1a h1b h3a h3b
  rw [h3p, sub_self, sub_zero] at hid
  by_contra hcon
  rw [not_le] at hcon
  have hL : 0 < orient a b p * orient a b p := mul_self_pos.2 hp
  have e : ((q.dist2 c1 - r1) - (q.dist2 c3 - r3)) * (orient a b p * orient a b p) =
      (p.dist2 c1 - r1) * (orient a b q * orient a b p) := by
    linear_combination (orient a b p) * hid
  have h1 : (p.dist2 c1 - r1) * (orient a b q * orient a b p) ≤ 0 :=
    mul_nonpos_of_nonpos_of_nonneg (by linarith) hside
  have h2 : 0 < ((q.dist2 c1 - r1) - (q.dist2 c3 - r3)) * (orient a b p * orient a b p) :=
    mul_pos (by linarith) hL
  linarith

theorem pencil_empty_outer (c2 c3 a b p q : Vector2) (r2 r3 : ℚ)
    (h2a : a.dist2 c2 = r2) (h2b : b.dist2 c2 = r2)
    (h3a : a.dist2 c3 = r3) (h3b : b.dist2 c3 = r3) (h3p : p.dist2 c3 = r3)
    (hp2 : r2 ≤ p.dist2 c2) (hq2 : r2 ≤ q.dist2 c2)
    (hside : orient a b q * orient a b p ≤ 0) (hp : orient a b p ≠ 0) :
    r3 ≤ q.dist2 c3 := by
  have hid := pencil_identity c2 c3 a b q p r2 r3 h2a h2b h3a h3b
  rw [h3p, sub_self, sub_zero] at hid
  by_contra hcon
  rw [not_le] at hcon
  have hL : 0 < orient a b p * orient a b p := mul_self_pos.2 hp
  have e : ((q.dist2 c2 - r2) - (q.dist2 c3 - r3)) * (orient a b p * orient a b p) =
      (p.dist2 c2 - r2) * (orient a b q * orient a b p) := by
    linear_combination (orient a b p) * hid
  have h1 : (p.dist2 c2 - r2) * (orient a b q * orient a b p) ≤ 0 :=
    mul_nonpos_of_nonneg_of_nonpos (by linarith) hside
  have h2 : 0 < ((q.dist2 c2 - r2) - (q.dist2 c3 - r3)) * (orient a b p * orient a b p) :=
    mul_pos (by linarith) hL
  linarith

theorem built_fields (t : Triangle) (h : t = Triangle.new t.p1 t.p2 t.p3) :
    t.WellFormed ∧ t.circum = circumCenter t.p1 t.p2 t.p3 ∧
      t.circumRadius2 = t.p1.dist2 (circumCenter t.p1 t.p2 t.p3) :=
  ⟨⟨congrArg Triangle.e1 h, congrArg Triangle.e2 h, congrArg Triangle.e3 h,
      congrArg Triangle.isBad h⟩, congrArg Triangle.circum h, congrArg Triangle.circumRadius2 h⟩

theorem built_on_circle (t : Triangle) (h : t = Triangle.new t.p1 t.p2 t.p3)
    (hD : circumDet t.p1 t.p2 t.p3 ≠ 0) :
    ∀ v ∈ t.vertices, v.dist2 t.circum = t.circumRadius2 := by
  obtain ⟨_, hc, hr⟩ := built_fields t h
  obtain ⟨h2, h3⟩ := circumCenter_equidistant t.p1 t.p2 t.p3 hD
  intro v hv
  simp only [Triangle.vertices, List.mem_cons, List.mem_singleton, List.not_mem_nil,
    or_false] at hv
  rw [hc, hr]
  rcases hv with rfl | rfl | rfl
  · rfl
  · exact h2
  · exact h3

theorem mem_keptTriangles_reject (W : List Triangle) (p : Vector2) (t : Triangle)
    (h : t ∈ keptTriangles W p) : t ∈ W ∧ t.circumCircleContains p = false := by
  unfold keptTriangles at h
  rw [scan_fst_filter] at h
  obtain ⟨hm, hf⟩ := List.mem_filter.1 h
  refine ⟨hm, ?_⟩
  cases hc : t.circumCircleContains p
  · rfl
  · rw [hc] at hf; simp at hf

theorem containsVertex_mem (t : Triangle) (v : Vector2) (h : t.containsVertex v = true) :
    v ∈ t.vertices := by
  unfold Triangle.containsVertex at h
  simp only [Bool.or_eq_true, decide_eq_true_eq] at h
  simp only [Triangle.vertices, List.mem_cons, List.mem_singleton, List.not_mem_nil, or_false]
  rcases h with (h | h) | h
  · exact Or.inl h.symm
  · exact Or.inr (Or.inl h.symm)
  · exact Or.inr (Or.inr h.symm)

theorem stepExact_spec (T0 : Triangle) (W : List Triangle) (p : Vector2)
    (h : stepExact T0 W p = true) :
    (∀ t ∈ W, almost_equal (circumDet t.p1 t.p2 t.p3) 0 defaultUlp = false ∧
      (t.circumCircleContains p = true → p.dist2 t.circum ≤ t.circumRadius2)) ∧
    (∀ e ∈ survivingPolygon W p,
      (∃ s ∈ keptTriangles W p, e.p1 ∈ s.vertices ∧ e.p2 ∈ s.vertices) ∨
        (e.p1 ∈ T0.vertices ∧ e.p2 ∈ T0.vertices)) := by
  unfold stepExact at h
  rw [Bool.and_eq_true, List.all_eq_true, List.all_eq_true] at h
  obtain ⟨h1, h2⟩ := h
  constructor
  · intro t ht
    have := h1 t ht
    rw [Bool.and_eq_true, Bool.not_eq_true', Bool.or_eq_true, Bool.not_eq_true',
      decide_eq_true_eq] at this
    refine ⟨this.1, ?_⟩
    intro hc
    rcases this.2 with h' | h'
    · rw [hc] at h'; cases h'
    · exact h'
  · intro e he
    have := h2 e he
    rw [Bool.or_eq_true, List.any_eq_true, Bool.and_eq_true] at this
    rcases this with ⟨s, hs, hs'⟩ | ⟨k1, k2⟩
    · rw [Bool.and_eq_true] at hs'
      exact Or.inl ⟨s, hs, containsVertex_mem s _ hs'.1, containsVertex_mem s _ hs'.2⟩
    · exact Or.inr ⟨containsVertex_mem T0 _ k1, containsVertex_mem T0 _ k2⟩

theorem orient_cyclic (a b c : Vector2) : orient b c a = orient a b c := by
  unfold orient; ring

theorem orient_swap (a b v : Vector2) : orient b a v = -orient a b v := by
  unfold orient; ring

theorem edge_third_vertex (s : Triangle) (hs : s = Triangle.new s.p1 s.p2 s.p3)
    (hD : circumDet s.p1 s.p2 s.p3 ≠ 0) (e0 : Edge)
    (he0 : e0 = s.e1 ∨ e0 = s.e2 ∨ e0 = s.e3) :
    e0.p1 ∈ s.vertices ∧ e0.p2 ∈ s.vertices ∧ ∃ c, orient e0.p1 e0.p2 c ≠ 0 := by
  obtain ⟨⟨w1, w2, w3, _⟩, _, _⟩ := built_fields s hs
  rw [circumDet_eq_orient] at hD
  rcases he0 with rfl | rfl | rfl
  · rw [w1]
    exact ⟨by simp [Triangle.vertices, Edge.new], by simp [Triangle.vertices, Edge.new],
      s.p3, hD⟩
  · rw [w2]
    exact ⟨by simp [Triangle.vertices, Edge.new], by simp [Triangle.vertices, Edge.new],
      s.p1, by
        show orient s.p2 s.p3 s.p1 ≠ 0
        rw [orient_cyclic]; exact hD⟩
  · rw [w3]
    exact ⟨by simp [Triangle.vertices, Edge.new], by simp [Triangle.vertices, Edge.new],
      s.p2, by
        show orient s.p3 s.p1 s.p2 ≠ 0
        rw [orient_cyclic, orient_cyclic]; exact hD⟩

theorem insertPoint_emptyFor (T0 : Triangle) (vs done : List Vector2) (W : List Triangle)
    (p : Vector2)
    (hside : ∀ a c, a ∈ T0.vertices → c ∈ T0.vertices → a ≠ c →
      ∀ q ∈ vs, ∀ q' ∈ vs, 0 < orient a c q * orient a c q')
    (hdone : ∀ q ∈ done, q ∈ vs) (hp : p ∈ vs)
    (hW : ∀ t ∈ W, EmptyFor done t) (hstep : stepExact T0 W p = true) :
    ∀ t ∈ insertPoint W p, EmptyFor (done ++ [p]) t := by
  obtain ⟨hx1, hx3⟩ := stepExact_spec T0 W p hstep
  intro t ht
  rw [insertPoint_eq] at ht
  rcases List.mem_append.1 ht with hk | hn
  · obtain ⟨hm, hrej⟩ := mem_keptTriangles_reject W p t hk
    obtain ⟨hb, hD, hE⟩ := hW t hm
    refine ⟨hb, hD, ?_⟩
    intro q hq
    rcases List.mem_append.1 hq with hq | hq
    · exact hE q hq
    · rw [List.mem_singleton.1 hq]
      exact (outside_of_not_contains t p hrej (hx1 t hm).1).le
  · obtain ⟨e, he, rfl⟩ := List.mem_map.1 hn
    obtain ⟨s, hs, hsbad, e0, he0, h1, h2⟩ := mem_survivingPolygon W p e he
    obtain ⟨hsb, hsD, hsE⟩ := hW s hs
    obtain ⟨ha, hbm, c, hc⟩ := edge_third_vertex s hsb hsD e0 he0
    rw [← h1] at ha
    rw [← h2] at hbm
    rw [← h1, ← h2] at hc
    have hs_on := built_on_circle s hsb hsD
    have hsp := (hx1 s hs).2 hsbad
    have hne : e.p1 ≠ e.p2 :=
      survivingPolygon_ends_ne W p (fun t ht => (built_fields t (hW t ht).1).1) e he
    -- the new triangle is not degenerate
    have hL : orient e.p1 e.p2 p ≠ 0 := by
      rcases hx3 e he with ⟨s', hs', k1, k2⟩ | ⟨k1, k2⟩
      · obtain ⟨hm', hrej'⟩ := mem_keptTriangles_reject W p s' hs'
        obtain ⟨hb', hD', _⟩ := hW s' hm'
        have hs'_on := built_on_circle s' hb' hD'
        exact pencil_nondegenerate s.circum s'.circum e.p1 e.p2 c p _ _
          (hs_on _ ha) (hs_on _ hbm) (hs'_on _ k1) (hs'_on _ k2) hc hsp
          (outside_of_not_contains s' p hrej' (hx1 s' hm').1)
      · have := hside e.p1 e.p2 k1 k2 hne p hp p hp
        intro h0
        rw [h0, mul_zero] at this
        exact lt_irrefl _ this
    have hnD : circumDet (Triangle.new e.p1 e.p2 p).p1 (Triangle.new e.p1 e.p2 p).p2
        (Triangle.new e.p1 e.p2 p).p3 ≠ 0 := by
      show circumDet e.p1 e.p2 p ≠ 0
      rw [circumDet_eq_orient]; exact hL
    have hn_on := built_on_circle (Triangle.new e.p1 e.p2 p) rfl hnD
    have hna := hn_on e.p1 (by simp [Triangle.vertices, Triangle.new])
    have hnb := hn_on e.p2 (by simp [Triangle.vertices, Triangle.new])
    have hnp := hn_on p (by simp [Triangle.vertices, Triangle.new])
    refine ⟨rfl, hnD, ?_⟩
    intro q hq
    rcases List.mem_append.1 hq with hq | hq
    · rcases hx3 e he with ⟨s', hs', k1, k2⟩ | ⟨k1, k2⟩
      · obtain ⟨hm', hrej'⟩ := mem_keptTriangles_reject W p s' hs'
        obtain ⟨hb', hD', hE'⟩ := hW s' hm'
        have hs'_on := built_on_circle s' hb' hD'
        rcases le_total 0 (orient e.p1 e.p2 q * orient e.p1 e.p2 p) with hsd | hsd
        · exact pencil_empty s.circum _ e.p1 e.p2 p q _ _ (hs_on _ ha) (hs_on _ hbm) hna hnb
            hnp hsp (hsE q hq) hsd hL
        · exact pencil_empty_outer s'.circum _ e.p1 e.p2 p q _ _ (hs'_on _ k1) (hs'_on _ k2)
            hna hnb hnp (outside_of_not_contains s' p hrej' (hx1 s' hm').1).le (hE' q hq)
            hsd hL
      · exact pencil_empty s.circum _ e.p1 e.p2 p q _ _ (hs_on _ ha) (hs_on _ hbm) hna hnb
          hnp hsp (hsE q hq) (hside e.p1 e.p2 k1 k2 hne q (hdone q hq) p hp).le hL
    · rw [List.mem_singleton.1 hq, hnp]

theorem foldl_insertPoint_emptyFor (T0 : Triangle) (vs : List Vector2)
    (hside : ∀ a c, a ∈ T0.vertices → c ∈ T0.vertices → a ≠ c →
      ∀ q ∈ vs, ∀ q' ∈ vs, 0 < orient a c q * orient a c q')
    (rest : List Vector2) :
    ∀ (done : List Vector2) (W : List Triangle), (∀ q ∈ done, q ∈ vs) →
      (∀ q ∈ rest, q ∈ vs) → (∀ t ∈ W, EmptyFor done t) → exactRun T0 W rest = true →
      ∀ t ∈ rest.foldl insertPoint W, EmptyFor (done ++ rest) t := by
  induction rest with
  | nil => intro done W _ _ hW _; simpa using hW
  | cons p rest ih =>
    intro done W hdone hrest hW hrun
    rw [exactRun, Bool.and_eq_true] at hrun
    have hp : p ∈ vs := hrest p (List.mem_cons_self _ _)
    have := ih (done ++ [p]) (insertPoint W p)
      (by
        intro q hq
        rcases List.mem_append.1 hq with h | h
        · exact hdone q h
        · rw [List.mem_singleton.1 h]; exact hp)
      (fun q hq => hrest q (List.mem_cons_of_mem _ hq))
      (insertPoint_emptyFor T0 vs done W p hside hdone hp hW hrun.1) hrun.2
    simpa using this

theorem sides_of_inside (q1 q2 q3 : Vector2) (vs : List Vector2)
    (hin : ∀ v ∈ vs, orient q1 q2 v < 0 ∧ orient q2 q3 v < 0 ∧ orient q3 q1 v < 0) :
    ∀ a c, a ∈ (Triangle.new q1 q2 q3).vertices → c ∈ (Triangle.new q1 q2 q3).vertices →
      a ≠ c → ∀ q ∈ vs, ∀ q' ∈ vs, 0 < orient a c q * orient a c q' := by
  intro a c ha hc hac q hq q' hq'
  obtain ⟨u1, u2, u3⟩ := hin q hq
  obtain ⟨w1, w2, w3⟩ := hin q' hq'
  have neg_neg_pos : ∀ x y : ℚ, x < 0 → y < 0 → 0 < -x * -y := fun x y hx hy =>
    mul_pos (by linarith) (by linarith)
  have hv : ∀ x, x ∈ (Triangle.new q1 q2 q3).vertices → x = q1 ∨ x = q2 ∨ x = q3 := by
    intro x hx
    simpa [Triangle.vertices, Triangle.new] using hx
  rcases hv a ha with rfl | rfl | rfl <;> rcases hv c hc with rfl | rfl | rfl
  · exact absurd rfl hac
  · exact mul_pos_of_neg_of_neg u1 w1
  · rw [orient_swap c a q, orient_swap c a q']
    exact neg_neg_pos _ _ u3 w3
  · rw [orient_swap c a q, orient_swap c a q']
    exact neg_neg_pos _ _ u1 w1
  · exact absurd rfl hac
  · exact mul_pos_of_neg_of_neg u2 w2
  · exact mul_pos_of_neg_of_neg u3 w3
  · rw [orient_swap c a q, orient_swap c a q']
    exact neg_neg_pos _ _ u2 w2
  · exact absurd rfl hac

theorem exactRun_append (T0 : Triangle) (pre rest : List Vector2) :
    ∀ W, exactRun T0 W (pre ++ rest) =
      (exactRun T0 W pre && exactRun T0 (pre.foldl insertPoint W) rest) := by
  induction pre with
  | nil => intro W; simp [exactRun]
  | cons p pre ih =>
    intro W
    show (stepExact T0 W p && exactRun T0 (insertPoint W p) (pre ++ rest)) = _
    rw [ih]
    simp only [exactRun, List.foldl_cons, Bool.and_assoc]

theorem run_emptyFor (q1 q2 q3 : Vector2) (vs : List Vector2)
    (hin : ∀ v ∈ vs, orient q1 q2 v < 0 ∧ orient q2 q3 v < 0 ∧ orient q3 q1 v < 0)
    (hD : orient q1 q2 q3 ≠ 0)
    (hrun : exactRun (Triangle.new q1 q2 q3) [Triangle.new q1 q2 q3] vs = true)
    (pre rest : List Vector2) (hsplit : vs = pre ++ rest) :
    ∀ t ∈ pre.foldl insertPoint [Triangle.new q1 q2 q3], EmptyFor pre t := by
  have hrun' : exactRun (Triangle.new q1 q2 q3) [Triangle.new q1 q2 q3] pre = true := by
    rw [hsplit, exactRun_append, Bool.and_eq_true] at hrun
    exact hrun.1
  have := foldl_insertPoint_emptyFor (Triangle.new q1 q2 q3) vs (sides_of_inside q1 q2 q3 vs hin)
    pre [] [Triangle.new q1 q2 q3] (by simp)
    (fun q hq => by rw [hsplit]; exact List.mem_append_left _ hq)
    (by
      intro t ht
      rw [List.mem_singleton.1 ht]
      refine ⟨rfl, ?_, by simp⟩
      show circumDet q1 q2 q3 ≠ 0
      rw [circumDet_eq_orient]; exact hD) hrun'
  simpa using this

/-- C2 (super-triangle exclusion): for every object state and every input on which the
super-triangle is computed, `triangulate` returns, and no returned triangle has one of the three
super-triangle vertices `p1, p2, p3` of that input as a vertex. -/
theorem C2_super_triangle_exclusion (d : Delaunay) (vs : List Vector2) (b : Bounds)
    (hb : boundingBox vs = some b) :
    ∃ d', triangulate d vs = some (d', vs) ∧
      ∀ t ∈ d'.getTriangles, ∀ v,
        v = (superVertices b).1 ∨ v = (superVertices b).2.1 ∨ v = (superVertices b).2.2 →
        t.p1 ≠ v ∧ t.p2 ≠ v ∧ t.p3 ≠ v := by
  refine ⟨_, triangulate_of_boundingBox d vs b hb, ?_⟩
  intro t ht v hv
  obtain ⟨_, h1, h2, h3⟩ := mem_removeSuper b _ t ht
  rcases hv with rfl | rfl | rfl
  · exact containsVertex_eq_false t _ h1
  · exact containsVertex_eq_false t _ h2
  · exact containsVertex_eq_false t _ h3

/-- Witness of C2 on scenario A, whose bounding box is the unit square. -/
theorem C2_super_triangle_exclusion_witness :
    ∃ d', triangulate Delaunay.fresh scenarioA = some (d', scenarioA) ∧
      ∀ t ∈ d'.getTriangles, ∀ v,
        v = (superVertices ⟨0, 0, 1, 1⟩).1 ∨ v = (superVertices ⟨0, 0, 1, 1⟩).2.1 ∨
          v = (superVertices ⟨0, 0, 1, 1⟩).2.2 →
        t.p1 ≠ v ∧ t.p2 ≠ v ∧ t.p3 ≠ v :=
  C2_super_triangle_exclusion Delaunay.fresh scenarioA ⟨0, 0, 1, 1⟩ (by decide!)

/-- C3, failing run: on scenario A the first call on a fresh object leaves 1 triangle and 3
edges; the second call on the same object with the same input leaves 6 triangles and 21 edges,
because `_triangles` and `_edges` are not cleared on entry. -/
theorem C3_second_call_differs :
    (triangulate Delaunay.fresh scenarioA).bind (fun r1 =>
      (triangulate r1.1 scenarioA).map (fun r2 =>
        (r1.1.getTriangles.length, r1.1.getEdges.length,
         r2.1.getTriangles.length, r2.1.getEdges.length))) = some (1, 3, 6, 21) := by
  decide!

/-- C4, amended (one or two points): on a fresh engine an input of one or two points is not
rejected — the super-triangle is built and every point is inserted — but every triangle of the
working set keeps a super-triangle vertex, so the call returns an empty triangle list and an
empty edge list. -/
theorem C4_one_or_two_points (vs : List Vector2) (h1 : 1 ≤ vs.length) (h2 : vs.length < 3) :
    triangulate Delaunay.fresh vs =
      some ({ _triangles := [], _edges := [], _vertices := vs }, vs) := by
  match vs, h1, h2 with
  | [a], _, _ =>
    obtain ⟨b, hb⟩ := boundingBox_cons a []
    rw [triangulate_of_boundingBox _ _ b hb]
    have hW : ∀ t ∈ [a].foldl insertPoint (Delaunay.fresh._triangles ++ [superTriangle b]),
        TouchesSuper b t := by
      intro t ht
      refine (insertPoint_level1 b [superTriangle b] a ?_ t (by simpa [Delaunay.fresh] using ht)).1
      intro s hs
      rw [List.mem_singleton.1 hs]
      exact superTriangle_level0 b
    rw [removeSuper_eq_nil b _ hW]
    rfl
  | [a, c], _, _ =>
    obtain ⟨b, hb⟩ := boundingBox_cons a [c]
    rw [triangulate_of_boundingBox _ _ b hb]
    have hW : ∀ t ∈ [a, c].foldl insertPoint (Delaunay.fresh._triangles ++ [superTriangle b]),
        TouchesSuper b t := by
      intro t ht
      refine insertPoint_level2 b (insertPoint [superTriangle b] a) c ?_ t
        (by simpa [Delaunay.fresh] using ht)
      refine insertPoint_level1 b [superTriangle b] a ?_
      intro s hs
      rw [List.mem_singleton.1 hs]
      exact superTriangle_level0 b
    rw [removeSuper_eq_nil b _ hW]
    rfl
  | [], h1, _ => exact absurd h1 (by decide)
  | _ :: _ :: _ :: _, _, h2 => exact absurd h2 (by simp)

/-- Witness of the amended C4 on an input of two points. -/
theorem C4_one_or_two_points_witness :
    triangulate Delaunay.fresh twoPoints =
      some ({ _triangles := [], _edges := [], _vertices := twoPoints }, twoPoints) :=
  C4_one_or_two_points twoPoints (by decide) (by decide)

/-- C4, counterexample: the empty input makes the call read `vertices[0]` out of bounds, and
on an input of two points the super-triangle is built and both points are inserted, the working
set growing from 1 to 5 triangles. -/
theorem C4_counterexample :
    ([] : List Vector2).length < 3 ∧ triangulate Delaunay.fresh [] = none ∧
    twoPoints.length < 3 ∧
    (boundingBox twoPoints).map
      (fun b => (twoPoints.foldl insertPoint [superTriangle b]).length) = some 5 := by
  decide!

/-- C5 (output edge list): on a freshly constructed engine and a non-empty input, `getEdges()`
is the concatenation, in triangle order, of the edges `e1, e2, e3` of each returned triangle,
so it holds exactly three entries per returned triangle. -/
theorem C5_edges_of_returned_triangles (vs : List Vector2) (hne : vs ≠ []) :
    ∃ d', triangulate Delaunay.fresh vs = some (d', vs) ∧
      d'.getEdges = d'.getTriangles.flatMap (fun t => [t.e1, t.e2, t.e3]) ∧
      d'.getEdges.length = 3 * d'.getTriangles.length := by
  cases vs with
  | nil => exact absurd rfl hne
  | cons v rest =>
    obtain ⟨b, hb⟩ := boundingBox_cons v rest
    refine ⟨_, triangulate_of_boundingBox _ _ b hb, ?_, ?_⟩
    · simp [Delaunay.getEdges, Delaunay.getTriangles, Delaunay.fresh, edgesOf]
    · simp only [Delaunay.getEdges, Delaunay.getTriangles, Delaunay.fresh, edgesOf,
        List.nil_append]
      generalize removeSuper b _ = l
      induction l with
      | nil => rfl
      | cons a l ih => simp only [List.flatMap_cons, List.length_append, ih, List.length_cons,
          List.length_nil]; omega

/-- Witness of C5 on scenario B. -/
theorem C5_edges_of_returned_triangles_witness :
    ∃ d', triangulate Delaunay.fresh scenarioB = some (d', scenarioB) ∧
      d'.getEdges = d'.getTriangles.flatMap (fun t => [t.e1, t.e2, t.e3]) ∧
      d'.getEdges.length = 3 * d'.getTriangles.length :=
  C5_edges_of_returned_triangles scenarioB (List.cons_ne_nil _ _)

/-- C6 (point set passed through): for every object state and every input sequence, either the
input is empty and the call does not return (the read of `vertices[0]` is out of bounds), or the
call returns with `getVertices()` equal to the input, element for element and in order, and
with the caller's vector unchanged. -/
theorem C6_vertices_passed_through (d : Delaunay) (vs : List Vector2) :
    (vs = [] ∧ triangulate d vs = none) ∨
    ∃ d', triangulate d vs = some (d', vs) ∧ d'.getVertices = vs := by
  cases vs with
  | nil => exact Or.inl ⟨rfl, by simp [triangulate, boundingBox]⟩
  | cons v rest =>
    obtain ⟨b, hb⟩ := boundingBox_cons v rest
    exact Or.inr ⟨_, triangulate_of_boundingBox _ _ b hb, rfl⟩

/-- C7 (scenario A): on a fresh engine the input `[(0,0), (1,0), (0,1)]` yields exactly one
triangle, with vertices `(1,0), (0,0), (0,1)` — a rearrangement of the input — and `getEdges()`
then holds exactly 3 edges. -/
theorem C7_scenario_A :
    (triangulate Delaunay.fresh scenarioA).map
        (fun r => (r.1.getTriangles.map Triangle.vertices, r.1.getEdges.length)) =
      some ([[⟨1, 0⟩, ⟨0, 0⟩, ⟨0, 1⟩]], 3) ∧
    List.Perm [(⟨1, 0⟩ : Vector2), ⟨0, 0⟩, ⟨0, 1⟩] scenarioA := by
  constructor
  · decide!
  · decide

/-- C8 (scenario B): on a fresh engine the unit square yields exactly 2 triangles,
`(1,0),(0,0),(0,1)` and `(1,1),(1,0),(0,1)`; all their vertices are corners of the square, and
they share exactly one edge, the diagonal joining `(0,1)` and `(1,0)`. -/
theorem C8_scenario_B :
    (triangulate Delaunay.fresh scenarioB).map
        (fun r => (r.1.getTriangles.map Triangle.vertices,
          match r.1.getTriangles with
          | [s, t] => (sharedEdges s t).map (fun e => (e.p1, e.p2))
          | _ => [])) =
      some ([[⟨1, 0⟩, ⟨0, 0⟩, ⟨0, 1⟩], [⟨1, 1⟩, ⟨1, 0⟩, ⟨0, 1⟩]], [(⟨0, 1⟩, ⟨1, 0⟩)]) ∧
    (∀ v ∈ [(⟨1, 0⟩ : Vector2), ⟨0, 0⟩, ⟨0, 1⟩, ⟨1, 1⟩, ⟨1, 0⟩, ⟨0, 1⟩], v ∈ scenarioB) := by
  constructor
  · decide!
  · decide

/-- C9, failing run: the three points of `flatTriangle` are in general position and all three
are hull vertices, so `2N - H - 2 = 1`, but the engine returns no triangle. -/
theorem C9_flat_triangle_count :
    generalPosition flatTriangle = true ∧ flatTriangle.length = 3 ∧ hullCount flatTriangle = 3 ∧
    (triangulate Delaunay.fresh flatTriangle).map (fun r => r.1.getTriangles.length) = some 0 := by
  decide!

/-- C10, failing run: the segment from `(0,0)` to `(100,0)` is on the convex-hull boundary of
`flatTriangle`, an input in general position, but it does not occur in `getEdges()`. -/
theorem C10_flat_triangle_hull_edge :
    generalPosition flatTriangle = true ∧ isHullEdge flatTriangle ⟨0, 0⟩ ⟨100, 0⟩ = true ∧
    (triangulate Delaunay.fresh flatTriangle).map
      (fun r => occurrences ⟨0, 0⟩ ⟨100, 0⟩ r.1.getEdges) = some 0 := by
  decide!

/-- C13, amended (near-equality comparator in `float` arithmetic): for `float` values `x, y`
and every integer `ulp`, `almost_equal(x, y, ulp)` is true exactly when
`|x - y| ≤ epsilon * |x + y| * ulp` or `|x - y| < smallestNormal` holds with every operation
rounded to `float`.  In terms of the exact values, for `|x|, |y| ≤ 2¹²⁶` and the default `ulp`
of 2: the result is true when `|x - y| ≤ epsilon * |x + y| * 2 * (1 - 2⁻²⁰)` or
`|x - y| < smallestNormal`, and when it is true, `|x - y| ≤ epsilon * |x + y| * 2 * (1 + 2⁻²⁰)`
or `|x - y| < smallestNormal`.  Both machine constants are positive. -/
theorem C13_almost_equal_rounded (x y : ℚ) (ulp : ℤ)
    (hx : roundTo binary32 x = FloatVal.finite x) (hy : roundTo binary32 y = FloatVal.finite y)
    (hxb : |x| ≤ 2 ^ 126) (hyb : |y| ≤ 2 ^ 126) :
    (almost_equalF (FloatVal.finite x) (FloatVal.finite y) ulp = true ↔
      (FloatVal.sub binary32 (FloatVal.finite x) (FloatVal.finite y)).abs.le
          (FloatVal.mul binary32
            (FloatVal.mul binary32 (FloatVal.finite epsilon)
              (FloatVal.add binary32 (FloatVal.finite x) (FloatVal.finite y)).abs)
            (FloatVal.ofInt binary32 ulp)) = true ∨
        (FloatVal.sub binary32 (FloatVal.finite x) (FloatVal.finite y)).abs.lt
          (FloatVal.finite smallestNormal) = true) ∧
    ((|x - y| ≤ epsilon * |x + y| * 2 * (1 - 1 / 2 ^ 20) ∨ |x - y| < smallestNormal) →
        almost_equalF (FloatVal.finite x) (FloatVal.finite y) defaultUlp = true) ∧
    (almost_equalF (FloatVal.finite x) (FloatVal.finite y) defaultUlp = true →
        |x - y| ≤ epsilon * |x + y| * 2 * (1 + 1 / 2 ^ 20) ∨ |x - y| < smallestNormal) ∧
    0 < epsilon ∧ 0 < smallestNormal ∧ defaultUlp = 2 := by
  obtain ⟨h1, h2⟩ := almost_equalF_default x y hx hy hxb hyb
  refine ⟨?_, h1, h2, ?_, ?_, rfl⟩
  · unfold almost_equalF
    rw [Bool.or_eq_true]
  · unfold epsilon; positivity
  · unfold smallestNormal; positivity

/-- Witness of the amended C13 at `x = 1`, `y = 1 + 2⁻²²`, which the comparator accepts. -/
theorem C13_almost_equal_rounded_witness :
    (roundTo binary32 1 = FloatVal.finite 1 ∧
      roundTo binary32 (1 + 1 / 2 ^ 22) = FloatVal.finite (1 + 1 / 2 ^ 22) ∧
      almost_equalF (FloatVal.finite 1) (FloatVal.finite (1 + 1 / 2 ^ 22)) defaultUlp = true) ∧
    (|(1 : ℚ) - (1 + 1 / 2 ^ 22)| ≤ epsilon * |1 + (1 + 1 / 2 ^ 22)| * 2 * (1 + 1 / 2 ^ 20) ∨
      |(1 : ℚ) - (1 + 1 / 2 ^ 22)| < smallestNormal) :=
  ⟨⟨by decide!, by decide!, by decide!⟩,
    (C13_almost_equal_rounded 1 (1 + 1 / 2 ^ 22) 2 (by decide!) (by decide!) (by decide!)
      (by decide!)).2.2.1 (by decide!)⟩

/-- C13, counterexample: for the `float` values `x = 0x1.3ffffap+0` and `y = 0x1.400004p+0`
and `ulp = 2` the function returns true, because `x + y` rounds up to `2.5`, although
`|x - y| = 5 · 2⁻²³` exceeds `epsilon * |x + y| * 2 = 5 · 2⁻²³ - 2⁻⁴⁵` and is not below
`smallestNormal`. -/
theorem C13_counterexample :
    roundTo binary32 roundedSumPair.1 = FloatVal.finite roundedSumPair.1 ∧
    roundTo binary32 roundedSumPair.2 = FloatVal.finite roundedSumPair.2 ∧
    almost_equalF (FloatVal.finite roundedSumPair.1) (FloatVal.finite roundedSumPair.2) 2 =
      true ∧
    ¬ (|roundedSumPair.1 - roundedSumPair.2| ≤
          epsilon * |roundedSumPair.1 + roundedSumPair.2| * ((2 : ℤ) : ℚ) ∨
        |roundedSumPair.1 - roundedSumPair.2| < smallestNormal) := by
  decide!

/-- C14 (edge equality is symmetric and direction-independent): for all points `a, b, c, d`,
`edgesEqual((a,b),(c,d)) = edgesEqual((c,d),(a,b)) = edgesEqual((b,a),(c,d))`, and the edge
`(a,b)` equals its own reversal `(b,a)`. -/
theorem C14_edgesEqual_symmetric (a b c d : Vector2) :
    edgesEqual (Edge.new a b) (Edge.new c d) = edgesEqual (Edge.new c d) (Edge.new a b) ∧
    edgesEqual (Edge.new c d) (Edge.new a b) = edgesEqual (Edge.new b a) (Edge.new c d) ∧
    edgesEqual (Edge.new a b) (Edge.new b a) = true := by
  refine ⟨edgesEqual_comm _ _, ?_, ?_⟩
  · simp only [edgesEqual, Edge.new]
    rw [coordsEqual_comm c a, coordsEqual_comm d b, coordsEqual_comm c b, coordsEqual_comm d a]
    cases coordsEqual a c <;> cases coordsEqual b d <;>
      cases coordsEqual b c <;> cases coordsEqual a d <;> rfl
  · simp [edgesEqual, Edge.new, coordsEqual_self]

/-- C15, failing run: the three raw points are already sorted and no two neighbours are
near-duplicates, so `sortAndUnique` returns all three; the first and the third entry differ by
`2⁻³³` in `x` and not at all in `y`, a pair of near-duplicates. -/
theorem C15_near_duplicates_survive :
    sortAndUnique rawPoints = rawPoints ∧
    nearDuplicate ⟨1, 1⟩ ⟨1 + 1 / 2 ^ 33, 1⟩ = true ∧
    hasNearDuplicates (sortAndUnique rawPoints) = true := by
  decide!

/-- C16, amended (super-triangle covers the input): for every input whose coordinates are at
most `2¹⁶ · deltaMax` in absolute value, with `2⁻⁶⁰ ≤ deltaMax ≤ 2¹⁰⁰`, lines 40–49 computed
in `float` give a super-triangle with finite vertices whose circumcircle test accepts every
input point, so that the insertion of any input point into the working set that holds only the
super-triangle removes the super-triangle. -/
theorem C16_super_triangle_covers (vs : List Vector2) (b : Bounds)
    (hb : boundingBox vs = some b)
    (hM : ∀ v ∈ vs, |v.x| ≤ 2 ^ 16 * b.deltaMax ∧ |v.y| ≤ 2 ^ 16 * b.deltaMax)
    (hlo : 1 / 2 ^ 60 ≤ b.deltaMax) (hhi : b.deltaMax ≤ 2 ^ 100) :
    ∃ q1 q2 q3, superVerticesF b = some (q1, q2, q3) ∧
      ∀ v ∈ vs, (Triangle.new q1 q2 q3).circumCircleContains v = true ∧
        keptTriangles [Triangle.new q1 q2 q3] v = [] := by
  obtain ⟨q1, q2, q3, hq, ho, hin⟩ := superF_inside vs b hb hM hlo hhi
  refine ⟨q1, q2, q3, hq, ?_⟩
  intro v hv
  obtain ⟨o1, o2, o3⟩ := hin v hv
  have hδ : 0 < b.deltaMax := lt_of_lt_of_le (by positivity) hlo
  have hdet : circumDet q1 q2 q3 ≤ -(800 * b.deltaMax ^ 2) := by
    rw [circumDet_eq_orient]; exact ho
  have hsq : (1 / 2 ^ 60 : ℚ) ^ 2 ≤ b.deltaMax ^ 2 :=
    pow_le_pow_left₀ (by positivity) hlo 2
  have hne : circumDet q1 q2 q3 ≠ 0 := by
    have : 0 < b.deltaMax ^ 2 := by positivity
    linarith
  have hguard : almost_equal (circumDet q1 q2 q3) 0 defaultUlp = false := by
    apply almost_equal_zero_eq_false
    rw [abs_of_nonpos (by have : 0 < b.deltaMax ^ 2 := by positivity
                          linarith)]
    unfold smallestNormal
    norm_num at hsq ⊢
    linarith
  have hc : (Triangle.new q1 q2 q3).circumCircleContains v = true := by
    unfold Triangle.circumCircleContains
    rw [show (Triangle.new q1 q2 q3).p1 = q1 from rfl,
      show (Triangle.new q1 q2 q3).p2 = q2 from rfl,
      show (Triangle.new q1 q2 q3).p3 = q3 from rfl, hguard]
    simp only [Bool.false_eq_true, if_false, Bool.or_eq_true, decide_eq_true_eq]
    left
    exact inside_circumcircle q1 q2 q3 v hne o1.le o2.le o3.le
  refine ⟨hc, ?_⟩
  simp [keptTriangles, scanTriangles, hc]

/-- Witness of the amended C16 on scenario A, whose bounding box is the unit square. -/
theorem C16_super_triangle_covers_witness :
    (boundingBox scenarioA = some ⟨0, 0, 1, 1⟩ ∧
      (∀ v ∈ scenarioA, |v.x| ≤ 2 ^ 16 * (⟨0, 0, 1, 1⟩ : Bounds).deltaMax ∧
        |v.y| ≤ 2 ^ 16 * (⟨0, 0, 1, 1⟩ : Bounds).deltaMax) ∧
      1 / 2 ^ 60 ≤ (⟨0, 0, 1, 1⟩ : Bounds).deltaMax ∧
      (⟨0, 0, 1, 1⟩ : Bounds).deltaMax ≤ 2 ^ 100) ∧
    ∃ q1 q2 q3, superVerticesF ⟨0, 0, 1, 1⟩ = some (q1, q2, q3) ∧
      ∀ v ∈ scenarioA, (Triangle.new q1 q2 q3).circumCircleContains v = true ∧
        keptTriangles [Triangle.new q1 q2 q3] v = [] :=
  ⟨⟨by decide!, by decide!, by decide!, by decide!⟩,
    C16_super_triangle_covers scenarioA ⟨0, 0, 1, 1⟩ (by decide!) (by decide!) (by decide!)
      (by decide!)⟩

/-- C16, counterexample: for three copies of one point the super-triangle shrinks to that
point; for the three points of `farAwayPoints`, whose `deltaMax` is 1, the three vertices
computed in `float` all get the `y` coordinate `2³⁰`.  In both cases the circumcircle test of
the super-triangle rejects every input point. -/
theorem C16_counterexample :
    3 ≤ identicalPoints.length ∧ 3 ≤ farAwayPoints.length ∧
    (boundingBox identicalPoints).bind (fun b => (superVerticesF b).map (fun q =>
      (q, identicalPoints.map (fun v => (Triangle.new q.1 q.2.1 q.2.2).circumCircleContains v)))) =
      some ((⟨0, 0⟩, ⟨0, 0⟩, ⟨0, 0⟩), [false, false, false]) ∧
    (boundingBox farAwayPoints).bind (fun b => (superVerticesF b).map (fun q =>
      (b.deltaMax, q,
        farAwayPoints.map (fun v => (Triangle.new q.1 q.2.1 q.2.2).circumCircleContains v)))) =
      some (1, (⟨-39 / 2, 2 ^ 30⟩, ⟨1 / 2, 2 ^ 30⟩, ⟨41 / 2, 2 ^ 30⟩), [false, false, false]) := by
  decide!

/-- C17, amended (triangles built during a call).  Let `q1, q2, q3` be the super-triangle
vertices that lines 40–49 compute in `float`.  When the input coordinates are at most
`2¹⁶ · deltaMax` in absolute value and `2⁻⁶⁰ ≤ deltaMax ≤ 2¹⁰⁰`, the super-triangle has three
non-collinear vertices (twice its signed area is at most `-800 · deltaMax²`), and if moreover
the insertion run from it consists of exact steps only, every triangle `(e.p1, e.p2, p)` added
in an insertion step has three non-collinear vertices.  The same holds for the added
triangles, whatever the tolerance decides, when the input points and `q1, q2, q3` are pairwise
distinct and no three of them are collinear. -/
theorem C17_constructed_triangles (vs : List Vector2) (b : Bounds) (q1 q2 q3 : Vector2)
    (hb : boundingBox vs = some b) (hq : superVerticesF b = some (q1, q2, q3)) :
    ((∀ v ∈ vs, |v.x| ≤ 2 ^ 16 * b.deltaMax ∧ |v.y| ≤ 2 ^ 16 * b.deltaMax) →
      1 / 2 ^ 60 ≤ b.deltaMax → b.deltaMax ≤ 2 ^ 100 →
      (orient q1 q2 q3 ≤ -(800 * b.deltaMax ^ 2) ∧ orient q1 q2 q3 ≠ 0) ∧
      (exactRun (Triangle.new q1 q2 q3) [Triangle.new q1 q2 q3] vs = true →
        ∀ pre p post, vs = pre ++ p :: post →
          ∀ e ∈ survivingPolygon (pre.foldl insertPoint [Triangle.new q1 q2 q3]) p,
            orient e.p1 e.p2 p ≠ 0)) ∧
    ((q1 :: q2 :: q3 :: vs).Nodup → NoThreeCollinear (q1 :: q2 :: q3 :: vs) →
      ∀ pre p post, vs = pre ++ p :: post →
        ∀ e ∈ survivingPolygon (pre.foldl insertPoint [Triangle.new q1 q2 q3]) p,
          orient e.p1 e.p2 p ≠ 0) := by
  constructor
  · intro hM hlo hhi
    obtain ⟨r1, r2, r3, hr, ho, hin⟩ := superF_inside vs b hb hM hlo hhi
    rw [hq] at hr
    obtain ⟨rfl, rfl, rfl⟩ : q1 = r1 ∧ q2 = r2 ∧ q3 = r3 := by
      simpa using hr
    have hne : orient q1 q2 q3 ≠ 0 := by
      have : 0 < b.deltaMax ^ 2 := by
        have : 0 < b.deltaMax := lt_of_lt_of_le (by positivity) hlo
        positivity
      linarith
    refine ⟨⟨ho, hne⟩, ?_⟩
    intro hrun pre p post hsplit e he
    have hE := run_emptyFor q1 q2 q3 vs hin hne hrun (pre ++ [p]) post (by simp [hsplit])
      (Triangle.new e.p1 e.p2 p) (by
        rw [List.foldl_append, List.foldl_cons, List.foldl_nil, insertPoint_eq]
        exact List.mem_append_right _ (List.mem_map.2 ⟨e, he, rfl⟩))
    have := hE.2.1
    rw [circumDet_eq_orient] at this
    exact this
  · intro hnd hgp pre p post hsplit e he
    have hW := foldl_insertPoint_builtFrom (fun v => v ∈ [q1, q2, q3]) pre []
      [Triangle.new q1 q2 q3]
      (new_wellFormed_builtFrom (fun v => v ∈ [q1, q2, q3]) q1 q2 q3 (by simp) (by simp)
        (by simp))
    rw [List.nil_append] at hW
    obtain ⟨hne, h1, h2⟩ := survivingPolygon_ends_builtFrom _ pre _ p hW e he
    exact builtFrom_orient_ne (fun v => v ∈ [q1, q2, q3]) [q1, q2, q3] vs (fun _ h => h)
      (by simpa using hnd) (by simpa using hgp) pre post p e.p1 e.p2 hsplit hne h1 h2

/-- Witness of the amended C17 on scenario A, which satisfies the bounds, whose run consists
of exact steps, and whose points are in general position together with the super-triangle
vertices. -/
theorem C17_constructed_triangles_witness :
    ((boundingBox scenarioA = some ⟨0, 0, 1, 1⟩ ∧
        superVerticesF ⟨0, 0, 1, 1⟩ = some (⟨-39 / 2, -1 / 2⟩, ⟨1 / 2, 41 / 2⟩, ⟨41 / 2, -1 / 2⟩)) ∧
      exactRun (Triangle.new ⟨-39 / 2, -1 / 2⟩ ⟨1 / 2, 41 / 2⟩ ⟨41 / 2, -1 / 2⟩)
        [Triangle.new ⟨-39 / 2, -1 / 2⟩ ⟨1 / 2, 41 / 2⟩ ⟨41 / 2, -1 / 2⟩] scenarioA = true ∧
      ((([⟨-39 / 2, -1 / 2⟩, ⟨1 / 2, 41 / 2⟩, ⟨41 / 2, -1 / 2⟩] : List Vector2) ++
        scenarioA).Nodup)) ∧
    ((orient ⟨-39 / 2, -1 / 2⟩ ⟨1 / 2, 41 / 2⟩ ⟨41 / 2, -1 / 2⟩ ≤
        -(800 * (⟨0, 0, 1, 1⟩ : Bounds).deltaMax ^ 2) ∧
      orient ⟨-39 / 2, -1 / 2⟩ ⟨1 / 2, 41 / 2⟩ ⟨41 / 2, -1 / 2⟩ ≠ 0) ∧
      ∀ pre p post, scenarioA = pre ++ p :: post →
        ∀ e ∈ survivingPolygon (pre.foldl insertPoint
            [Triangle.new ⟨-39 / 2, -1 / 2⟩ ⟨1 / 2, 41 / 2⟩ ⟨41 / 2, -1 / 2⟩]) p,
          orient e.p1 e.p2 p ≠ 0) ∧
    ∀ pre p post, scenarioA = pre ++ p :: post →
      ∀ e ∈ survivingPolygon (pre.foldl insertPoint
          [Triangle.new ⟨-39 / 2, -1 / 2⟩ ⟨1 / 2, 41 / 2⟩ ⟨41 / 2, -1 / 2⟩]) p,
        orient e.p1 e.p2 p ≠ 0 :=
  ⟨⟨⟨by decide!, by decide!⟩, by decide!, by decide!⟩,
    ⟨((C17_constructed_triangles scenarioA ⟨0, 0, 1, 1⟩ ⟨-39 / 2, -1 / 2⟩ ⟨1 / 2, 41 / 2⟩
      ⟨41 / 2, -1 / 2⟩ (by decide!) (by decide!)).1 (by decide!) (by decide!) (by decide!)).1,
     ((C17_constructed_triangles scenarioA ⟨0, 0, 1, 1⟩ ⟨-39 / 2, -1 / 2⟩ ⟨1 / 2, 41 / 2⟩
      ⟨41 / 2, -1 / 2⟩ (by decide!) (by decide!)).1 (by decide!) (by decide!) (by decide!)).2
        (by decide!)⟩,
    (C17_constructed_triangles scenarioA ⟨0, 0, 1, 1⟩ ⟨-39 / 2, -1 / 2⟩ ⟨1 / 2, 41 / 2⟩
      ⟨41 / 2, -1 / 2⟩ (by decide!) (by decide!)).2 (by decide!)
      (by unfold NoThreeCollinear; decide!)⟩

/-- C17, counterexample: for three copies of one point the three vertices of the
super-triangle coincide; for `farAwayPoints`, with `deltaMax = 1`, the three vertices computed
in `float` lie on the line `y = 2³⁰`; and for `collinearInput` the third insertion step builds
a triangle on the edge from `(0,0)` to `(1,0)` with the collinear point `(1025/1024, 0)`. -/
theorem C17_counterexample :
    3 ≤ identicalPoints.length ∧ 3 ≤ farAwayPoints.length ∧ 3 ≤ collinearInput.length ∧
    (boundingBox identicalPoints).bind (fun b => (superVerticesF b).map (fun q =>
      (q, orient q.1 q.2.1 q.2.2))) = some ((⟨0, 0⟩, ⟨0, 0⟩, ⟨0, 0⟩), 0) ∧
    (boundingBox farAwayPoints).bind (fun b => (superVerticesF b).map (fun q =>
      (b.deltaMax, q, orient q.1 q.2.1 q.2.2))) =
      some (1, (⟨-39 / 2, 2 ^ 30⟩, ⟨1 / 2, 2 ^ 30⟩, ⟨41 / 2, 2 ^ 30⟩), 0) ∧
    (boundingBox collinearInput).bind (fun b => (superVerticesF b).map (fun q =>
      ((survivingPolygon ((collinearInput.take 2).foldl insertPoint
          [Triangle.new q.1 q.2.1 q.2.2]) ⟨1025 / 1024, 0⟩).filter
        (fun e => decide (orient e.p1 e.p2 ⟨1025 / 1024, 0⟩ = 0))).map Edge.ends)) =
      some [(⟨0, 0⟩, ⟨1, 0⟩)] := by
  decide!

/-- C18 (cavity edge de-duplication): for a `polygon` list of unmarked edges, the edges left by
lines 89–104 are exactly the entries that are `edgesEqual` to no entry at another position
(every entry that equals some other entry is removed, however often it occurs), and they keep
their original relative order. -/
theorem C18_polygon_deduplication (polygon : List Edge) (h : ∀ e ∈ polygon, e.isBad = false) :
    (markDuplicates polygon).filter (fun e => !e.isBad) = survivorsBySpec [] polygon ∧
    List.Sublist ((markDuplicates polygon).filter (fun e => !e.isBad)) polygon := by
  have hEq : (markDuplicates polygon).filter (fun e => !e.isBad) = survivorsBySpec [] polygon :=
    markDuplicatesAux_filter polygon.length polygon [] rfl (by intro f hf; simpa using h f hf)
  refine ⟨hEq, ?_⟩
  rw [hEq]
  exact survivorsBySpec_sublist polygon []

/-- Witness of C18 on a list whose first and last entry are one edge in opposite directions. -/
theorem C18_polygon_deduplication_witness :
    (markDuplicates samplePolygon).filter (fun e => !e.isBad) = survivorsBySpec [] samplePolygon ∧
    List.Sublist ((markDuplicates samplePolygon).filter (fun e => !e.isBad)) samplePolygon :=
  C18_polygon_deduplication samplePolygon (by decide!)

/-- C19 (bad-triangle removal): in the insertion step for `p` on a working set without marked
triangles, the triangles that stay are those whose circumcircle does not contain `p`, in their
original order; so the removed ones are exactly those whose circumcircle contains `p`, and
`polygon` receives the edges `e1, e2, e3` of each removed triangle in scan order, three entries
per removed triangle.  The working set after the step has no marked triangle either. -/
theorem C19_bad_triangle_removal (W : List Triangle) (p : Vector2)
    (hW : ∀ t ∈ W, t.isBad = false) :
    insertPoint W p =
      keptTriangles W p ++ (survivingPolygon W p).map (fun e => Triangle.new e.p1 e.p2 p) ∧
    keptTriangles W p = W.filter (fun t => !t.circumCircleContains p) ∧
    scannedPolygon W p =
      (W.filter (fun t => t.circumCircleContains p)).flatMap (fun t => [t.e1, t.e2, t.e3]) ∧
    (scannedPolygon W p).length = 3 * (W.filter (fun t => t.circumCircleContains p)).length ∧
    ∀ t ∈ insertPoint W p, t.isBad = false := by
  refine ⟨rfl, ?_, scan_snd_flatMap p W, ?_, ?_⟩
  · unfold keptTriangles
    rw [scan_fst_filter]
    apply List.filter_congr
    intro t ht
    rw [hW t ht]
    simp
  · unfold scannedPolygon
    rw [scan_snd_flatMap, length_flatMap_edges]
  · intro t ht
    rcases mem_insertPoint W p t ht with ⟨htW, _⟩ | ⟨s, _, e, _, rfl⟩
    · exact hW t htW
    · rfl

/-- Witness of C19: the first insertion of scenario A, into the working set that holds only the
super-triangle. -/
theorem C19_bad_triangle_removal_witness :
    insertPoint [superTriangle ⟨0, 0, 1, 1⟩] ⟨0, 0⟩ =
      keptTriangles [superTriangle ⟨0, 0, 1, 1⟩] ⟨0, 0⟩ ++
        (survivingPolygon [superTriangle ⟨0, 0, 1, 1⟩] ⟨0, 0⟩).map
          (fun e => Triangle.new e.p1 e.p2 ⟨0, 0⟩) ∧
    keptTriangles [superTriangle ⟨0, 0, 1, 1⟩] ⟨0, 0⟩ =
      [superTriangle ⟨0, 0, 1, 1⟩].filter (fun t => !t.circumCircleContains ⟨0, 0⟩) ∧
    scannedPolygon [superTriangle ⟨0, 0, 1, 1⟩] ⟨0, 0⟩ =
      ([superTriangle ⟨0, 0, 1, 1⟩].filter (fun t => t.circumCircleContains ⟨0, 0⟩)).flatMap
        (fun t => [t.e1, t.e2, t.e3]) ∧
    (scannedPolygon [superTriangle ⟨0, 0, 1, 1⟩] ⟨0, 0⟩).length =
      3 * ([superTriangle ⟨0, 0, 1, 1⟩].filter (fun t => t.circumCircleContains ⟨0, 0⟩)).length ∧
    ∀ t ∈ insertPoint [superTriangle ⟨0, 0, 1, 1⟩] ⟨0, 0⟩, t.isBad = false :=
  C19_bad_triangle_removal [superTriangle ⟨0, 0, 1, 1⟩] ⟨0, 0⟩
    (by intro t ht; rw [List.mem_singleton.1 ht]; rfl)

/-- C20 (cavity re-fill): an insertion step for `p` leaves a sublist of the old working set and
appends behind it exactly one triangle `(e.p1, e.p2, p)` per surviving polygon edge `e`, in
polygon order; the points are inserted in the order given, so the step that follows the prefix
`pre` of the input inserts the next point `p`, and every triangle it appends has `p` as its
third vertex. -/
theorem C20_cavity_refill (W : List Triangle) (pre post : List Vector2) (p : Vector2) :
    (pre ++ p :: post).foldl insertPoint W =
      post.foldl insertPoint (insertPoint (pre.foldl insertPoint W) p) ∧
    insertPoint (pre.foldl insertPoint W) p =
      keptTriangles (pre.foldl insertPoint W) p ++
        (survivingPolygon (pre.foldl insertPoint W) p).map (fun e => Triangle.new e.p1 e.p2 p) ∧
    List.Sublist (keptTriangles (pre.foldl insertPoint W) p) (pre.foldl insertPoint W) ∧
    ∀ t ∈ (survivingPolygon (pre.foldl insertPoint W) p).map
        (fun e => Triangle.new e.p1 e.p2 p),
      t.p3 = p ∧ ∃ e ∈ survivingPolygon (pre.foldl insertPoint W) p,
        t.p1 = e.p1 ∧ t.p2 = e.p2 := by
  refine ⟨by rw [List.foldl_append, List.foldl_cons], rfl, ?_, ?_⟩
  · unfold keptTriangles
    rw [scan_fst_filter]
    exact List.filter_sublist _
  · intro t ht
    obtain ⟨e, he, rfl⟩ := List.mem_map.1 ht
    exact ⟨rfl, e, he, rfl, rfl⟩

/-- C21 (vertex provenance): on a fresh engine and a non-empty input, every vertex of every
returned triangle and every endpoint of every edge in `getEdges()` is one of the input points:
the working triangles only ever have input points and super-triangle vertices as vertices, and
the final filter drops every triangle with a super-triangle vertex. -/
theorem C21_vertex_provenance (vs : List Vector2) (hne : vs ≠ []) :
    ∃ d', triangulate Delaunay.fresh vs = some (d', vs) ∧
      (∀ t ∈ d'.getTriangles, t.p1 ∈ vs ∧ t.p2 ∈ vs ∧ t.p3 ∈ vs) ∧
      (∀ e ∈ d'.getEdges, e.p1 ∈ vs ∧ e.p2 ∈ vs) := by
  cases vs with
  | nil => exact absurd rfl hne
  | cons v rest =>
    obtain ⟨b, hb⟩ := boundingBox_cons v rest
    have key : ∀ t ∈ removeSuper b ((v :: rest).foldl insertPoint
        (Delaunay.fresh._triangles ++ [superTriangle b])),
        t.WellFormed ∧ t.p1 ∈ v :: rest ∧ t.p2 ∈ v :: rest ∧ t.p3 ∈ v :: rest := by
      intro t ht
      obtain ⟨hm, c1, c2, c3⟩ := mem_removeSuper b _ t ht
      obtain ⟨hwf, hv⟩ := foldl_insertPoint_provenance b (v :: rest) (v :: rest)
        (fun p hp => hp) [superTriangle b]
        (by
          intro s hs
          rw [List.mem_singleton.1 hs]
          exact superTriangle_provenance b (v :: rest)) t
        (by simpa [Delaunay.fresh] using hm)
      obtain ⟨a1, a2, a3⟩ := containsVertex_eq_false t _ c1
      obtain ⟨b1, b2, b3⟩ := containsVertex_eq_false t _ c2
      obtain ⟨d1, d2, d3⟩ := containsVertex_eq_false t _ c3
      refine ⟨hwf, ?_, ?_, ?_⟩
      · rcases hv t.p1 (by simp [Triangle.vertices]) with h | (h | h | h)
        · exact h
        · exact absurd h a1
        · exact absurd h b1
        · exact absurd h d1
      · rcases hv t.p2 (by simp [Triangle.vertices]) with h | (h | h | h)
        · exact h
        · exact absurd h a2
        · exact absurd h b2
        · exact absurd h d2
      · rcases hv t.p3 (by simp [Triangle.vertices]) with h | (h | h | h)
        · exact h
        · exact absurd h a3
        · exact absurd h b3
        · exact absurd h d3
    refine ⟨_, triangulate_of_boundingBox _ _ b hb, ?_, ?_⟩
    · intro t ht
      exact (key t ht).2
    · intro e he
      have he' : e ∈ edgesOf (removeSuper b ((v :: rest).foldl insertPoint
          (Delaunay.fresh._triangles ++ [superTriangle b]))) := by
        simpa [Delaunay.getEdges, Delaunay.fresh] using he
      unfold edgesOf at he'
      obtain ⟨t, ht, het⟩ := List.mem_flatMap.1 he'
      obtain ⟨⟨w1, w2, w3, _⟩, k1, k2, k3⟩ := key t ht
      simp only [List.mem_cons, List.mem_singleton, List.not_mem_nil, or_false] at het
      rcases het with rfl | rfl | rfl
      · rw [w1]; exact ⟨k1, k2⟩
      · rw [w2]; exact ⟨k2, k3⟩
      · rw [w3]; exact ⟨k3, k1⟩

/-- Witness of C21 on scenario B. -/
theorem C21_vertex_provenance_witness :
    ∃ d', triangulate Delaunay.fresh scenarioB = some (d', scenarioB) ∧
      (∀ t ∈ d'.getTriangles, t.p1 ∈ scenarioB ∧ t.p2 ∈ scenarioB ∧ t.p3 ∈ scenarioB) ∧
      (∀ e ∈ d'.getEdges, e.p1 ∈ scenarioB ∧ e.p2 ∈ scenarioB) :=
  C21_vertex_provenance scenarioB (List.cons_ne_nil _ _)

/-- C23, amended (gift-wrapping hull): for `n ≥ 3` pairwise distinct input points on which the
`double` evaluation decides the signs of the cross products and the distance comparisons as the
exact values do, `giftWrapping` returns a list that starts at the leftmost input point (the
lowest one among equal `x`), consists of pairwise distinct input points, at least two of them
and at least three when the input is not all collinear, and for every pair of cyclically
consecutive entries `h, h'` every input point `r` has `crossProduct(h, h', r) ≥ 0`, both as
the exact value and as the value the code computes. -/
theorem C23_gift_wrapping_hull (points : List Point) (hn : 3 ≤ points.length)
    (hnd : points.Nodup) (hS : SignsExact points) :
    ∃ hull, giftWrappingD points = some hull ∧
      (∃ h0, hull.head? = some h0 ∧ h0 ∈ points ∧
        ∀ r ∈ points, h0.x < r.x ∨ (h0.x = r.x ∧ h0.y ≤ r.y)) ∧
      (∀ h ∈ hull, h ∈ points) ∧ hull.Nodup ∧ 2 ≤ hull.length ∧
      ((∃ a ∈ points, ∃ b ∈ points, ∃ c ∈ points, crossProduct a b c ≠ 0) →
        3 ≤ hull.length) ∧
      ∀ s, s < hull.length → ∀ r ∈ points,
        0 ≤ crossProduct (hull.getD s ⟨0, 0⟩) (hull.getD ((s + 1) % hull.length) ⟨0, 0⟩) r ∧
        (crossProductD (hull.getD s ⟨0, 0⟩) (hull.getD ((s + 1) % hull.length) ⟨0, 0⟩) r).lt
          (FloatVal.finite 0) = false := by
  obtain ⟨k, hk2, _, hret, hgw, hne, hall⟩ := giftWrapping_orbit points hn hnd
  have e1 : ∀ s, s < k → ((List.range k).map (fun s => pointAt points
      ((nextHullIndex points)^[s] (leftmostIndex points)))).getD s ⟨0, 0⟩ =
      pointAt points ((nextHullIndex points)^[s] (leftmostIndex points)) := by
    intro s hs
    rw [List.getD_eq_getElem _ _ (by simpa using hs)]
    simp
  have e2 : ∀ s, s < k → ((List.range k).map (fun s => pointAt points
      ((nextHullIndex points)^[s] (leftmostIndex points)))).getD ((s + 1) % k) ⟨0, 0⟩ =
      pointAt points ((nextHullIndex points)^[s + 1] (leftmostIndex points)) := by
    intro s hs
    have hlt : (s + 1) % k < k := Nat.mod_lt _ (by omega)
    rw [List.getD_eq_getElem _ _ (by simpa using hlt)]
    simp only [List.getElem_map, List.getElem_range]
    by_cases h : s + 1 < k
    · rw [Nat.mod_eq_of_lt h]
    · have hk : s + 1 = k := by omega
      rw [hk, Nat.mod_self, hret]
      rfl
  refine ⟨_, by rw [giftWrappingD_eq points hS]; exact hgw, ?_, ?_, ?_, ?_, ?_, ?_⟩
  · obtain ⟨t, rfl⟩ : ∃ t, k = t + 1 := ⟨k - 1, by omega⟩
    refine ⟨pointAt points (leftmostIndex points), ?_, pointAt_mem _ _ (hall 0).1, ?_⟩
    · rw [List.range_succ_eq_map, List.map_cons, List.head?_cons]
      rfl
    · intro r hr
      obtain ⟨j, hj, rfl⟩ := exists_pointAt_of_mem points r hr
      exact (leftmostIndex_spec points (by omega)).2 j hj
  · intro h hh
    obtain ⟨s, _, rfl⟩ := List.mem_map.1 hh
    exact pointAt_mem _ _ (hall s).1
  · refine List.Nodup.map_on ?_ (List.nodup_range k)
    intro i hi j hj he
    rw [List.mem_range] at hi hj
    rcases lt_trichotomy i j with h | h | h
    · exact absurd he (hne i j h hj)
    · exact h
    · exact absurd he.symm (hne j i h hi)
  · rw [List.length_map, List.length_range]
    exact hk2
  · rintro ⟨a, ha, b, hb, c, hc, habc⟩
    rw [List.length_map, List.length_range]
    by_contra hlt
    have hk : k = 2 := by omega
    have hret2 : (nextHullIndex points)^[1 + 1] (leftmostIndex points) =
        leftmostIndex points := by
      have := hret
      rw [hk] at this
      exact this
    have hzero : ∀ r ∈ points, crossProduct
        (pointAt points ((nextHullIndex points)^[0] (leftmostIndex points)))
        (pointAt points ((nextHullIndex points)^[1] (leftmostIndex points))) r = 0 := by
      intro r hr
      have h0 := (hall 0).2 r hr
      have h1 := (hall 1).2 r hr
      rw [hret2] at h1
      rw [zero_add] at h0
      have hrev := crossProduct_reverse
        (pointAt points ((nextHullIndex points)^[0] (leftmostIndex points)))
        (pointAt points ((nextHullIndex points)^[1] (leftmostIndex points))) r
      rw [Function.iterate_zero, id] at hrev h0 ⊢
      linarith
    exact habc (collinear_of_on_line _ _ a b c (hne 0 1 (by omega) (by omega))
      (hzero a ha) (hzero b hb) (hzero c hc))
  · intro s hs r hr
    rw [List.length_map, List.length_range] at hs ⊢
    rw [e1 s hs, e2 s hs]
    have hge := (hall s).2 r hr
    refine ⟨hge, ?_⟩
    obtain ⟨h1, h2, _⟩ := hS _ (pointAt_mem _ _ (hall s).1) _ (pointAt_mem _ _ (hall (s + 1)).1)
      r hr
    exact floatVal_not_lt_zero _ _ hge h1 h2

/-- Witness of the amended C23 on the corners of the unit square together with its centre. -/
theorem C23_gift_wrapping_hull_witness :
    ∃ hull, giftWrappingD squareWithCentre = some hull ∧
      (∃ h0, hull.head? = some h0 ∧ h0 ∈ squareWithCentre ∧
        ∀ r ∈ squareWithCentre, h0.x < r.x ∨ (h0.x = r.x ∧ h0.y ≤ r.y)) ∧
      (∀ h ∈ hull, h ∈ squareWithCentre) ∧ hull.Nodup ∧ 2 ≤ hull.length ∧
      ((∃ a ∈ squareWithCentre, ∃ b ∈ squareWithCentre, ∃ c ∈ squareWithCentre,
          crossProduct a b c ≠ 0) → 3 ≤ hull.length) ∧
      ∀ s, s < hull.length → ∀ r ∈ squareWithCentre,
        0 ≤ crossProduct (hull.getD s ⟨0, 0⟩) (hull.getD ((s + 1) % hull.length) ⟨0, 0⟩) r ∧
        (crossProductD (hull.getD s ⟨0, 0⟩) (hull.getD ((s + 1) % hull.length) ⟨0, 0⟩) r).lt
          (FloatVal.finite 0) = false :=
  C23_gift_wrapping_hull squareWithCentre (by decide) (by decide!)
    (by unfold SignsExact; decide!)

/-- C23, counterexample: the three doubles nearest to `(0.1, 0)`, `(0.3, 0.5)`, `(0.5, 1)` are
pairwise distinct and not collinear, and `giftWrapping` in `double` arithmetic returns only the
first and the third; the second lies strictly to the right of the hull edge from the third
back to the first, the exact cross product being `-2⁻⁵⁶`. -/
theorem C23_counterexample :
    3 ≤ nearlyCollinearPoints.length ∧ nearlyCollinearPoints.Nodup ∧
    crossProduct (pointAt nearlyCollinearPoints 0) (pointAt nearlyCollinearPoints 1)
      (pointAt nearlyCollinearPoints 2) ≠ 0 ∧
    giftWrappingD nearlyCollinearPoints =
      some [pointAt nearlyCollinearPoints 0, pointAt nearlyCollinearPoints 2] ∧
    crossProduct (pointAt nearlyCollinearPoints 2) (pointAt nearlyCollinearPoints 0)
      (pointAt nearlyCollinearPoints 1) = -(1 / 2 ^ 56) := by
  decide!

/-- C24 (gift wrapping terminates with a bounded result): for every input, duplicates and
collinear points included, the loop ends within the `n + 1` iterations its own condition
allows (more iterations allowed change nothing), so `giftWrapping` returns; it returns the input
unchanged when `n < 3` and at most `n + 1` points otherwise. -/
theorem C24_gift_wrapping_terminates (points : List Point) :
    ∃ hull, giftWrapping points = some hull ∧
      (points.length < 3 → hull = points) ∧
      (3 ≤ points.length → hull.length ≤ points.length + 1 ∧
        ∀ extra, wrapLoop points (leftmostIndex points) (points.length + 1 + extra)
          (leftmostIndex points) [] = some hull) := by
  unfold giftWrapping
  by_cases h : points.length < 3
  · rw [if_pos h]
    exact ⟨points, rfl, fun _ => rfl, fun h3 => by omega⟩
  · rw [if_neg h]
    obtain ⟨r, hr, hlen⟩ := wrapLoop_terminates points (leftmostIndex points)
      (points.length + 1) (leftmostIndex points) [] (by simp) (by simp)
    exact ⟨r, hr, fun h3 => absurd h3 h,
      fun _ => ⟨hlen, fun extra => wrapLoop_more_fuel _ _ _ _ _ _ extra hr⟩⟩

/-- C25 (the comparator is reflexive and symmetric but not transitive): `almost_equal(x, x)`
holds and `almost_equal(x, y) = almost_equal(y, x)` for all `x, y` (and every `ulp`), while
with the default `ulp` of 2 the values `1`, `1 + 2⁻²¹`, `1 + 2⁻²⁰` are near-equal pairwise
along the chain but the first and the last are not. -/
theorem C25_almost_equal_not_transitive :
    (∀ (x : ℚ) (ulp : ℤ), almost_equal x x ulp = true) ∧
    (∀ (x y : ℚ) (ulp : ℤ), almost_equal x y ulp = almost_equal y x ulp) ∧
    ∃ x y z : ℚ, almost_equal x y defaultUlp = true ∧ almost_equal y z defaultUlp = true ∧
      almost_equal x z defaultUlp = false := by
  refine ⟨?_, almost_equal_comm, 1, 1 + 1 / 2 ^ 21, 1 + 1 / 2 ^ 20, by decide!, by decide!,
    by decide!⟩
  intro x ulp
  unfold almost_equal
  have : (0 : ℚ) < smallestNormal := by unfold smallestNormal; positivity
  simp [this]

end CGFinal
